import Mathlib

/-!
# tini: host-side driver for Flytec and Brauniger flight recorders

A shallow embedding of `flytec.c`, `regexp.c` and `tini.h`, followed by the
theorems that settle the claims of the specification.

Conventions of the embedding.

* A byte (`char`, `unsigned char`) is a `Nat` below 256.
* What a `char *` points to is a `List Nat`: the bytes from the pointer on.
  The C string it denotes ends at the first `0` byte, or at the end of the
  list (the terminating NUL is then implicit).
* A C `int` is an `Int`.
* `error(...)` and `DIE(...)` never return: a function that may reach them
  returns `Except Fatal _`.
* The outcome `Fatal.undefined_behaviour` marks an execution that leaves what
  C defines (a null or out-of-bounds access, a signed overflow).  Nothing is
  claimed about the program after it.
-/

namespace Tini

deriving instance DecidableEq for Except

/-! ## Interval sets (`regexp.c`) -/

/-- One node of the linked list `set_t` of `tini.h`: an interval `first .. last`,
where `-1` in a bound is the sentinel for "unbounded".  The `next` pointer is
the tail of the Lean list that holds the nodes. -/
structure set_t where
  first : Int
  last : Int
deriving DecidableEq, Repr

/-- Embedding of `set_include` (`regexp.c`): walk the list, return 1 (`true`) at the first
node that matches, 0 (`false`) when the list is exhausted. -/
def set_include : List set_t → Int → Bool
  | [], _ => false
  | set :: next, element =>
    if set.first = -1 ∧ set.last = -1 then
      true
    else if set.first = -1 ∧ set.last ≠ -1 then
      if element ≤ set.last then true else set_include next element
    else if set.first ≠ -1 ∧ set.last = -1 then
      if set.first ≤ element then true else set_include next element
    else
      if set.first ≤ element ∧ element ≤ set.last then true else set_include next element

/-- Specification side: when an interval contains an element, in the words of the
specification (a sentinel bound is unbounded, ordinary bounds are inclusive). -/
def interval_contains (iv : set_t) (e : Int) : Prop :=
  (iv.first = -1 ∧ iv.last = -1) ∨
  (iv.first = -1 ∧ iv.last ≠ -1 ∧ e ≤ iv.last) ∨
  (iv.first ≠ -1 ∧ iv.last = -1 ∧ iv.first ≤ e) ∨
  (iv.first ≠ -1 ∧ iv.last ≠ -1 ∧ iv.first ≤ e ∧ e ≤ iv.last)

/-! ## Fatal outcomes -/

/-- The ways in which the program stops: every call of `error` or `DIE` in
`flytec.c` and `regexp.c`, and the executions that C leaves undefined. -/
inductive Fatal where
  /-- `error("%s: timeout waiting for data")` in `flytec_read`. -/
  | timeout_waiting_for_data
  /-- `DIE("read", ...)` in `flytec_read`. -/
  | die_read
  /-- `error("%s: unexpected character")` in `flytec_expectc`. -/
  | unexpected_character
  /-- `DIE("snprintf", 0)` in `flytec_puts_nmea`. -/
  | die_snprintf
  /-- `DIE(__FUNCTION__, 0)` in `flytec_gets`: the line does not fit the buffer. -/
  | die_flytec_gets
  /-- `DIE("flytec_gets_nmea", 0)` in `flytec_pbrsnp`. -/
  | die_flytec_gets_nmea
  /-- `error("%s: invalid NMEA response")` in `flytec_gets_nmea`. -/
  | invalid_NMEA_response
  /-- `error("%s: invalid response")` in `flytec_pbrsnp` and `flytec_pbrtl`. -/
  | invalid_response
  /-- `error("%s: inconsistent data")` in `flytec_pbrtl`. -/
  | inconsistent_data
  /-- `error("snprintf")` in `flytec_pbrtl`. -/
  | error_snprintf
  /-- `DIE("mktime", errno)` in `track_new`. -/
  | die_mktime
  /-- `error("invalid list")` in `set_merge`. -/
  | invalid_list
  /-- The execution leaves defined behaviour. -/
  | undefined_behaviour
deriving DecidableEq, Repr

/-! ## C strings -/

/-- The C string that starts at a pointer: the bytes before the first NUL. -/
def c_str (p : List Nat) : List Nat :=
  p.takeWhile (fun c => c ≠ 0)

/-- Embedding of `strlen`. -/
def strlen (p : List Nat) : Nat :=
  (c_str p).length

/-- The byte `p[i]`; reading at the end of the list reads the terminating NUL. -/
def byte_at (p : List Nat) (i : Nat) : Nat :=
  p.getD i 0

/-- The loop `checksum ^= (unsigned char) *p` over a run of bytes, starting from `checksum = 0`. -/
def xor_bytes (bytes : List Nat) : Nat :=
  bytes.foldl (fun checksum c => checksum ^^^ (c % 256)) 0

/-! ## Session state -/

/-- Embedding of `snp_t` (`tini.h`). -/
structure snp_t where
  instrument_id : List Nat
  pilot_name : List Nat
  serial_number : Int
  software_version : List Nat
deriving DecidableEq, Repr

/-- Embedding of `track_t` (`tini.h`).  `igc_filename` is `none` while the pointer is NULL. -/
structure track_t where
  count : Int
  index : Int
  date : Int
  day_index : Int
  time : Int
  duration : Int
  igc_filename : Option (List Nat)
deriving DecidableEq, Repr

/-- Embedding of `flytec_t` (`tini.h`).

* `snp`, `manufacturer`, `pilot_name`, `trackv` are `none` while the pointer is NULL;
* `trackv` is the allocated array of track pointers, a slot being `none` while it is NULL;
* `unread` is the part `next .. end` of the receive buffer `buf`;
* `device` is the transport: the blocks that the following calls of `read` deliver;
* `written` is the list of blocks handed to `write` so far.

The file descriptor, the device name and the log file are not represented. -/
structure flytec_t where
  snp : Option snp_t
  manufacturer : Option (List Nat)
  pilot_name : Option (List Nat)
  serial_number : Int
  trackc : Int
  trackv : Option (List (Option track_t))
  unread : List Nat
  device : List (List Nat)
  written : List (List Nat)
deriving DecidableEq, Repr

/-- The flow-control marker `XON` (`tini.h`). -/
def XON : Nat := 0x11

/-- The flow-control marker `XOFF` (`tini.h`). -/
def XOFF : Nat := 0x13

/-! ## Sentence framing (`flytec.c`) -/

/-- One upper-case hexadecimal digit, as `%X` prints it. -/
def hex_upper (d : Nat) : Nat :=
  if d < 10 then 48 + d else 55 + d

/-- The conversion `%02X` of `printf`: upper-case hexadecimal, at least two digits, zero padded. -/
def printf_02X (n : Nat) : List Nat :=
  if n < 256 then [hex_upper (n / 16), hex_upper (n % 16)]
  else (Nat.toDigits 16 n).map (fun c => c.toUpper.toNat)

/-- The string that `snprintf(buf, len, "$%s*%02X\r\n", s, checksum)` prints in
`flytec_puts_nmea`, with `checksum` the XOR of the bytes of `s`. -/
def nmea_sentence (s : List Nat) : List Nat :=
  [36] ++ c_str s ++ [42] ++ printf_02X (xor_bytes (c_str s)) ++ [13, 10]

/-- Embedding of `flytec_puts_nmea`.  The buffer of `len = strlen(s) + 7` bytes holds the
sentence and its terminating NUL; `write(flytec->fd, buf, len)` is handed all `len` bytes. -/
def flytec_puts_nmea (flytec : flytec_t) (s : List Nat) : Except Fatal flytec_t :=
  let len := strlen s + 7
  let buf := nmea_sentence s
  if buf.length ≠ len - 1 then
    .error .die_snprintf
  else
    .ok { flytec with written := flytec.written ++ [(buf ++ [0]).take len] }

/-- The value of a checksum character as `flytec_gets_nmea` reads it: `0`-`9` and `A`-`F`
are digits, every other character is an error. -/
def xdigit_value (xdigit : Nat) : Option Nat :=
  if 48 ≤ xdigit ∧ xdigit ≤ 57 then some (xdigit - 48)
  else if 65 ≤ xdigit ∧ xdigit ≤ 70 then some (xdigit - 65 + 0xa)
  else none

/-- The part of `flytec_gets_nmea` that follows the call of `flytec_gets`: validate the line
in `buf` and strip the framing.  The result is the payload left in `buf`. -/
def flytec_gets_nmea_check (buf : List Nat) : Except Fatal (List Nat) :=
  let len := strlen buf
  if len < 6 then
    .error .invalid_NMEA_response
  else if byte_at buf 0 ≠ 36 ∨ byte_at buf (len - 5) ≠ 42 ∨ byte_at buf (len - 2) ≠ 13
      ∨ byte_at buf (len - 1) ≠ 10 then
    .error .invalid_NMEA_response
  else
    let checksum := xor_bytes ((buf.drop 1).take (len - 6))
    match xdigit_value (byte_at buf (len - 4)) with
    | none => .error .invalid_NMEA_response
    | some high =>
      match xdigit_value (byte_at buf (len - 3)) with
      | none => .error .invalid_NMEA_response
      | some low =>
        let result := high * 16 + low
        if checksum ≠ result then
          .error .invalid_NMEA_response
        else
          .ok ((buf.drop 1).take (len - 6))

/-- Text as bytes, for examples. -/
def bytes (s : String) : List Nat :=
  s.toList.map Char.toNat

/-- Specification side: the upper-case hexadecimal digits `0`-`9`, `A`-`F`, the digits
that the framing emits. -/
def is_hex_digit (c : Nat) : Prop :=
  (48 ≤ c ∧ c ≤ 57) ∨ (65 ≤ c ∧ c ≤ 70)

instance (c : Nat) : Decidable (is_hex_digit c) := by
  unfold is_hex_digit; infer_instance

/-- Specification side: the value of a hexadecimal digit. -/
def hex_digit_value (c : Nat) : Nat :=
  if c ≤ 57 then c - 48 else c - 55

/-- Specification side: the XOR of a run of bytes. -/
def xor_fold (l : List Nat) : Nat :=
  l.foldl (fun a c => a ^^^ c) 0

/-- Specification side: the acceptance condition of a received line, in the words of the
specification: at least 6 characters, `$` first, `*` five characters before the end,
CR LF last, and two checksum characters that are hexadecimal digits whose value is the XOR
of the bytes strictly between the `$` and the `*`. -/
def nmea_line_valid (line : List Nat) : Prop :=
  6 ≤ line.length ∧
  line.getD 0 0 = 36 ∧
  line.getD (line.length - 5) 0 = 42 ∧
  line.getD (line.length - 2) 0 = 13 ∧
  line.getD (line.length - 1) 0 = 10 ∧
  is_hex_digit (line.getD (line.length - 4) 0) ∧
  is_hex_digit (line.getD (line.length - 3) 0) ∧
  16 * hex_digit_value (line.getD (line.length - 4) 0)
    + hex_digit_value (line.getD (line.length - 3) 0)
    = xor_fold ((line.drop 1).take (line.length - 6))

instance (line : List Nat) : Decidable (nmea_line_valid line) := by
  unfold nmea_line_valid; infer_instance

/-! ## Serial channel (`flytec.c`) -/

/-- The state that `flytec_new` returns: every field of the zeroed allocation is 0 or NULL.
The argument is the transport: the blocks that the device will deliver. -/
def flytec_new (device : List (List Nat)) : flytec_t :=
  { snp := none, manufacturer := none, pilot_name := none, serial_number := 0, trackc := 0,
    trackv := none, unread := [], device := device, written := [] }

/-- Embedding of `flytec_read`.  `select` times out when the device has nothing more to
deliver; `read(fd, buf, sizeof buf)` takes at most 128 bytes of the next block, and a read
of 0 bytes is fatal.  Failures of `select` and `read` themselves are not represented. -/
def flytec_read (flytec : flytec_t) : Except Fatal flytec_t :=
  match flytec.device with
  | [] => .error .timeout_waiting_for_data
  | block :: rest =>
    if block.length = 0 then
      .error .die_read
    else
      .ok { flytec with
        unread := block.take 128
        device := if block.length ≤ 128 then rest else block.drop 128 :: rest }

/-- Embedding of `flytec_getc`; `EOF` is `-1`.  A `char` converts to `int` as a signed
byte. -/
def flytec_getc (flytec : flytec_t) : Except Fatal (Int × flytec_t) :=
  match (if flytec.unread = [] then flytec_read flytec else .ok flytec) with
  | .error e => .error e
  | .ok flytec =>
    match flytec.unread with
    | [] => .ok (-1, flytec)
    | c :: unread =>
      .ok (if c < 128 then (c : Int) else (c : Int) - 256, { flytec with unread := unread })

/-- Embedding of `flytec_expectc`. -/
def flytec_expectc (flytec : flytec_t) (c : Nat) : Except Fatal flytec_t :=
  match flytec_getc flytec with
  | .error e => .error e
  | .ok (got, flytec) =>
    if got ≠ (c : Int) then .error .unexpected_character else .ok flytec

/-- The `while (1)` loop of `flytec_gets`.  `len` is the value of the counter before the
decrement `--len`, `stored` the bytes stored in the caller's buffer so far.  The loop is
entered with `next != end`. -/
def flytec_gets_loop : Nat → flytec_t → List Nat → Except Fatal (List Nat × flytec_t)
  | 0, _, _ => .error .die_flytec_gets
  | 1, _, _ => .error .die_flytec_gets
  | len + 2, flytec, stored =>
    match flytec.unread with
    | [] => .error .undefined_behaviour
    | c :: unread =>
      let flytec := { flytec with unread := unread }
      if c = 10 then
        .ok (stored ++ [c], flytec)
      else
        match (if unread = [] then flytec_read flytec else .ok flytec) with
        | .error e => .error e
        | .ok flytec => flytec_gets_loop (len + 1) flytec (stored ++ [c])

/-- Embedding of `flytec_gets`.  The result is `none` when the function returns 0 (the next
unread byte is `XON`), and otherwise the line stored in the caller's buffer of `size` bytes
(the terminating NUL is implicit). -/
def flytec_gets (flytec : flytec_t) (size : Nat) :
    Except Fatal (Option (List Nat) × flytec_t) :=
  match (if flytec.unread = [] then flytec_read flytec else .ok flytec) with
  | .error e => .error e
  | .ok flytec =>
    if byte_at flytec.unread 0 = XON then
      .ok (none, flytec)
    else
      match flytec_gets_loop size flytec [] with
      | .error e => .error e
      | .ok (buf, flytec) => .ok (some buf, flytec)

/-- Embedding of `flytec_gets_nmea`. -/
def flytec_gets_nmea (flytec : flytec_t) (size : Nat) :
    Except Fatal (Option (List Nat) × flytec_t) :=
  match flytec_gets flytec size with
  | .error e => .error e
  | .ok (none, flytec) => .ok (none, flytec)
  | .ok (some buf, flytec) =>
    match flytec_gets_nmea_check buf with
    | .error e => .error e
    | .ok payload => .ok (some payload, flytec)

/-! ## Matchers (`regexp.c`) -/

/-- A `const char *` cursor of the matchers. -/
inductive cursor where
  /-- The failed sentinel: a NULL pointer. -/
  | null
  /-- A pointer into the text, with the bytes from it on. -/
  | ptr (p : List Nat)
  /-- The execution has left defined behaviour (a pointer moved beyond the terminating NUL,
  or a signed overflow happened). -/
  | undefined
deriving DecidableEq, Repr

/-- The byte `*p`; at the end of the text it is the terminating NUL. -/
def deref (p : List Nat) : Nat :=
  p.headD 0

/-- The pointer `++p`. -/
def advance (p : List Nat) : cursor :=
  match p with
  | [] => .undefined
  | _ :: p => .ptr p

/-- The largest `int`. -/
def INT_MAX : Int := 2147483647

/-- Embedding of `isdigit`. -/
def isdigit (c : Nat) : Bool :=
  48 ≤ c ∧ c ≤ 57

/-- Embedding of `match_char`. -/
def match_char (p : cursor) (c : Nat) : cursor :=
  match p with
  | .ptr p => if deref p = c then advance p else .null
  | p => p

/-- The loop of `match_literal` and its final test `*s ? 0 : p`. -/
def match_literal_loop : List Nat → List Nat → cursor
  | p, [] => .ptr p
  | p, c :: s =>
    if deref p ≠ 0 ∧ c ≠ 0 ∧ deref p = c then
      match_literal_loop p.tail s
    else if c ≠ 0 then .null else .ptr p

/-- Embedding of `match_literal`. -/
def match_literal (p : cursor) (s : List Nat) : cursor :=
  match p with
  | .ptr p => match_literal_loop p s
  | p => p

/-- The loop `while (isdigit(*p))` of `match_unsigned`.  The expression
`10 * *result + *p - '0'` overflows when `10 * *result + *p` exceeds `INT_MAX`. -/
def match_unsigned_loop : List Nat → Int → cursor × Int
  | [], result => (.ptr [], result)
  | c :: p, result =>
    if isdigit c then
      if 10 * result + c > INT_MAX then (.undefined, result)
      else match_unsigned_loop p (10 * result + c - 48)
    else (.ptr (c :: p), result)

/-- Embedding of `match_unsigned`.  The second argument is the value of `*result` before
the call, which a failed match leaves in place. -/
def match_unsigned (p : cursor) (result : Int) : cursor × Int :=
  match p with
  | .ptr p =>
    if ¬ isdigit (deref p) then (.null, result)
    else match_unsigned_loop p.tail ((deref p : Int) - 48)
  | p => (p, result)

/-- Embedding of `match_eos`. -/
def match_eos (p : cursor) : cursor :=
  match p with
  | .ptr p => if deref p ≠ 0 then .null else .ptr p
  | p => p

/-! ## Track descriptors (`regexp.c`, `tini.h`) -/

/-- The fields of `struct tm` that the program sets. -/
structure tm where
  tm_sec : Int
  tm_min : Int
  tm_hour : Int
  tm_mday : Int
  tm_mon : Int
  tm_year : Int
deriving DecidableEq, Repr

/-- Embedding of the macro `DATE_NEW` (`tini.h`); `x << k` is `x * 2 ^ k`. -/
def DATE_NEW (t : tm) : Int :=
  t.tm_year * 2 ^ 9 + t.tm_mon * 2 ^ 5 + t.tm_mday

/-- Embedding of the macro `DATE_YEAR` (`tini.h`); `x >> k` is the floor of `x / 2 ^ k`. -/
def DATE_YEAR (date : Int) : Int :=
  date / 2 ^ 9

/-- Embedding of the macro `DATE_MON` (`tini.h`); `x & 0xf` is `x` modulo 16. -/
def DATE_MON (date : Int) : Int :=
  (date / 2 ^ 5) % 16

/-- Embedding of the macro `DATE_MDAY` (`tini.h`); `x & 0x1f` is `x` modulo 32. -/
def DATE_MDAY (date : Int) : Int :=
  date % 32

/-- The text `PBRTL,`. -/
def PBRTL : List Nat := [80, 66, 82, 84, 76, 44]

/-- Embedding of `track_new`.  The result is `none` when the function returns 0.
`mktime` is the function of the C library, a parameter of the embedding.  The shifts of
`DATE_NEW` and the sums are defined only while their operands and results are
non-negative and at most `INT_MAX`. -/
def track_new (mktime : tm → Int) (p : List Nat) : Except Fatal (Option track_t) :=
  let p := match_literal (.ptr p) PBRTL
  let (p, count) := match_unsigned p 0
  let p := match_char p 44
  let (p, index) := match_unsigned p 0
  let p := match_char p 44
  let (p, tm_mday) := match_unsigned p 0
  let p := match_char p 46
  let (p, tm_mon) := match_unsigned p 0
  let p := match_char p 46
  let (p, tm_year) := match_unsigned p 0
  let p := match_char p 44
  let (p, tm_hour) := match_unsigned p 0
  let p := match_char p 58
  let (p, tm_min) := match_unsigned p 0
  let p := match_char p 58
  let (p, tm_sec) := match_unsigned p 0
  let p := match_char p 44
  let (p, duration_hour) := match_unsigned p 0
  let p := match_char p 58
  let (p, duration_min) := match_unsigned p 0
  let p := match_char p 58
  let (p, duration_sec) := match_unsigned p 0
  let p := match_eos p
  match p with
  | .undefined => .error .undefined_behaviour
  | .null => .ok none
  | .ptr _ =>
    let t : tm :=
      { tm_sec := tm_sec, tm_min := tm_min, tm_hour := tm_hour, tm_mday := tm_mday,
        tm_mon := tm_mon - 1, tm_year := tm_year + (2000 - 1900) }
    if t.tm_mon < 0 ∨ t.tm_year > INT_MAX ∨ DATE_NEW t > INT_MAX then
      .error .undefined_behaviour
    else if mktime t = -1 then
      .error .die_mktime
    else if 3600 * duration_hour + 60 * duration_min + duration_sec > INT_MAX then
      .error .undefined_behaviour
    else
      .ok (some
        { count := count, index := index, date := DATE_NEW t, day_index := 0,
          time := mktime t,
          duration := 3600 * duration_hour + 60 * duration_min + duration_sec,
          igc_filename := none })

/-! ## Track listing (`flytec.c`) -/

/-- Embedding of `igc_filename_format_t` (`tini.h`). -/
inductive igc_filename_format_t where
  | igc_filename_format_long
  | igc_filename_format_short
deriving DecidableEq, Repr

/-- The table `base36` of `flytec.c`: the text `0123456789ABCDEFGHIJKLMNOPQRSTUVWXYZ`. -/
def base36 : List Nat :=
  [48, 49, 50, 51, 52, 53, 54, 55, 56, 57,
   65, 66, 67, 68, 69, 70, 71, 72, 73, 74, 75, 76, 77,
   78, 79, 80, 81, 82, 83, 84, 85, 86, 87, 88, 89, 90]

/-- The read `base36[i]`; an index outside the 36 entries is an out-of-bounds read. -/
def base36_at (i : Int) : Except Fatal Nat :=
  if 0 ≤ i ∧ i < 36 then .ok (base36.getD i.toNat 0) else .error .undefined_behaviour

/-- The decimal numeral of a natural number, as bytes. -/
def decimal (n : Nat) : List Nat :=
  (Nat.toDigits 10 n).map Char.toNat

/-- The conversions `%d` (`width = 0`) and `%0<width>d` of `printf`. -/
def printf_d (width : Nat) (n : Int) : List Nat :=
  if n < 0 then
    45 :: (List.replicate (width - 1 - (decimal n.natAbs).length) 48 ++ decimal n.natAbs)
  else
    List.replicate (width - (decimal n.natAbs).length) 48 ++ decimal n.natAbs

/-- The body of the `switch (filename_format)` of `flytec_pbrtl`: the file name that one
iteration of the loop stores in `track->igc_filename`.  `manufacturer` is the local variable
of `flytec_pbrtl` (`none` when it is NULL), `serial_number` is `flytec->serial_number`.
C's `/` and `%` truncate towards zero. -/
def igc_filename (filename_format : igc_filename_format_t) (manufacturer : Option (List Nat))
    (serial_number : Int) (track : track_t) : Except Fatal (List Nat) :=
  match filename_format with
  | .igc_filename_format_long =>
    match manufacturer with
    | none => .error .undefined_behaviour
    | some manufacturer =>
      let text :=
        printf_d 4 (DATE_YEAR track.date + 1900) ++ [45]
          ++ printf_d 2 (DATE_MON track.date + 1) ++ [45]
          ++ printf_d 2 (DATE_MDAY track.date) ++ [45]
          ++ c_str manufacturer ++ [45]
          ++ printf_d 0 serial_number ++ [45]
          ++ printf_d 2 track.day_index ++ [46, 73, 71, 67]
      if text.length > 128 then .error .error_snprintf else .ok (text.take 127)
  | .igc_filename_format_short =>
    match manufacturer with
    | none => .error .undefined_behaviour
    | some manufacturer =>
      match base36_at (serial_number.tmod 36),
          base36_at ((serial_number.tdiv 36).tmod 36),
          base36_at (((serial_number.tdiv 36).tdiv 36).tmod 36),
          base36_at ((DATE_YEAR track.date).tmod 10),
          base36_at (DATE_MON track.date + 1),
          base36_at (DATE_MDAY track.date),
          base36_at track.day_index with
      | .ok s0, .ok s1, .ok s2, .ok year, .ok mon, .ok mday, .ok day_index =>
        let text := [year, mon, mday, deref manufacturer] ++ [s0, s1, s2] ++ [day_index]
          ++ [46, 73, 71, 67]
        if text.length > 16 then .error .error_snprintf else .ok (c_str (text.take 15))
      | _, _, _, _, _, _, _ => .error .undefined_behaviour

/-- The access `trackv[i]->...`: the track that slot `i` points to.  A NULL slot and a slot
outside the array leave defined behaviour. -/
def track_at (trackv : List (Option track_t)) (i : Nat) : Except Fatal track_t :=
  match trackv.getD i none with
  | some track => .ok track
  | none => .error .undefined_behaviour

/-- The loop `for (i = trackc - 2; i >= 0; --i)` of `flytec_pbrtl`; the first argument is
`i + 1`. -/
def day_index_loop : Nat → List (Option track_t) → Except Fatal (List (Option track_t))
  | 0, trackv => .ok trackv
  | i + 1, trackv =>
    match track_at trackv i, track_at trackv (i + 1) with
    | .ok track, .ok next =>
      day_index_loop i (trackv.set i (some { track with
        day_index := if track.date = next.date then next.day_index + 1 else 1 }))
    | _, _ => .error .undefined_behaviour

/-- The block "calculate daily flight indexes" of `flytec_pbrtl`, entered with
`trackc != 0`. -/
def flytec_pbrtl_day_indexes (trackc : Int) (trackv : List (Option track_t)) :
    Except Fatal (List (Option track_t)) :=
  if trackc ≤ 0 then
    .error .undefined_behaviour
  else
    match track_at trackv (trackc.toNat - 1) with
    | .error e => .error e
    | .ok last =>
      day_index_loop (trackc.toNat - 1)
        (trackv.set (trackc.toNat - 1) (some { last with day_index := 1 }))

/-- The loop `for (i = 0; i < trackc; ++i)` of `flytec_pbrtl` ("calculate igc filenames");
the first argument is the number of iterations left, the second is `i`. -/
def igc_filenames_loop (filename_format : igc_filename_format_t)
    (manufacturer : Option (List Nat)) (serial_number : Int) :
    Nat → Nat → List (Option track_t) → Except Fatal (List (Option track_t))
  | 0, _, trackv => .ok trackv
  | left + 1, i, trackv =>
    match track_at trackv i with
    | .error e => .error e
    | .ok track =>
      match igc_filename filename_format manufacturer serial_number track with
      | .error e => .error e
      | .ok name =>
        igc_filenames_loop filename_format manufacturer serial_number left (i + 1)
          (trackv.set i (some { track with igc_filename := some name }))

/-- The number of bytes that the session can still receive. -/
def pending (flytec : flytec_t) : Nat :=
  flytec.unread.length + (flytec.device.map List.length).sum

/-- The size of a pointer, `sizeof(track_t *)`. -/
def sizeof_pointer : Int := 8

/-- The body of the loop `while (flytec_gets_nmea(flytec, line, sizeof line))` of
`flytec_pbrtl`, from the test `track->index != index++` to the assignment
`flytec->trackv[track->index] = track`; `index` is the value of the local variable before
the increment.  The array `trackv` is allocated with `trackc + 1` zeroed slots; the size
`(trackc + 1) * sizeof(track_t *)` has to fit the `int` parameter of `alloc`. -/
def flytec_pbrtl_store (flytec : flytec_t) (track : track_t) (index : Int) :
    Except Fatal flytec_t :=
  if track.index ≠ index then
    .error .inconsistent_data
  else
    match flytec.trackv with
    | some trackv =>
      if track.count ≠ flytec.trackc then
        .error .inconsistent_data
      else if track.index.toNat < trackv.length ∧ 0 ≤ track.index then
        .ok { flytec with trackv := some (trackv.set track.index.toNat (some track)) }
      else
        .error .undefined_behaviour
    | none =>
      if (track.count + 1) * sizeof_pointer > INT_MAX then
        .error .undefined_behaviour
      else if track.index.toNat < (track.count + 1).toNat ∧ 0 ≤ track.index then
        .ok { flytec with
          trackc := track.count
          trackv := some ((List.replicate (track.count + 1).toNat none).set
            track.index.toNat (some track)) }
      else
        .error .undefined_behaviour

/-- The loop `while (flytec_gets_nmea(flytec, line, sizeof line))` of `flytec_pbrtl`, with
the local variable `index`.  The first argument bounds the number of iterations of the
embedding (`none` when the bound is reached; `pending flytec + 1` iterations suffice). -/
def flytec_pbrtl_loop (mktime : tm → Int) :
    Nat → flytec_t → Int → Option (Except Fatal (flytec_t × Int))
  | 0, _, _ => none
  | fuel + 1, flytec, index =>
    match flytec_gets_nmea flytec 128 with
    | .error e => some (.error e)
    | .ok (none, flytec) => some (.ok (flytec, index))
    | .ok (some line, flytec) =>
      match track_new mktime line with
      | .error e => some (.error e)
      | .ok none => some (.error .invalid_response)
      | .ok (some track) =>
        match flytec_pbrtl_store flytec track index with
        | .error e => some (.error e)
        | .ok flytec => flytec_pbrtl_loop mktime fuel flytec (index + 1)

/-- The statement `if (flytec->trackc) { ... } else { ... }` of `flytec_pbrtl` that follows
the receiving loop: compute the day indexes and the file names of the first `trackc`
descriptors, or, when `trackc` is 0, replace `trackv` by an array of one zeroed slot. -/
def flytec_pbrtl_finish (flytec : flytec_t) (manufacturer : Option (List Nat))
    (filename_format : igc_filename_format_t) : Except Fatal flytec_t :=
  if flytec.trackc ≠ 0 then
    match flytec.trackv with
    | none => .error .undefined_behaviour
    | some trackv =>
      match flytec_pbrtl_day_indexes flytec.trackc trackv with
      | .error e => .error e
      | .ok trackv =>
        match igc_filenames_loop filename_format manufacturer flytec.serial_number
            flytec.trackc.toNat 0 trackv with
        | .error e => .error e
        | .ok trackv => .ok { flytec with trackv := some trackv }
  else
    .ok { flytec with trackv := some [none] }

/-- The part of `flytec_pbrtl` from the declaration of `line` to the `return`: receive the
descriptors, compute the day indexes and the file names, expect `XON`.  `manufacturer` is the
local variable after `manufacturer = manufacturer ? manufacturer : flytec->manufacturer`.
The result is the returned `flytec->trackv` and the session; it is `none` when the bound on
the iterations of the receiving loop is reached, which does not happen
(`flytec_pbrtl_body_returns`). -/
def flytec_pbrtl_body (mktime : tm → Int) (flytec : flytec_t)
    (manufacturer : Option (List Nat)) (filename_format : igc_filename_format_t) :
    Option (Except Fatal (List (Option track_t) × flytec_t)) :=
  match flytec_pbrtl_loop mktime (pending flytec + 1) flytec 0 with
  | none => none
  | some (.error e) => some (.error e)
  | some (.ok (flytec, _)) =>
    match flytec_pbrtl_finish flytec manufacturer filename_format with
    | .error e => some (.error e)
    | .ok flytec =>
      match flytec_expectc flytec XON with
      | .error e => some (.error e)
      | .ok flytec => some (.ok (flytec.trackv.getD [], flytec))

/-! ## Identity query and track listing (`regexp.c`, `flytec.c`) -/

/-- Embedding of `match_string_until`.  The second component is the text stored in
`*result`, `none` when the function returns before the allocation. -/
def match_string_until (p : cursor) (c : Nat) (consume : Bool) :
    cursor × Option (List Nat) :=
  match p with
  | .ptr p =>
    let text := p.takeWhile (fun b => b ≠ 0 ∧ b ≠ c)
    let stop := p.dropWhile (fun b => b ≠ 0 ∧ b ≠ c)
    (if consume then advance stop else .ptr stop, some text)
  | p => (p, none)

/-- The text `PBRSNP,`. -/
def PBRSNP : List Nat := [80, 66, 82, 83, 78, 80, 44]

/-- Embedding of `snp_new`.  The result is `none` when the function returns 0. -/
def snp_new (p : List Nat) : Except Fatal (Option snp_t) :=
  let p := match_literal (.ptr p) PBRSNP
  let (p, instrument_id) := match_string_until p 44 true
  let (p, pilot_name) := match_string_until p 44 true
  let (p, serial_number) := match_unsigned p 0
  let p := match_char p 44
  let (p, software_version) := match_string_until p 0 false
  let p := match_eos p
  match p with
  | .undefined => .error .undefined_behaviour
  | .null => .ok none
  | .ptr _ =>
    .ok (some
      { instrument_id := instrument_id.getD [], pilot_name := pilot_name.getD [],
        serial_number := serial_number, software_version := software_version.getD [] })

/-- Embedding of `manufacturer_new`; `strcmp` compares the C strings. -/
def manufacturer_new (instrument_id : List Nat) : List Nat :=
  if c_str instrument_id = bytes "5020" ∨ c_str instrument_id = bytes "5030"
      ∨ c_str instrument_id = bytes "6020" ∨ c_str instrument_id = bytes "6030" then
    bytes "FLY"
  else if c_str instrument_id = bytes "COMPEO" ∨ c_str instrument_id = bytes "COMPEO+"
      ∨ c_str instrument_id = bytes "COMPETINO" ∨ c_str instrument_id = bytes "COMPETINO+"
      ∨ c_str instrument_id = bytes "GALILEO" then
    bytes "BRA"
  else
    bytes "XXX"

/-- The loop `for (p = pilot_name; *p; ++p) if (*p != ' ') pilot_name_end = p + 1` of
`flytec_pbrsnp`: the arguments are the text from `p` on, the offset of `p` from
`pilot_name` and the current offset of `pilot_name_end`; the result is the final offset
of `pilot_name_end`. -/
def pilot_name_end : List Nat → Nat → Nat → Nat
  | [], _, e => e
  | c :: p, i, e =>
    if c = 0 then e else pilot_name_end p (i + 1) (if c ≠ 32 then i + 1 else e)

/-- The block "strip leading and trailing spaces from pilot name" of `flytec_pbrsnp`:
the C string that it stores in `flytec->pilot_name`.  `memcpy` copies
`pilot_name_end - pilot_name` bytes, the terminating NUL among them when the name has no
character other than spaces. -/
def strip_pilot_name (name : List Nat) : List Nat :=
  let pilot_name := (c_str name).dropWhile (fun c => c = 32)
  c_str ((pilot_name ++ [0]).take (pilot_name_end pilot_name 0 1))

/-- Embedding of `flytec_pbrsnp`. -/
def flytec_pbrsnp (flytec : flytec_t) : Except Fatal (snp_t × flytec_t) :=
  match flytec.snp with
  | some snp => .ok (snp, flytec)
  | none =>
    match flytec_puts_nmea flytec PBRSNP with
    | .error e => .error e
    | .ok flytec =>
      match flytec_expectc flytec XOFF with
      | .error e => .error e
      | .ok flytec =>
        match flytec_gets_nmea flytec 128 with
        | .error e => .error e
        | .ok (none, _) => .error .die_flytec_gets_nmea
        | .ok (some line, flytec) =>
          match snp_new line with
          | .error e => .error e
          | .ok none => .error .invalid_response
          | .ok (some snp) =>
            match flytec_expectc flytec XON with
            | .error e => .error e
            | .ok flytec =>
              .ok (snp, { flytec with
                snp := some snp
                manufacturer := some (manufacturer_new snp.instrument_id)
                pilot_name := some (strip_pilot_name snp.pilot_name)
                serial_number := snp.serial_number })

/-- The statements of `flytec_pbrtl` between the choice of the manufacturer and the
declaration of `line`: the identity query `flytec_pbrsnp(flytec)`, the request `PBRTL,`
and the marker `XOFF` that opens the response. -/
def flytec_pbrtl_request (flytec : flytec_t) : Except Fatal flytec_t :=
  match flytec_pbrsnp flytec with
  | .error e => .error e
  | .ok (_, flytec) =>
    match flytec_puts_nmea flytec PBRTL with
    | .error e => .error e
    | .ok flytec => flytec_expectc flytec XOFF

/-- Embedding of `flytec_pbrtl`.  The argument `manufacturer` is `none` when the caller
passes NULL; `manufacturer ? manufacturer : flytec->manufacturer` is evaluated on the
session as it is on entry.  The result is the returned `flytec->trackv` and the session. -/
def flytec_pbrtl (mktime : tm → Int) (flytec : flytec_t) (manufacturer : Option (List Nat))
    (filename_format : igc_filename_format_t) :
    Option (Except Fatal (List (Option track_t) × flytec_t)) :=
  match flytec.trackv with
  | some trackv => some (.ok (trackv, flytec))
  | none =>
    match flytec_pbrtl_request flytec with
    | .error e => some (.error e)
    | .ok started =>
      flytec_pbrtl_body mktime started (manufacturer <|> flytec.manufacturer)
        filename_format

/-! ## Example data -/

/-- A response line as the device frames it: the sentence of the payload text. -/
def response_line (payload : String) : List Nat :=
  nmea_sentence (bytes payload)

/-- An instance of `mktime` for the examples, which do not depend on the time stamps. -/
def mktime_zero (_ : tm) : Int := 0

/-- Example: a session whose device answers the identity query and then lists three
tracks, dated 2007-06-05, 2007-06-05 and 2007-06-06. -/
def example_session : flytec_t :=
  flytec_new
    [[19], response_line "PBRSNP,5020,Tom Payne,123,1.18", [17],
     [19], response_line "PBRTL,3,0,05.06.07,10:00:00,01:00:00",
     response_line "PBRTL,3,1,05.06.07,12:00:00,01:00:00",
     response_line "PBRTL,3,2,06.06.07,10:00:00,01:00:00", [17]]

/-- Example: a session whose device answers the identity query and then lists the
descriptors with the given payloads. -/
def example_session_with (payloads : List String) : flytec_t :=
  flytec_new
    ([[19], response_line "PBRSNP,5020,Tom Payne,123,1.18", [17], [19]] ++
      payloads.map response_line ++ [[17]])

/-- Example: the session `example_session` after the listing `trackv` has been cached. -/
def example_session_listed (trackv : List (Option track_t)) : flytec_t :=
  { snp := some
      { instrument_id := bytes "5020", pilot_name := bytes "Tom Payne",
        serial_number := 123, software_version := bytes "1.18" }
    manufacturer := some (bytes "FLY")
    pilot_name := some (bytes "Tom Payne")
    serial_number := 123
    trackc := 3
    trackv := some trackv
    unread := []
    device := []
    written := [bytes "$PBRSNP,*21\r\n" ++ [0], bytes "$PBRTL,*74\r\n" ++ [0]] }

/-- Example: the listing of `example_session` with long file names. -/
def example_listing_long : List (Option track_t) :=
  [some ⟨3, 0, 54949, 2, 0, 3600, some (bytes "2007-06-05-FLY-123-02.IGC")⟩,
   some ⟨3, 1, 54949, 1, 0, 3600, some (bytes "2007-06-05-FLY-123-01.IGC")⟩,
   some ⟨3, 2, 54950, 1, 0, 3600, some (bytes "2007-06-06-FLY-123-01.IGC")⟩,
   none]

/-- Example: the listing of `example_session` with short file names. -/
def example_listing_short : List (Option track_t) :=
  [some ⟨3, 0, 54949, 2, 0, 3600, some (bytes "765FF302.IGC")⟩,
   some ⟨3, 1, 54949, 1, 0, 3600, some (bytes "765FF301.IGC")⟩,
   some ⟨3, 2, 54950, 1, 0, 3600, some (bytes "766FF301.IGC")⟩,
   none]

/-! ## Specification side: flights of the same day -/

/-- Specification side: the decimal numeral of `n`, padded with zeros on the left to at
least `width` digits. -/
def zero_padded (width n : Nat) : List Nat :=
  List.replicate (width - (decimal n).length) 48 ++ decimal n

/-- Specification side: the packed date of the calendar date `year`-`month`-`day`, as
`track_new` stores it (`tm_year` counts from 1900, `tm_mon` from 0). -/
def calendar_date (year month day : Nat) : Int :=
  DATE_NEW
    { tm_sec := 0, tm_min := 0, tm_hour := 0, tm_mday := day, tm_mon := (month : Int) - 1,
      tm_year := (year : Int) - 1900 }

/-- Specification side: the symbol of the 36-symbol alphabet `0`-`9`, `A`-`Z` for a value
below 36. -/
def base36_symbol (v : Nat) : Nat :=
  if v < 10 then 48 + v else 55 + v

/-! ## Specification side: the descriptors of a response -/

/-- Specification side: the descriptors of a track-listing response in the order in which
they are received: the payloads that successive calls of `flytec_gets_nmea` return, up to
the "no more lines" signal, each decoded by `track_new`.  The list ends at the first line
that is not accepted or not decoded.  The first argument bounds the number of lines
read. -/
def descriptors_received (mktime : tm → Int) : Nat → flytec_t → List track_t
  | 0, _ => []
  | fuel + 1, flytec =>
    match flytec_gets_nmea flytec 128 with
    | .ok (some line, flytec) =>
      match track_new mktime line with
      | .ok (some track) => track :: descriptors_received mktime fuel flytec
      | _ => []
    | _ => []

/-- Specification side: the descriptors that `flytec_pbrtl` receives on a session without
a cached listing: the descriptors of the response that follows the identity query, the
request and the marker `XOFF`. -/
def descriptors_listed (mktime : tm → Int) (flytec : flytec_t) : List track_t :=
  match flytec_pbrtl_request flytec with
  | .ok started => descriptors_received mktime (pending started + 1) started
  | .error _ => []

/-- The session `flytec` with the receive buffer and the transport of `other`. -/
def with_transport (flytec other : flytec_t) : flytec_t :=
  { flytec with unread := other.unread, device := other.device }

/-! ## Lists of ranges (`regexp.c`) -/

/-- One iteration of the loop `while (*p)` of `set_merge`, from `while (*p == ',') ++p` to
the test that follows the item: the node that the iteration allocates and the pointer `p`
at the end of the iteration. -/
def set_merge_item (p : List Nat) : Except Fatal (set_t × List Nat) :=
  let p := p.dropWhile (fun c => c = 44)
  match (if deref p ≠ 45 then
      match match_unsigned (.ptr p) (-1) with
      | (.ptr p, first) => (.ok (p, first, first) : Except Fatal (List Nat × Int × Int))
      | (.null, _) => .error .invalid_list
      | (.undefined, _) => .error .undefined_behaviour
    else .ok (p, -1, -1)) with
  | .error e => .error e
  | .ok (p, first, last) =>
    match (if deref p = 45 then
        if deref p.tail = 0 ∨ deref p.tail = 44 then
          (.ok (p.tail, -1) : Except Fatal (List Nat × Int))
        else
          match match_unsigned (.ptr p.tail) last with
          | (.ptr p, last) => .ok (p, last)
          | (.null, _) => .error .invalid_list
          | (.undefined, _) => .error .undefined_behaviour
      else .ok (p, last)) with
    | .error e => .error e
    | .ok (p, last) =>
      if deref p = 0 then .ok (⟨first, last⟩, p)
      else if deref p ≠ 44 then .error .invalid_list
      else .ok (⟨first, last⟩, p)

/-- The loop `while (*p)` of `set_merge`.  The first argument bounds the number of
iterations of the embedding (`none` when the bound is reached). -/
def set_merge_loop : Nat → List set_t → List Nat → Option (Except Fatal (List set_t))
  | 0, _, _ => none
  | fuel + 1, set, p =>
    if deref p = 0 then some (.ok set)
    else
      match set_merge_item p with
      | .error e => some (.error e)
      | .ok (node, p) => set_merge_loop fuel (node :: set) p

/-- Embedding of `set_merge`: the new nodes are put in front of `set`.  Every iteration
consumes at least one character, so that `strlen(p) + 1` iterations suffice. -/
def set_merge (set : List set_t) (p : List Nat) : Option (Except Fatal (List set_t)) :=
  set_merge_loop (p.length + 1) set p

/-! ## Specification side: numerals -/

/-- Specification side: a non-negative decimal integer as text: a non-empty run of the
digits `0`-`9`. -/
def is_numeral (ds : List Nat) : Prop :=
  ds ≠ [] ∧ ∀ c ∈ ds, 48 ≤ c ∧ c ≤ 57

instance (ds : List Nat) : Decidable (is_numeral ds) := by
  unfold is_numeral; infer_instance

/-- Specification side: the value of a decimal numeral. -/
def numeral_value (ds : List Nat) : Int :=
  ds.foldl (fun (v : Int) (c : Nat) => 10 * v + ((c : Int) - 48)) 0

/-- Specification side: the numerals that `match_unsigned` reads within the range of
`int`.  The function forms `10 * *result + *p` before it subtracts `'0'`, so that the
largest value it reads without overflow is `INT_MAX - 48`. -/
def numeral_fits (ds : List Nat) : Prop :=
  numeral_value ds ≤ INT_MAX - 48

instance (ds : List Nat) : Decidable (numeral_fits ds) := by
  unfold numeral_fits; infer_instance

/-! ## Specification side: lists of ranges -/

/-- Specification side: an item of a list of ranges.  The fields are the numerals as they
are written. -/
inductive range_item where
  /-- The item `N`. -/
  | exactly (n : List Nat)
  /-- The item `N-M`. -/
  | between (n m : List Nat)
  /-- The item `N-`. -/
  | at_least (n : List Nat)
  /-- The item `-M`. -/
  | at_most (m : List Nat)
  /-- The item `-`. -/
  | everything
deriving DecidableEq, Repr

/-- Specification side: the text of an item; 45 is `-`. -/
def item_text : range_item → List Nat
  | .exactly n => n
  | .between n m => n ++ 45 :: m
  | .at_least n => n ++ [45]
  | .at_most m => 45 :: m
  | .everything => [45]

/-- Specification side: the numerals that occur in an item. -/
def item_numerals : range_item → List (List Nat)
  | .exactly n => [n]
  | .between n m => [n, m]
  | .at_least n => [n]
  | .at_most m => [m]
  | .everything => []

/-- Specification side: the numbers of an item are non-negative decimal integers. -/
def item_wf (item : range_item) : Prop :=
  ∀ ds ∈ item_numerals item, is_numeral ds

instance (item : range_item) : Decidable (item_wf item) := by
  unfold item_wf; infer_instance

/-- Specification side: the numbers of an item are small enough not to overflow `int`. -/
def item_fits (item : range_item) : Prop :=
  ∀ ds ∈ item_numerals item, numeral_fits ds

instance (item : range_item) : Decidable (item_fits item) := by
  unfold item_fits; infer_instance

/-- Specification side: the elements that an item covers. -/
def item_covers : range_item → Int → Prop
  | .exactly n, e => e = numeral_value n
  | .between n m, e => numeral_value n ≤ e ∧ e ≤ numeral_value m
  | .at_least n, e => numeral_value n ≤ e
  | .at_most m, e => e ≤ numeral_value m
  | .everything, _ => True

/-- Specification side: the interval that an item becomes, with the sentinel `-1` for a
bound that is left out. -/
def item_node : range_item → set_t
  | .exactly n => ⟨numeral_value n, numeral_value n⟩
  | .between n m => ⟨numeral_value n, numeral_value m⟩
  | .at_least n => ⟨numeral_value n, -1⟩
  | .at_most m => ⟨-1, numeral_value m⟩
  | .everything => ⟨-1, -1⟩

/-- Specification side: a comma-separated list of items as text; 44 is `,`. -/
def list_text : List range_item → List Nat
  | [] => []
  | [item] => item_text item
  | item :: rest => item_text item ++ 44 :: list_text rest

/-- Specification side: the text of a list of items in which every item comes with the
number of commas written in front of it. -/
def loose_text : List (Nat × range_item) → List Nat
  | [] => []
  | (commas, item) :: rest => List.replicate commas 44 ++ item_text item ++ loose_text rest

/-- Specification side: in a list of items with commas in front, every item but the first
has at least one comma in front of it. -/
def separated (segments : List (Nat × range_item)) : Prop :=
  ∀ segment ∈ segments.tail, 1 ≤ segment.1

/-- Specification side: no numeral written in the text overflows `int`: every run of
digits of the text has a value that `match_unsigned` reads within the range of `int`. -/
def numerals_fit_in (p : List Nat) : Prop :=
  ∀ before ds after, p = before ++ ds ++ after → is_numeral ds → numeral_fits ds

/-- The items of a comma-separated list with the number of commas in front of each: none
in front of the first item, one in front of every other item. -/
def tight : List range_item → List (Nat × range_item)
  | [] => []
  | item :: rest => (0, item) :: rest.map (fun other => (1, other))

/-- Specification side: the texts that are lists of items of the forms `N`, `N-M`, `N-`,
`-M` and `-`, in which the first item may follow commas and every other item follows one
comma or more; the empty text is the list of no items. -/
def is_loose_list (p : List Nat) : Prop :=
  ∃ segments : List (Nat × range_item),
    (∀ segment ∈ segments, item_wf segment.2) ∧ separated segments ∧ p = loose_text segments

/-! ## Chains of matchers -/

/-- One call of a matcher in a decoder that chains matchers on one cursor. -/
inductive matcher where
  /-- The call `p = match_literal(p, s)`. -/
  | literal (s : List Nat)
  /-- The call `p = match_char(p, c)`. -/
  | char (c : Nat)
  /-- The call `p = match_unsigned(p, &result)` on a variable that holds 0. -/
  | unsigned
deriving DecidableEq, Repr

/-- The calls of a chain of matchers in order: the final cursor and the values of the
variables of the calls of `match_unsigned`. -/
def match_chain : List matcher → cursor → cursor × List Int
  | [], p => (p, [])
  | .literal s :: chain, p => match_chain chain (match_literal p s)
  | .char c :: chain, p => match_chain chain (match_char p c)
  | .unsigned :: chain, p =>
    ((match_chain chain (match_unsigned p 0).1).1,
      (match_unsigned p 0).2 :: (match_chain chain (match_unsigned p 0).1).2)

/-- The text that a chain of matchers reads, given the numerals for its calls of
`match_unsigned`. -/
def chain_text : List matcher → List (List Nat) → List Nat
  | [], _ => []
  | .literal s :: chain, numerals => s ++ chain_text chain numerals
  | .char c :: chain, numerals => c :: chain_text chain numerals
  | .unsigned :: chain, numeral :: numerals => numeral ++ chain_text chain numerals
  | .unsigned :: chain, [] => chain_text chain []

/-- The numerals fit a chain of matchers that is followed by the text `q`: there is one
numeral for every call of `match_unsigned`, every numeral fits `int` and is followed by a
character that is not a digit, and no literal holds a NUL. -/
def chain_wf : List matcher → List (List Nat) → List Nat → Prop
  | [], numerals, _ => numerals = []
  | .literal s :: chain, numerals, q => (∀ c ∈ s, c ≠ 0) ∧ chain_wf chain numerals q
  | .char c :: chain, numerals, q => c ≠ 0 ∧ chain_wf chain numerals q
  | .unsigned :: chain, numeral :: numerals, q =>
    is_numeral numeral ∧ numeral_fits numeral ∧
      isdigit (deref (chain_text chain numerals ++ q)) = false ∧ chain_wf chain numerals q
  | .unsigned :: _, [], _ => False

/-- The literals and characters of a chain of matchers hold no NUL. -/
def chain_literals_ok : List matcher → Prop
  | [] => True
  | .literal s :: chain => (∀ c ∈ s, c ≠ 0) ∧ chain_literals_ok chain
  | .char c :: chain => c ≠ 0 ∧ chain_literals_ok chain
  | .unsigned :: chain => chain_literals_ok chain

/-- The chain of matchers of `track_new`. -/
def track_chain : List matcher :=
  [.literal PBRTL, .unsigned, .char 44, .unsigned, .char 44,
   .unsigned, .char 46, .unsigned, .char 46, .unsigned, .char 44,
   .unsigned, .char 58, .unsigned, .char 58, .unsigned, .char 44,
   .unsigned, .char 58, .unsigned, .char 58, .unsigned]

/-! ## Specification side: the payload of a track descriptor -/

/-- Specification side: the payload
`PBRTL,<count>,<index>,<dd>.<mm>.<yy>,<hh>:<mm>:<ss>,<hh>:<mm>:<ss>` with the given
texts of its fields. -/
def track_payload (c i dd mm yy h m s dh dm ds : List Nat) : List Nat :=
  PBRTL ++ c ++ [44] ++ i ++ [44] ++ dd ++ [46] ++ mm ++ [46] ++ yy ++ [44]
    ++ h ++ [58] ++ m ++ [58] ++ s ++ [44] ++ dh ++ [58] ++ dm ++ [58] ++ ds

/-- Specification side: the text is a payload of a track descriptor, every field of which
is a non-empty decimal numeral. -/
def is_track_payload (p : List Nat) : Prop :=
  ∃ c i dd mm yy h m s dh dm ds : List Nat,
    (∀ field ∈ [c, i, dd, mm, yy, h, m, s, dh, dm, ds], is_numeral field) ∧
    p = track_payload c i dd mm yy h m s dh dm ds

/-! ## IGC records (`regexp.c`) -/

/-- The loop `for (; n > 0; --n)` of `match_n_digits`.  As in `match_unsigned`, the
expression `10 * *result + *p - '0'` overflows when `10 * *result + *p` exceeds
`INT_MAX`. -/
def match_n_digits_loop : Nat → List Nat → Int → cursor × Int
  | 0, p, result => (.ptr p, result)
  | n + 1, p, result =>
    if 48 ≤ deref p ∧ deref p ≤ 57 then
      if 10 * result + deref p > INT_MAX then (.undefined, result)
      else match_n_digits_loop n p.tail (10 * result + deref p - 48)
    else (.null, result)

/-- Embedding of `match_n_digits`.  The third argument is the value of `*result` before
the call, which the function leaves in place when `p` is NULL. -/
def match_n_digits (p : cursor) (n : Nat) (result : Int) : cursor × Int :=
  match p with
  | .ptr p => match_n_digits_loop n p 0
  | p => (p, result)

/-- Embedding of `match_until_eol`; 13 is CR, 10 is LF. -/
def match_until_eol (p : cursor) : cursor :=
  match p with
  | .ptr p =>
    let p := p.dropWhile (fun c => c ≠ 0 ∧ c ≠ 13)
    if deref p ≠ 13 then .null
    else if deref p.tail = 10 then advance p.tail else .null
  | p => p

/-- Embedding of `match_b_record`: the returned pointer and the accumulator `*tm` after the
call; 66 is `B`. -/
def match_b_record (p : cursor) (t : tm) : cursor × tm :=
  match match_char p 66 with
  | .null => (.null, t)
  | p =>
    let (p, hour) := match_n_digits p 2 0
    let (p, min) := match_n_digits p 2 0
    let (p, sec) := match_n_digits p 2 0
    match p with
    | .null => (.null, t)
    | p =>
      match match_until_eol p with
      | .null => (.null, t)
      | p => (p, { t with tm_hour := hour, tm_min := min, tm_sec := sec })

/-- The text `HFDTE`. -/
def HFDTE : List Nat := [72, 70, 68, 84, 69]

/-- Embedding of `match_hfdte_record`: the returned pointer and the accumulator `*tm` after
the call. -/
def match_hfdte_record (p : cursor) (t : tm) : cursor × tm :=
  match match_literal p HFDTE with
  | .null => (.null, t)
  | p =>
    let (p, mday) := match_n_digits p 2 0
    let (p, mon) := match_n_digits p 2 0
    let (p, year) := match_n_digits p 2 0
    match match_literal p [13, 10] with
    | .null => (.null, t)
    | p => (p, { t with tm_year := year + 2000 - 1900, tm_mon := mon - 1, tm_mday := mday })

/-- Embedding of `igc_tm_update`: the returned `!!p` and the accumulator `*tm` after the
call; 66 is `B`, 72 is `H`. -/
def igc_tm_update (t : tm) (p : List Nat) : Except Fatal (Int × tm) :=
  match (if deref p = 66 then match_b_record (.ptr p) t
    else if deref p = 72 then match_hfdte_record (.ptr p) t
    else (.null, t)) with
  | (.null, t) => .ok (0, t)
  | (.ptr _, t) => .ok (1, t)
  | (.undefined, _) => .error .undefined_behaviour

/-! ## Specification side: IGC records -/

/-- Specification side: a field of two decimal digits. -/
def is_two_digits (ds : List Nat) : Prop :=
  ds.length = 2 ∧ ∀ c ∈ ds, 48 ≤ c ∧ c ≤ 57

instance (ds : List Nat) : Decidable (is_two_digits ds) := by
  unfold is_two_digits; infer_instance

/-- Specification side: the line starts with a B record: `B`, the six digits `hhmmss`,
content without CR, then CR LF. -/
def is_b_record (p hh mm ss : List Nat) : Prop :=
  ∃ content rest : List Nat,
    is_two_digits hh ∧ is_two_digits mm ∧ is_two_digits ss ∧
    (∀ c ∈ content, c ≠ 0 ∧ c ≠ 13) ∧
    p = [66] ++ hh ++ mm ++ ss ++ content ++ [13, 10] ++ rest

/-- Specification side: the line starts with an HFDTE record: `HFDTE`, the six digits
`ddmmyy`, then CR LF. -/
def is_hfdte_record (p dd mm yy : List Nat) : Prop :=
  ∃ rest : List Nat,
    is_two_digits dd ∧ is_two_digits mm ∧ is_two_digits yy ∧
    p = HFDTE ++ dd ++ mm ++ yy ++ [13, 10] ++ rest

/-! ## Specification side: the pilot name -/

/-- Specification side: the text without the spaces at its end. -/
def trim_trailing_spaces (name : List Nat) : List Nat :=
  (name.reverse.dropWhile (fun c => c = 32)).reverse

/-- Specification side: the text without the spaces at its start and at its end. -/
def trim_spaces (name : List Nat) : List Nat :=
  trim_trailing_spaces (name.dropWhile (fun c => c = 32))

/-! ## Specification side: the line reader on a byte stream -/

/-- Specification side: the byte stream that the session has still to deliver: the unread
part of the receive buffer, then the chunks that the raw reads will return. -/
def incoming (flytec : flytec_t) : List Nat :=
  flytec.unread ++ flytec.device.flatten

/-- Specification side: the raw reads return chunks that are not empty. -/
def chunks_nonempty (flytec : flytec_t) : Prop :=
  ∀ chunk ∈ flytec.device, chunk ≠ []

instance (flytec : flytec_t) : Decidable (chunks_nonempty flytec) := by
  unfold chunks_nonempty; infer_instance

/-- Specification side: the bytes of a stream up to and including the first line
terminator (LF, 10). -/
def first_line (stream : List Nat) : List Nat :=
  stream.takeWhile (fun c => c ≠ 10) ++ [10]

/-- Specification side: the bytes of a stream after its first line. -/
def after_first_line (stream : List Nat) : List Nat :=
  (stream.dropWhile (fun c => c ≠ 10)).tail

/-- Specification side: the line reader with a buffer of `size` bytes on a byte stream.
The result is the line and the rest of the stream.  On a stream that starts with the resume
marker it is "no more lines", and the marker stays in the stream; otherwise it is the first
line when the line terminator is among the first `size - 1` bytes, and a fatal error when
it is not: the time-out of the transport when the stream ends within these bytes, the
overrun of the buffer when it does not. -/
def gets_spec (stream : List Nat) (size : Nat) : Except Fatal (Option (List Nat) × List Nat) :=
  match stream with
  | [] => .error .timeout_waiting_for_data
  | c :: _ =>
    if c = XON then .ok (none, stream)
    else if 10 ∈ stream.take (size - 1) then
      .ok (some (first_line stream), after_first_line stream)
    else if stream.length ≤ size - 1 then .error .timeout_waiting_for_data
    else .error .die_flytec_gets

/-- The calls `flytec_gets(flytec, line, size)` that a caller makes one after the other, at
most `n` of them: the lines returned, up to a call that returns 0. -/
def flytec_gets_times : Nat → flytec_t → Nat → Except Fatal (List (List Nat) × flytec_t)
  | 0, flytec, _ => .ok ([], flytec)
  | n + 1, flytec, size =>
    match flytec_gets flytec size with
    | .error e => .error e
    | .ok (none, flytec) => .ok ([], flytec)
    | .ok (some line, flytec) =>
      match flytec_gets_times n flytec size with
      | .error e => .error e
      | .ok (lines, flytec) => .ok (line :: lines, flytec)

/-- Specification side: the line reader applied to a byte stream at most `n` times: the
lines, up to "no more lines", and the rest of the stream. -/
def gets_spec_times : Nat → List Nat → Nat → Except Fatal (List (List Nat) × List Nat)
  | 0, stream, _ => .ok ([], stream)
  | n + 1, stream, size =>
    match gets_spec stream size with
    | .error e => .error e
    | .ok (none, stream) => .ok ([], stream)
    | .ok (some line, stream) =>
      match gets_spec_times n stream size with
      | .error e => .error e
      | .ok (lines, stream) => .ok (line :: lines, stream)

/-! ## The serial number in the short file name (`flytec.c`) -/

/-- The local array `serial_number` of `flytec_pbrtl` in the case
`igc_filename_format_short`: the three characters `base36[serial_number % 36]`,
`base36[(serial_number / 36) % 36]` and `base36[(serial_number / 36 / 36) % 36]`, in this
order.  C's `/` and `%` truncate towards zero. -/
def short_serial_number (serial_number : Int) : Except Fatal (List Nat) :=
  match base36_at (serial_number.tmod 36),
      base36_at ((serial_number.tdiv 36).tmod 36),
      base36_at (((serial_number.tdiv 36).tdiv 36).tmod 36) with
  | .ok s0, .ok s1, .ok s2 => .ok [s0, s1, s2]
  | _, _, _ => .error .undefined_behaviour

/-- Specification side: the value of a symbol of the alphabet `0`-`9`, `A`-`Z`. -/
def base36_value (symbol : Nat) : Nat :=
  if symbol ≤ 57 then symbol - 48 else symbol - 55

/-- Specification side: the identifiers of the instruments of Flytec. -/
def flytec_instruments : List (List Nat) :=
  [bytes "5020", bytes "5030", bytes "6020", bytes "6030"]

/-- Specification side: the identifiers of the instruments of Brauniger. -/
def brauniger_instruments : List (List Nat) :=
  [bytes "COMPEO", bytes "COMPEO+", bytes "COMPETINO", bytes "COMPETINO+", bytes "GALILEO"]

/-- Specification side: the order of the calendar on dates `year`-`month`-`day`. -/
def calendar_lt (year month day year2 month2 day2 : Nat) : Prop :=
  year < year2 ∨ (year = year2 ∧ (month < month2 ∨ (month = month2 ∧ day < day2)))

instance (year month day year2 month2 day2 : Nat) :
    Decidable (calendar_lt year month day year2 month2 day2) := by
  unfold calendar_lt; infer_instance

/-- Example: the session `example_session_with []`, whose device answers the listing
request with `XOFF`, `XON`, after the request has been sent and `XOFF` received. -/
def example_session_requested : flytec_t :=
  { snp := some
      { instrument_id := bytes "5020", pilot_name := bytes "Tom Payne",
        serial_number := 123, software_version := bytes "1.18" }
    manufacturer := some (bytes "FLY")
    pilot_name := some (bytes "Tom Payne")
    serial_number := 123
    trackc := 0
    trackv := none
    unread := []
    device := [[17]]
    written := [bytes "$PBRSNP,*21\r\n" ++ [0], bytes "$PBRTL,*74\r\n" ++ [0]] }

/-- Example: a session whose device answers the identity query and then lists two tracks of
one date, 2007-06-05, which both report the count 1. -/
def example_session_count_one : flytec_t :=
  example_session_with
    ["PBRTL,1,0,05.06.07,10:00:00,01:00:00", "PBRTL,1,1,05.06.07,12:00:00,02:00:00"]

/-- Example: the array `trackv` of `example_session_count_one` after `flytec_pbrtl` (long
format): the two slots allocated for the count 1 hold the two descriptors received. -/
def example_listing_count_one : List (Option track_t) :=
  [some ⟨1, 0, 54949, 1, 0, 3600, some (bytes "2007-06-05-FLY-123-01.IGC")⟩,
   some ⟨1, 1, 54949, 0, 0, 7200, none⟩]

/-- Example: a session whose device answers the identity query and then lists two tracks,
dated 2007-06-07 and 2007-06-08, which both report the count 1. -/
def example_session_extra : flytec_t :=
  example_session_with
    ["PBRTL,1,0,07.06.07,10:00:00,01:00:00", "PBRTL,1,1,08.06.07,12:00:00,02:00:00"]

/-- Example: the array `trackv` of `example_session_extra` after `flytec_pbrtl` with the
long format. -/
def example_listing_extra_long : List (Option track_t) :=
  [some ⟨1, 0, 54951, 1, 0, 3600, some (bytes "2007-06-07-FLY-123-01.IGC")⟩,
   some ⟨1, 1, 54952, 0, 0, 7200, none⟩]

/-- Example: the array `trackv` of `example_session_extra` after `flytec_pbrtl` with the
short format. -/
def example_listing_extra_short : List (Option track_t) :=
  [some ⟨1, 0, 54951, 1, 0, 3600, some (bytes "767FF301.IGC")⟩,
   some ⟨1, 1, 54952, 0, 0, 7200, none⟩]

/-! ## Theorems: interval sets -/

theorem set_include_eq_true_iff (set : List set_t) (element : Int) :
    set_include set element = true ↔ ∃ iv ∈ set, interval_contains iv element := by
  induction set with
  | nil => simp [set_include]
  | cons iv next ih =>
    have hhead : set_include (iv :: next) element = true ↔
        interval_contains iv element ∨ set_include next element = true := by
      unfold interval_contains
      rw [set_include]
      by_cases h1 : iv.first = -1 <;> by_cases h2 : iv.last = -1 <;>
        simp only [h1, h2, true_and, false_and, and_self, and_true, and_false, if_true,
          if_false, ne_eq, not_true_eq_false, not_false_eq_true, true_or, false_or, or_false]
      · by_cases h : element ≤ iv.last <;> simp [h]
      · by_cases h : iv.first ≤ element <;> simp [h]
      · by_cases h : iv.first ≤ element ∧ element ≤ iv.last <;> simp [h]
    rw [hhead, ih]
    simp only [List.mem_cons, exists_eq_or_imp]

/-- Claim C10: `set_include` returns true exactly when some interval of the list contains the
element (sentinel bounds are unbounded, ordinary bounds inclusive), and its result does not
depend on the order of the intervals in the list. -/
theorem set_include_spec (set : List set_t) (element : Int) :
    (set_include set element = true ↔ ∃ iv ∈ set, interval_contains iv element) ∧
    (∀ other : List set_t, set.Perm other →
      set_include other element = set_include set element) := by
  refine ⟨set_include_eq_true_iff set element, ?_⟩
  intro other hperm
  rw [Bool.eq_iff_iff, set_include_eq_true_iff, set_include_eq_true_iff]
  constructor
  · rintro ⟨iv, hiv, h⟩
    exact ⟨iv, hperm.mem_iff.mpr hiv, h⟩
  · rintro ⟨iv, hiv, h⟩
    exact ⟨iv, hperm.mem_iff.mp hiv, h⟩

theorem set_include_spec_witness :
    (set_include [⟨2, 2⟩, ⟨4, 6⟩, ⟨8, -1⟩] 5 = true ↔
      ∃ iv ∈ [(⟨2, 2⟩ : set_t), ⟨4, 6⟩, ⟨8, -1⟩], interval_contains iv 5) ∧
    set_include [⟨8, -1⟩, ⟨4, 6⟩, ⟨2, 2⟩] 5 = set_include [⟨2, 2⟩, ⟨4, 6⟩, ⟨8, -1⟩] 5 :=
  ⟨(set_include_spec [⟨2, 2⟩, ⟨4, 6⟩, ⟨8, -1⟩] 5).1,
   (set_include_spec [⟨2, 2⟩, ⟨4, 6⟩, ⟨8, -1⟩] 5).2 [⟨8, -1⟩, ⟨4, 6⟩, ⟨2, 2⟩]
     (by decide)⟩

/-! ## Theorems: sentence framing -/

theorem c_str_eq_take (buf : List Nat) : c_str buf = buf.take (strlen buf) := by
  unfold strlen c_str
  induction buf with
  | nil => rfl
  | cons c p ih =>
    by_cases h : c = 0
    · simp [List.takeWhile, h]
    · simp only [List.takeWhile, ne_eq, h, not_false_eq_true, decide_True, List.length_cons,
        List.take_succ_cons]
      rw [← ih]

theorem c_str_of_ne_zero (s : List Nat) (h : ∀ c ∈ s, c ≠ 0) : c_str s = s := by
  unfold c_str
  rw [List.takeWhile_eq_self_iff]
  intro c hc
  simpa using h c hc

theorem strlen_le (buf : List Nat) : strlen buf ≤ buf.length := by
  unfold strlen c_str
  exact (List.takeWhile_prefix _).length_le

theorem byte_at_c_str (buf : List Nat) (i : Nat) (h : i < strlen buf) :
    (c_str buf).getD i 0 = byte_at buf i := by
  rw [c_str_eq_take, byte_at, List.getD_eq_getElem?_getD, List.getD_eq_getElem?_getD,
    List.getElem?_take_of_lt h]

theorem payload_c_str (buf : List Nat) :
    ((c_str buf).drop 1).take (strlen buf - 6) = (buf.drop 1).take (strlen buf - 6) := by
  rw [c_str_eq_take, List.drop_take, List.take_take]
  congr 1
  omega

theorem xor_bytes_eq_xor_fold (l : List Nat) (h : ∀ c ∈ l, c < 256) :
    xor_bytes l = xor_fold l := by
  unfold xor_bytes xor_fold
  apply List.foldl_ext
  intro a c hc
  rw [Nat.mod_eq_of_lt (h c hc)]

theorem xdigit_value_eq_some (c v : Nat) :
    xdigit_value c = some v ↔ is_hex_digit c ∧ v = hex_digit_value c := by
  unfold xdigit_value is_hex_digit hex_digit_value
  split_ifs <;> simp <;> omega

theorem xdigit_value_eq_none (c : Nat) : xdigit_value c = none ↔ ¬ is_hex_digit c := by
  unfold xdigit_value is_hex_digit
  split_ifs <;> simp <;> omega

theorem flytec_gets_nmea_check_eq (buf : List Nat) (hb : ∀ c ∈ buf, c < 256) :
    flytec_gets_nmea_check buf =
      if nmea_line_valid (c_str buf) then
        .ok (((c_str buf).drop 1).take ((c_str buf).length - 6))
      else .error .invalid_NMEA_response := by
  have hlen : (c_str buf).length = strlen buf := rfl
  by_cases h6 : strlen buf < 6
  · have hnv : ¬ nmea_line_valid (c_str buf) := by
      intro hv
      have := hv.1
      omega
    simp [flytec_gets_nmea_check, h6, hnv]
  · have hpay : ∀ c ∈ (buf.drop 1).take (strlen buf - 6), c < 256 := fun c hc =>
      hb c (List.mem_of_mem_drop (List.mem_of_mem_take hc))
    have hv : nmea_line_valid (c_str buf) ↔
        (byte_at buf 0 = 36 ∧ byte_at buf (strlen buf - 5) = 42 ∧
          byte_at buf (strlen buf - 2) = 13 ∧ byte_at buf (strlen buf - 1) = 10) ∧
        ∃ high low, xdigit_value (byte_at buf (strlen buf - 4)) = some high ∧
          xdigit_value (byte_at buf (strlen buf - 3)) = some low ∧
          xor_bytes ((buf.drop 1).take (strlen buf - 6)) = high * 16 + low := by
      unfold nmea_line_valid
      rw [hlen, payload_c_str, ← xor_bytes_eq_xor_fold _ hpay,
        byte_at_c_str buf 0 (by omega), byte_at_c_str buf (strlen buf - 5) (by omega),
        byte_at_c_str buf (strlen buf - 4) (by omega),
        byte_at_c_str buf (strlen buf - 3) (by omega),
        byte_at_c_str buf (strlen buf - 2) (by omega),
        byte_at_c_str buf (strlen buf - 1) (by omega)]
      simp only [xdigit_value_eq_some]
      constructor
      · rintro ⟨_, h0, h5, h2, h1, hx4, hx3, hsum⟩
        exact ⟨⟨h0, h5, h2, h1⟩, _, _, ⟨hx4, rfl⟩, ⟨hx3, rfl⟩, by omega⟩
      · rintro ⟨⟨h0, h5, h2, h1⟩, high, low, ⟨hx4, rfl⟩, ⟨hx3, rfl⟩, hsum⟩
        exact ⟨by omega, h0, h5, h2, h1, hx4, hx3, by omega⟩
    rw [hlen, payload_c_str]
    unfold flytec_gets_nmea_check
    simp only [h6, if_false]
    by_cases hfr : byte_at buf 0 = 36 ∧ byte_at buf (strlen buf - 5) = 42 ∧
          byte_at buf (strlen buf - 2) = 13 ∧ byte_at buf (strlen buf - 1) = 10
    · have hfr2 : ¬ (byte_at buf 0 ≠ 36 ∨ byte_at buf (strlen buf - 5) ≠ 42 ∨
          byte_at buf (strlen buf - 2) ≠ 13 ∨ byte_at buf (strlen buf - 1) ≠ 10) := by
        simp [hfr.1, hfr.2.1, hfr.2.2.1, hfr.2.2.2]
      simp only [hfr2, if_false]
      cases hx4 : xdigit_value (byte_at buf (strlen buf - 4)) with
      | none =>
        have hnv : ¬ nmea_line_valid (c_str buf) := by
          rw [hv]; rintro ⟨_, high, low, h, _⟩; rw [hx4] at h; cases h
        simp [hnv]
      | some high =>
        cases hx3 : xdigit_value (byte_at buf (strlen buf - 3)) with
        | none =>
          have hnv : ¬ nmea_line_valid (c_str buf) := by
            rw [hv]; rintro ⟨_, _, low, _, h, _⟩; rw [hx3] at h; cases h
          simp [hnv]
        | some low =>
          by_cases hsum : xor_bytes ((buf.drop 1).take (strlen buf - 6)) = high * 16 + low
          · have hval : nmea_line_valid (c_str buf) := by
              rw [hv]; exact ⟨hfr, high, low, hx4, hx3, hsum⟩
            dsimp only
            rw [if_pos hval, if_neg (not_not.mpr hsum)]
          · have hnv : ¬ nmea_line_valid (c_str buf) := by
              rw [hv]; rintro ⟨_, a, b, ha, hb2, hs⟩
              rw [hx4] at ha; rw [hx3] at hb2
              cases ha; cases hb2; exact hsum hs
            dsimp only
            rw [if_neg hnv, if_pos hsum]
    · have hfr2 : (byte_at buf 0 ≠ 36 ∨ byte_at buf (strlen buf - 5) ≠ 42 ∨
          byte_at buf (strlen buf - 2) ≠ 13 ∨ byte_at buf (strlen buf - 1) ≠ 10) := by
        by_contra hcon
        simp only [not_or, ne_eq, not_not] at hcon
        exact hfr hcon
      have hnv : ¬ nmea_line_valid (c_str buf) := by
        rw [hv]; rintro ⟨h, _⟩; exact hfr h
      simp [hfr2, hnv]

theorem getD_frame (p t : List Nat) (k : Nat) :
    (36 :: (p ++ t)).getD (p.length + 1 + k) 0 = t.getD k 0 := by
  rw [show p.length + 1 + k = (p.length + k) + 1 by omega, List.getD_cons_succ,
    List.getD_append_right _ _ _ _ (by omega)]
  congr 1
  omega

theorem nmea_line_valid_frame (p : List Nat) (a b : Nat) :
    nmea_line_valid (36 :: (p ++ [42, a, b, 13, 10])) ↔
      is_hex_digit a ∧ is_hex_digit b ∧
        16 * hex_digit_value a + hex_digit_value b = xor_fold p := by
  unfold nmea_line_valid
  have hl : (36 :: (p ++ [42, a, b, 13, 10])).length = p.length + 6 := by simp
  rw [hl, show p.length + 6 - 5 = p.length + 1 + 0 by omega,
    show p.length + 6 - 4 = p.length + 1 + 1 by omega,
    show p.length + 6 - 3 = p.length + 1 + 2 by omega,
    show p.length + 6 - 2 = p.length + 1 + 3 by omega,
    show p.length + 6 - 1 = p.length + 1 + 4 by omega,
    show p.length + 6 - 6 = p.length by omega]
  simp only [getD_frame, List.drop_succ_cons, List.drop_zero, List.take_left]
  simp

theorem hex_upper_ne_zero (d : Nat) : hex_upper d ≠ 0 := by
  unfold hex_upper
  split_ifs <;> omega

theorem hex_upper_lt (d : Nat) (h : d < 16) : hex_upper d < 256 := by
  unfold hex_upper
  split_ifs <;> omega

theorem is_hex_digit_hex_upper (d : Nat) (h : d < 16) :
    is_hex_digit (hex_upper d) ∧ hex_digit_value (hex_upper d) = d := by
  unfold hex_upper is_hex_digit hex_digit_value
  split_ifs <;> omega

theorem xor_bytes_lt (l : List Nat) : xor_bytes l < 256 := by
  unfold xor_bytes
  suffices h : ∀ a, a < 256 → l.foldl (fun checksum c => checksum ^^^ (c % 256)) a < 256 from
    h 0 (by omega)
  induction l with
  | nil => intro a ha; simpa using ha
  | cons c l ih =>
    intro a ha
    rw [List.foldl_cons]
    exact ih _ (Nat.xor_lt_two_pow (n := 8) ha (Nat.mod_lt _ (by omega)))

theorem nmea_sentence_eq (s : List Nat) (hs : ∀ c ∈ s, 0 < c ∧ c < 256) :
    nmea_sentence s =
      36 :: (s ++ [42, hex_upper (xor_fold s / 16), hex_upper (xor_fold s % 16), 13, 10]) := by
  have h0 : c_str s = s := c_str_of_ne_zero s (fun c hc => by have := (hs c hc).1; omega)
  have hx : xor_bytes s = xor_fold s := xor_bytes_eq_xor_fold s (fun c hc => (hs c hc).2)
  have hlt : xor_fold s < 256 := hx ▸ xor_bytes_lt s
  unfold nmea_sentence printf_02X
  rw [h0, hx, if_pos hlt]
  simp

/-- Claim C1: for every payload string (non-NUL bytes), the line that `flytec_puts_nmea`
frames, `$` payload `*` two hexadecimal digits of the XOR of the payload bytes CR LF, is
accepted by the validation of `flytec_gets_nmea`, which returns the original payload. -/
theorem nmea_round_trip (s : List Nat) (hs : ∀ c ∈ s, 0 < c ∧ c < 256) :
    nmea_sentence s =
      [36] ++ s ++ [42] ++ [hex_upper (xor_fold s / 16), hex_upper (xor_fold s % 16)]
        ++ [13, 10] ∧
    flytec_gets_nmea_check (nmea_sentence s) = .ok s := by
  have hx : xor_bytes s = xor_fold s := xor_bytes_eq_xor_fold s (fun c hc => (hs c hc).2)
  have hlt : xor_fold s < 256 := hx ▸ xor_bytes_lt s
  have heq := nmea_sentence_eq s hs
  refine ⟨by rw [heq]; simp, ?_⟩
  have hne : ∀ c ∈ nmea_sentence s, c ≠ 0 := by
    rw [heq]
    intro c hc
    simp only [List.mem_cons, List.mem_append, List.mem_singleton, List.not_mem_nil,
      or_false] at hc
    have h1 := hex_upper_ne_zero (xor_fold s / 16)
    have h2 := hex_upper_ne_zero (xor_fold s % 16)
    rcases hc with h | h | h | h | h | h | h
    · omega
    · have := (hs c h).1; omega
    all_goals omega
  have hlt256 : ∀ c ∈ nmea_sentence s, c < 256 := by
    rw [heq]
    intro c hc
    simp only [List.mem_cons, List.mem_append, List.mem_singleton, List.not_mem_nil,
      or_false] at hc
    have h1 := hex_upper_lt (xor_fold s / 16) (by omega)
    have h2 := hex_upper_lt (xor_fold s % 16) (by omega)
    rcases hc with h | h | h | h | h | h | h
    · omega
    · exact (hs c h).2
    all_goals omega
  have hv : nmea_line_valid (nmea_sentence s) := by
    rw [heq, nmea_line_valid_frame]
    have h1 := is_hex_digit_hex_upper (xor_fold s / 16) (by omega)
    have h2 := is_hex_digit_hex_upper (xor_fold s % 16) (by omega)
    refine ⟨h1.1, h2.1, ?_⟩
    rw [h1.2, h2.2]
    omega
  rw [flytec_gets_nmea_check_eq _ hlt256, c_str_of_ne_zero _ hne, if_pos hv, heq]
  simp [List.take_left]

theorem nmea_round_trip_witness :
    (∀ c ∈ bytes "PBRSNP,", 0 < c ∧ c < 256) ∧
    flytec_gets_nmea_check (nmea_sentence (bytes "PBRSNP,")) = .ok (bytes "PBRSNP,") :=
  ⟨by decide, (nmea_round_trip (bytes "PBRSNP,") (by decide)).2⟩

theorem c_str_set (buf : List Nat) (i c : Nat) (hi : i < strlen buf) :
    c_str (buf.set i c) = if c = 0 then buf.take i else (c_str buf).set i c := by
  induction buf generalizing i with
  | nil => simp [strlen, c_str] at hi
  | cons b p ih =>
    by_cases hb : b = 0
    · simp [strlen, c_str, List.takeWhile, hb] at hi
    · have hlen : strlen (b :: p) = strlen p + 1 := by
        simp [strlen, c_str, List.takeWhile, hb]
      cases i with
      | zero =>
        by_cases hc : c = 0
        · simp [c_str, List.takeWhile, hc]
        · simp [c_str, List.takeWhile, hc, hb]
      | succ i =>
        have hi2 : i < strlen p := by omega
        have := ih i hi2
        by_cases hc : c = 0
        · simp only [hc, if_true] at this
          simp only [List.set_cons_succ, hc, if_true, List.take_succ_cons]
          unfold c_str at this ⊢
          simp only [List.takeWhile, ne_eq, hb, not_false_eq_true, decide_True]
          rw [this]
        · simp only [hc, if_false] at this
          simp only [List.set_cons_succ, hc, if_false]
          unfold c_str at this ⊢
          simp only [List.takeWhile, ne_eq, hb, not_false_eq_true, decide_True,
            List.set_cons_succ]
          rw [this]

theorem getD_set_eq (l : List Nat) (i j c : Nat) :
    (l.set i c).getD j 0 = if i = j ∧ i < l.length then c else l.getD j 0 := by
  rw [List.getD_eq_getElem?_getD, List.getD_eq_getElem?_getD, List.getElem?_set]
  by_cases h : i = j
  · subst h
    by_cases h2 : i < l.length
    · simp [h2]
    · simp [h2, List.getElem?_eq_none (Nat.le_of_not_lt h2)]
  · simp [h]

theorem payload_set (l : List Nat) (i c n : Nat) (h : n - 5 ≤ i) :
    ((l.set i c).drop 1).take (n - 6) = (l.drop 1).take (n - 6) := by
  apply List.ext_getElem?
  intro k
  rw [List.getElem?_take, List.getElem?_take, List.getElem?_drop, List.getElem?_drop,
    List.getElem?_set]
  by_cases hk : k < n - 6
  · have : i ≠ 1 + k := by omega
    simp [hk, this]
  · simp [hk]

theorem hex_digit_value_inj (a b : Nat) (ha : is_hex_digit a) (hb : is_hex_digit b)
    (h : hex_digit_value a = hex_digit_value b) : a = b := by
  unfold is_hex_digit at ha hb
  unfold hex_digit_value at h
  split_ifs at h <;> omega

theorem hex_digit_value_lt (a : Nat) (ha : is_hex_digit a) : hex_digit_value a < 16 := by
  unfold is_hex_digit at ha
  unfold hex_digit_value
  split_ifs <;> omega

theorem nmea_digit_replaced (buf : List Nat) (hb : ∀ c ∈ buf, c < 256) (payload : List Nat)
    (hok : flytec_gets_nmea_check buf = .ok payload) (i c : Nat)
    (hi : i = strlen buf - 4 ∨ i = strlen buf - 3) (hc : c < 256) (hne : c ≠ byte_at buf i) :
    flytec_gets_nmea_check (buf.set i c) = .error .invalid_NMEA_response := by
  have hv : nmea_line_valid (c_str buf) := by
    by_contra hnv
    rw [flytec_gets_nmea_check_eq buf hb, if_neg hnv] at hok
    cases hok
  have hb2 : ∀ x ∈ buf.set i c, x < 256 := by
    intro x hx
    rcases List.mem_or_eq_of_mem_set hx with h | h
    · exact hb x h
    · rw [h]; exact hc
  rw [flytec_gets_nmea_check_eq _ hb2, if_neg]
  intro hv2
  obtain ⟨h6, h0, h5, h2, h1, hx4, hx3, hsum⟩ := hv
  have hlen : (c_str buf).length = strlen buf := rfl
  rw [hlen] at h6 h5 h2 h1 hx4 hx3 hsum
  have hin : i < strlen buf := by omega
  have hle := strlen_le buf
  rw [← byte_at_c_str buf i hin] at hne
  rw [c_str_set buf i c hin] at hv2
  by_cases hc0 : c = 0
  · rw [if_pos hc0] at hv2
    obtain ⟨g6, _, _, _, g1, _⟩ := hv2
    have hl : (buf.take i).length = i := by rw [List.length_take]; omega
    rw [hl] at g6 g1
    have hprev : (buf.take i).getD (i - 1) 0 = (c_str buf).getD (i - 1) 0 := by
      rw [byte_at_c_str buf (i - 1) (by omega), byte_at, List.getD_eq_getElem?_getD,
        List.getD_eq_getElem?_getD, List.getElem?_take_of_lt (by omega)]
    rw [hprev] at g1
    rcases hi with hi | hi
    · rw [hi, show strlen buf - 4 - 1 = strlen buf - 5 by omega] at g1
      omega
    · rw [hi, show strlen buf - 3 - 1 = strlen buf - 4 by omega] at g1
      rw [g1] at hx4
      revert hx4
      decide
  · rw [if_neg hc0] at hv2
    obtain ⟨_, _, _, _, _, gx4, gx3, gsum⟩ := hv2
    rw [List.length_set, hlen] at gx4 gx3 gsum
    rw [payload_set _ _ _ _ (by omega), ← hsum] at gsum
    rw [getD_set_eq, hlen] at gx4 gx3 gsum
    rw [getD_set_eq, hlen] at gsum
    have v4 := hex_digit_value_lt _ hx4
    have v3 := hex_digit_value_lt _ hx3
    rcases hi with hi | hi
    · have e1 : i = strlen buf - 4 ∧ i < strlen buf := ⟨hi, hin⟩
      have e2 : ¬ (i = strlen buf - 3 ∧ i < strlen buf) := by omega
      rw [if_pos e1] at gx4 gsum
      rw [if_neg e2] at gsum
      apply hne
      rw [hi]
      exact hex_digit_value_inj _ _ gx4 hx4 (by omega)
    · have e1 : ¬ (i = strlen buf - 4 ∧ i < strlen buf) := by omega
      have e2 : i = strlen buf - 3 ∧ i < strlen buf := ⟨hi, hin⟩
      rw [if_pos e2] at gx3 gsum
      rw [if_neg e1] at gsum
      apply hne
      rw [hi]
      exact hex_digit_value_inj _ _ gx3 hx3 (by omega)

/-- Claim C2: the line received in `buf` (the C string it holds) is accepted by
`flytec_gets_nmea` if and only if it has at least 6 characters, starts with `$`, has `*`
five characters before its end, ends with CR LF, and its two checksum characters are
hexadecimal digits (`0`-`9`, `A`-`F`) whose value is the XOR of the bytes strictly between
the `$` and the `*`.  On acceptance exactly those bytes are returned; otherwise the outcome
is the fatal error "invalid NMEA response".  Replacing one of the two checksum characters
of an accepted line by any different byte makes the validation fail. -/
theorem flytec_gets_nmea_check_spec (buf : List Nat) (hb : ∀ c ∈ buf, c < 256) :
    (nmea_line_valid (c_str buf) →
      flytec_gets_nmea_check buf =
        .ok (((c_str buf).drop 1).take ((c_str buf).length - 6))) ∧
    (¬ nmea_line_valid (c_str buf) →
      flytec_gets_nmea_check buf = .error .invalid_NMEA_response) ∧
    (∀ payload, flytec_gets_nmea_check buf = .ok payload →
      ∀ i c, (i = strlen buf - 4 ∨ i = strlen buf - 3) → c < 256 → c ≠ byte_at buf i →
        flytec_gets_nmea_check (buf.set i c) = .error .invalid_NMEA_response) := by
  refine ⟨fun hv => ?_, fun hnv => ?_, fun payload hok i c hi hc hne => ?_⟩
  · rw [flytec_gets_nmea_check_eq buf hb, if_pos hv]
  · rw [flytec_gets_nmea_check_eq buf hb, if_neg hnv]
  · exact nmea_digit_replaced buf hb payload hok i c hi hc hne

theorem flytec_gets_nmea_check_spec_witness :
    (∀ c ∈ bytes "$PBRSNP,*21\r\n", c < 256) ∧
    nmea_line_valid (c_str (bytes "$PBRSNP,*21\r\n")) ∧
    flytec_gets_nmea_check (bytes "$PBRSNP,*21\r\n") = .ok (bytes "PBRSNP,") ∧
    ¬ nmea_line_valid (c_str (bytes "$PBRSNP,*20\r\n")) ∧
    flytec_gets_nmea_check (bytes "$PBRSNP,*20\r\n") = .error .invalid_NMEA_response ∧
    flytec_gets_nmea_check ((bytes "$PBRSNP,*21\r\n").set 9 51) =
      .error .invalid_NMEA_response :=
  ⟨by decide, by decide,
   (flytec_gets_nmea_check_spec (bytes "$PBRSNP,*21\r\n") (by decide)).1 (by decide),
   by decide,
   (flytec_gets_nmea_check_spec (bytes "$PBRSNP,*20\r\n") (by decide)).2.1 (by decide),
   (flytec_gets_nmea_check_spec (bytes "$PBRSNP,*21\r\n") (by decide)).2.2
     (bytes "PBRSNP,") (by decide) 9 51 (by decide) (by decide) (by decide)⟩

/-! ## Theorems: the serial channel -/

/-- Reading changes the receive buffer and the transport only. -/
theorem flytec_read_session (f g : flytec_t) (h : flytec_read f = .ok g) :
    g.snp = f.snp ∧ g.manufacturer = f.manufacturer ∧ g.pilot_name = f.pilot_name ∧
    g.serial_number = f.serial_number ∧ g.trackc = f.trackc ∧ g.trackv = f.trackv ∧
    g.written = f.written := by
  unfold flytec_read at h
  split at h
  · cases h
  · split at h
    · cases h
    · cases h
      simp

theorem flytec_read_pending (f g : flytec_t) (h : flytec_read f = .ok g) :
    pending g + f.unread.length = pending f ∧ g.unread ≠ [] := by
  unfold flytec_read at h
  split at h
  · cases h
  · rename_i block rest hdev
    split at h
    · cases h
    · rename_i hlen
      cases h
      unfold pending
      simp only [hdev, List.map_cons, List.sum_cons, List.length_take]
      constructor
      · by_cases hle : block.length ≤ 128
        · simp only [hle, if_true]
          omega
        · simp only [hle, if_false, List.map_cons, List.sum_cons, List.length_drop]
          omega
      · intro hnil
        have := congrArg List.length hnil
        simp only [List.length_take, List.length_nil] at this
        omega

theorem flytec_gets_loop_session (len : Nat) :
    ∀ (f g : flytec_t) (stored buf : List Nat),
      flytec_gets_loop len f stored = .ok (buf, g) →
      (g.snp = f.snp ∧ g.manufacturer = f.manufacturer ∧ g.pilot_name = f.pilot_name ∧
        g.serial_number = f.serial_number ∧ g.trackc = f.trackc ∧ g.trackv = f.trackv ∧
        g.written = f.written) ∧ pending g < pending f := by
  induction len using Nat.strong_induction_on with
  | _ len ih =>
    intro f g stored buf h
    match len, ih with
    | 0, _ => simp [flytec_gets_loop] at h
    | 1, _ => simp [flytec_gets_loop] at h
    | len + 2, ih =>
      unfold flytec_gets_loop at h
      split at h
      · cases h
      · rename_i c unread hun
        dsimp only at h
        split at h
        · cases h
          refine ⟨by simp, ?_⟩
          unfold pending
          simp [hun]
        · split at h
          · cases h
          · rename_i f2 hread
            have hrec := ih (len + 1) (by omega) f2 g _ buf h
            by_cases hnil : unread = []
            · rw [if_pos hnil] at hread
              have hs := flytec_read_session _ _ hread
              have hp := flytec_read_pending _ _ hread
              simp only at hs hp
              refine ⟨?_, ?_⟩
              · obtain ⟨⟨a1, a2, a3, a4, a5, a6, a7⟩, _⟩ := hrec
                obtain ⟨b1, b2, b3, b4, b5, b6, b7⟩ := hs
                exact ⟨a1.trans b1, a2.trans b2, a3.trans b3, a4.trans b4, a5.trans b5,
                  a6.trans b6, a7.trans b7⟩
              · have h1 := hrec.2
                have h2 := hp.1
                unfold pending at h1 h2 ⊢
                simp only [hun, List.length_cons] at h1 h2 ⊢
                omega
            · rw [if_neg hnil] at hread
              cases hread
              refine ⟨by simpa using hrec.1, ?_⟩
              have h1 := hrec.2
              unfold pending at h1 ⊢
              simp only [hun, List.length_cons] at h1 ⊢
              omega

theorem flytec_gets_session (f g : flytec_t) (size : Nat) (line : Option (List Nat))
    (h : flytec_gets f size = .ok (line, g)) :
    (g.snp = f.snp ∧ g.manufacturer = f.manufacturer ∧ g.pilot_name = f.pilot_name ∧
      g.serial_number = f.serial_number ∧ g.trackc = f.trackc ∧ g.trackv = f.trackv ∧
      g.written = f.written) ∧ pending g ≤ pending f ∧ (line ≠ none → pending g < pending f) := by
  unfold flytec_gets at h
  split at h
  · cases h
  · rename_i f1 hread
    have h1 : (f1.snp = f.snp ∧ f1.manufacturer = f.manufacturer ∧
        f1.pilot_name = f.pilot_name ∧ f1.serial_number = f.serial_number ∧
        f1.trackc = f.trackc ∧ f1.trackv = f.trackv ∧ f1.written = f.written) ∧
        pending f1 ≤ pending f := by
      by_cases hnil : f.unread = []
      · rw [if_pos hnil] at hread
        have hp := (flytec_read_pending _ _ hread).1
        exact ⟨flytec_read_session _ _ hread, by omega⟩
      · rw [if_neg hnil] at hread
        cases hread
        simp
    split at h
    · cases h
      exact ⟨h1.1, h1.2, fun hc => absurd rfl hc⟩
    · split at h
      · cases h
      · rename_i buf f2 hloop
        cases h
        have h2 := flytec_gets_loop_session size f1 g [] buf hloop
        obtain ⟨⟨a1, a2, a3, a4, a5, a6, a7⟩, hp⟩ := h2
        obtain ⟨⟨b1, b2, b3, b4, b5, b6, b7⟩, hq⟩ := h1
        exact ⟨⟨a1.trans b1, a2.trans b2, a3.trans b3, a4.trans b4, a5.trans b5,
          a6.trans b6, a7.trans b7⟩, by omega, fun _ => by omega⟩

theorem flytec_gets_nmea_session (f g : flytec_t) (size : Nat) (line : Option (List Nat))
    (h : flytec_gets_nmea f size = .ok (line, g)) :
    (g.snp = f.snp ∧ g.manufacturer = f.manufacturer ∧ g.pilot_name = f.pilot_name ∧
      g.serial_number = f.serial_number ∧ g.trackc = f.trackc ∧ g.trackv = f.trackv ∧
      g.written = f.written) ∧ pending g ≤ pending f ∧ (line ≠ none → pending g < pending f) := by
  unfold flytec_gets_nmea at h
  split at h
  · cases h
  · rename_i f1 hg
    cases h
    exact flytec_gets_session _ _ _ _ hg
  · rename_i buf f1 hg
    split at h
    · cases h
    · cases h
      have := flytec_gets_session _ _ _ _ hg
      exact ⟨this.1, this.2.1, fun _ => this.2.2 (by simp)⟩

theorem flytec_expectc_session (f g : flytec_t) (c : Nat) (h : flytec_expectc f c = .ok g) :
    g.snp = f.snp ∧ g.manufacturer = f.manufacturer ∧ g.pilot_name = f.pilot_name ∧
    g.serial_number = f.serial_number ∧ g.trackc = f.trackc ∧ g.trackv = f.trackv ∧
    g.written = f.written := by
  unfold flytec_expectc at h
  split at h
  · cases h
  · rename_i got f1 hgetc
    split at h
    · cases h
    · cases h
      unfold flytec_getc at hgetc
      split at hgetc
      · cases hgetc
      · rename_i f2 hread
        have h1 : f2.snp = f.snp ∧ f2.manufacturer = f.manufacturer ∧
            f2.pilot_name = f.pilot_name ∧ f2.serial_number = f.serial_number ∧
            f2.trackc = f.trackc ∧ f2.trackv = f.trackv ∧ f2.written = f.written := by
          by_cases hnil : f.unread = []
          · rw [if_pos hnil] at hread
            exact flytec_read_session _ _ hread
          · rw [if_neg hnil] at hread
            cases hread
            simp
        split at hgetc
        · cases hgetc
          exact h1
        · cases hgetc
          simpa using h1

/-! ## Theorems: the track listing -/

theorem getD_set_slot {α : Type} (l : List α) (i j : Nat) (a d : α) :
    (l.set i a).getD j d = if i = j ∧ i < l.length then a else l.getD j d := by
  rw [List.getD_eq_getElem?_getD, List.getD_eq_getElem?_getD, List.getElem?_set]
  by_cases h : i = j
  · subst h
    by_cases h2 : i < l.length
    · simp [h2]
    · simp [h2, List.getElem?_eq_none (Nat.le_of_not_lt h2)]
  · simp [h]

theorem getD_replicate_none {α : Type} (m k : Nat) :
    (List.replicate m (none : Option α)).getD k none = none := by
  rw [List.getD_eq_getElem?_getD, List.getElem?_replicate]
  split <;> rfl

theorem flytec_pbrtl_loop_zero (mktime : tm → Int) (f : flytec_t) (index : Int) :
    flytec_pbrtl_loop mktime 0 f index = none := rfl

theorem flytec_pbrtl_loop_succ (mktime : tm → Int) (fuel : Nat) (f : flytec_t) (index : Int) :
    flytec_pbrtl_loop mktime (fuel + 1) f index =
      match flytec_gets_nmea f 128 with
      | .error e => some (.error e)
      | .ok (none, f1) => some (.ok (f1, index))
      | .ok (some line, f1) =>
        match track_new mktime line with
        | .error e => some (.error e)
        | .ok none => some (.error .invalid_response)
        | .ok (some track) =>
          match flytec_pbrtl_store f1 track index with
          | .error e => some (.error e)
          | .ok f2 => flytec_pbrtl_loop mktime fuel f2 (index + 1) := rfl

/-- What one pass through the body of the receiving loop does when `trackv` is allocated. -/
theorem flytec_pbrtl_store_some (f g : flytec_t) (track : track_t) (index : Int)
    (arr : List (Option track_t)) (harr : f.trackv = some arr)
    (h : flytec_pbrtl_store f track index = .ok g) :
    track.index = index ∧ track.count = f.trackc ∧ 0 ≤ index ∧ index.toNat < arr.length ∧
    g = { f with trackv := some (arr.set index.toNat (some track)) } := by
  unfold flytec_pbrtl_store at h
  split at h
  · cases h
  · rename_i hidx
    rw [harr] at h
    dsimp only at h
    split at h
    · cases h
    · rename_i hcount
      split at h
      · rename_i hb
        have hidx2 : track.index = index := by
          by_contra hne; exact hidx hne
        have hcount2 : track.count = f.trackc := by
          by_contra hne; exact hcount hne
        cases h
        rw [hidx2] at hb
        exact ⟨hidx2, hcount2, hb.2, hb.1, by rw [hidx2]⟩
      · cases h

/-- What one pass through the body of the receiving loop does while `trackv` is NULL. -/
theorem flytec_pbrtl_store_none (f g : flytec_t) (track : track_t) (index : Int)
    (harr : f.trackv = none) (h : flytec_pbrtl_store f track index = .ok g) :
    track.index = index ∧ 0 ≤ index ∧ index.toNat < (track.count + 1).toNat ∧
    g = { f with
      trackc := track.count
      trackv := some ((List.replicate (track.count + 1).toNat none).set index.toNat
        (some track)) } := by
  unfold flytec_pbrtl_store at h
  split at h
  · cases h
  · rename_i hidx
    rw [harr] at h
    dsimp only at h
    split at h
    · cases h
    · split at h
      · rename_i hb
        have hidx2 : track.index = index := by
          by_contra hne; exact hidx hne
        cases h
        rw [hidx2] at hb
        exact ⟨hidx2, hb.2, hb.1, by rw [hidx2]⟩
      · cases h

/-- Invariant of the receiving loop of `flytec_pbrtl` once `trackv` is allocated: the slots
filled by the loop hold, at position `k`, a descriptor with index `k` and the count
`trackc`; the other slots are left alone. -/
theorem flytec_pbrtl_loop_filled (mktime : tm → Int) (fuel : Nat) :
    ∀ (f : flytec_t) (index : Int) (arr : List (Option track_t)) (g : flytec_t) (n : Int),
      0 ≤ index → f.trackv = some arr →
      flytec_pbrtl_loop mktime fuel f index = some (.ok (g, n)) →
      index ≤ n ∧ g.trackc = f.trackc ∧ g.serial_number = f.serial_number ∧
      pending g ≤ pending f ∧
      ∃ arr2, g.trackv = some arr2 ∧ arr2.length = arr.length ∧
        (index < n → n ≤ arr.length) ∧
        (∀ k : Nat, ((k : Int) < index ∨ n ≤ (k : Int)) →
          arr2.getD k none = arr.getD k none) ∧
        (∀ k : Nat, index ≤ (k : Int) → (k : Int) < n →
          ∃ t, arr2.getD k none = some t ∧ t.index = k ∧ t.count = f.trackc) := by
  induction fuel with
  | zero =>
    intro f index arr g n _ _ h
    rw [flytec_pbrtl_loop_zero] at h
    cases h
  | succ fuel ih =>
    intro f index arr g n h0 harr h
    rw [flytec_pbrtl_loop_succ] at h
    cases hg : flytec_gets_nmea f 128 with
    | error e => rw [hg] at h; cases h
    | ok r =>
      obtain ⟨line, f1⟩ := r
      rw [hg] at h
      have hs := flytec_gets_nmea_session _ _ _ _ hg
      obtain ⟨⟨_, _, _, hser, htc, htv, _⟩, hpend, _⟩ := hs
      cases line with
      | none =>
        dsimp only at h
        cases h
        exact ⟨le_refl _, htc, hser, hpend, arr, htv.trans harr, rfl, fun hlt => by omega,
          fun k _ => rfl, fun k h1 h2 => by omega⟩
      | some line =>
        dsimp only at h
        cases ht : track_new mktime line with
        | error e => rw [ht] at h; cases h
        | ok r2 =>
          rw [ht] at h
          cases r2 with
          | none => cases h
          | some track =>
            dsimp only at h
            cases hst : flytec_pbrtl_store f1 track index with
            | error e => rw [hst] at h; cases h
            | ok f2 =>
              rw [hst] at h
              dsimp only at h
              have harr1 : f1.trackv = some arr := htv.trans harr
              obtain ⟨hidx, hcount, _, hb, hf2⟩ :=
                flytec_pbrtl_store_some f1 f2 track index arr harr1 hst
              have harr2 : f2.trackv = some (arr.set index.toNat (some track)) := by
                rw [hf2]
              obtain ⟨h1, h2, h3, hp, arr2, h4, h5, h5b, h6, h7⟩ :=
                ih f2 (index + 1) _ g n (by omega) harr2 h
              simp only [List.length_set] at h5 h5b
              have e1 : f2.trackc = f1.trackc := by rw [hf2]
              have e2 : f2.serial_number = f1.serial_number := by rw [hf2]
              have e3 : pending f2 = pending f1 := by rw [hf2]; rfl
              refine ⟨by omega, (h2.trans e1).trans htc, (h3.trans e2).trans hser, by omega,
                arr2, h4, h5, fun _ => ?_, ?_, ?_⟩
              · by_cases hlt : index + 1 < n
                · exact h5b hlt
                · omega
              · intro k hk
                rw [h6 k (by omega), getD_set_slot]
                have : ¬ (index.toNat = k ∧ index.toNat < arr.length) := by
                  omega
                rw [if_neg this]
              · intro k hk1 hk2
                by_cases hk : (k : Int) = index
                · refine ⟨track, ?_, by omega, ?_⟩
                  · rw [h6 k (Or.inl (by omega)), getD_set_slot]
                    have : index.toNat = k ∧ index.toNat < arr.length := by
                      omega
                    rw [if_pos this]
                  · rw [hcount, htc]
                · obtain ⟨t, e4, e5, e6⟩ := h7 k (by omega) hk2
                  exact ⟨t, e4, e5, (e6.trans e1).trans htc⟩

/-- The receiving loop of `flytec_pbrtl` entered as `flytec_pbrtl` enters it, with `trackv`
NULL and `index = 0`: either no descriptor arrives, or `trackv` is allocated with
`trackc + 1` slots of which the first `n` hold the `n` descriptors received, the one in
slot `k` with index `k` and count `trackc`. -/
theorem flytec_pbrtl_loop_fresh (mktime : tm → Int) (fuel : Nat) (f g : flytec_t) (n : Int)
    (hfresh : f.trackv = none)
    (h : flytec_pbrtl_loop mktime fuel f 0 = some (.ok (g, n))) :
    g.serial_number = f.serial_number ∧
    ((n = 0 ∧ g.trackv = none ∧ g.trackc = f.trackc) ∨
     (0 < n ∧ 0 ≤ g.trackc ∧ ∃ arr, g.trackv = some arr ∧
        arr.length = (g.trackc + 1).toNat ∧ n ≤ arr.length ∧
        (∀ k : Nat, n ≤ (k : Int) → arr.getD k none = none) ∧
        (∀ k : Nat, (k : Int) < n →
          ∃ t, arr.getD k none = some t ∧ t.index = k ∧ t.count = g.trackc))) := by
  cases fuel with
  | zero => rw [flytec_pbrtl_loop_zero] at h; cases h
  | succ fuel =>
    rw [flytec_pbrtl_loop_succ] at h
    cases hg : flytec_gets_nmea f 128 with
    | error e => rw [hg] at h; cases h
    | ok r =>
      obtain ⟨line, f1⟩ := r
      rw [hg] at h
      obtain ⟨⟨_, _, _, hser, htc, htv, _⟩, _, _⟩ := flytec_gets_nmea_session _ _ _ _ hg
      cases line with
      | none =>
        dsimp only at h
        cases h
        exact ⟨hser, Or.inl ⟨rfl, htv.trans hfresh, htc⟩⟩
      | some line =>
        dsimp only at h
        cases ht : track_new mktime line with
        | error e => rw [ht] at h; cases h
        | ok r2 =>
          rw [ht] at h
          cases r2 with
          | none => cases h
          | some track =>
            dsimp only at h
            cases hst : flytec_pbrtl_store f1 track 0 with
            | error e => rw [hst] at h; cases h
            | ok f2 =>
              rw [hst] at h
              dsimp only at h
              obtain ⟨hidx, _, hb, hf2⟩ :=
                flytec_pbrtl_store_none f1 f2 track 0 (htv.trans hfresh) hst
              have harr2 : f2.trackv = some ((List.replicate (track.count + 1).toNat none).set
                  (0 : Int).toNat (some track)) := by rw [hf2]
              have e1 : f2.trackc = track.count := by rw [hf2]
              have e2 : f2.serial_number = f1.serial_number := by rw [hf2]
              obtain ⟨h1, h2, h3, _, arr2, h4, h5, h5b, h6, h7⟩ :=
                flytec_pbrtl_loop_filled mktime fuel f2 (0 + 1) _ g n (by omega) harr2 h
              simp only [List.length_set, List.length_replicate] at h5 h5b
              simp only [Int.toNat_zero] at hb h6 h7
              have hcnt : 0 ≤ track.count := by omega
              refine ⟨(h3.trans e2).trans hser, Or.inr ⟨by omega, by rw [h2, e1]; exact hcnt,
                arr2, h4, by rw [h5, h2, e1], ?_, ?_, ?_⟩⟩
              · by_cases hlt : (0 : Int) + 1 < n
                · have := h5b hlt
                  omega
                · have : n = 1 := by omega
                  rw [this, h5]
                  have : 0 < (track.count + 1).toNat := hb
                  omega
              · intro k hk
                rw [h6 k (Or.inr hk), getD_set_slot]
                have : ¬ (0 = k ∧ 0 < (List.replicate (track.count + 1).toNat
                    (none : Option track_t)).length) := by omega
                rw [if_neg this, getD_replicate_none]
              · intro k hk
                by_cases hk0 : k = 0
                · subst hk0
                  refine ⟨track, ?_, by simpa using hidx, by rw [h2, e1]⟩
                  rw [h6 0 (Or.inl (by omega)), getD_set_slot]
                  have : (0 = 0 ∧ 0 < (List.replicate (track.count + 1).toNat
                      (none : Option track_t)).length) := by
                    simp only [List.length_replicate, true_and]
                    exact hb
                  rw [if_pos this]
                · obtain ⟨t, e4, e5, e6⟩ := h7 k (by omega) hk
                  exact ⟨t, e4, e5, e6.trans h2.symm⟩

theorem flytec_pbrtl_loop_mismatch (mktime : tm → Int) (fuel : Nat) (s s1 : flytec_t)
    (index : Int) (line : List Nat) (track : track_t)
    (hg : flytec_gets_nmea s 128 = .ok (some line, s1))
    (ht : track_new mktime line = .ok (some track))
    (hbad : track.index ≠ index ∨ (s1.trackv ≠ none ∧ track.count ≠ s1.trackc)) :
    flytec_pbrtl_loop mktime (fuel + 1) s index = some (.error .inconsistent_data) := by
  rw [flytec_pbrtl_loop_succ, hg]
  dsimp only
  rw [ht]
  dsimp only
  have hst : flytec_pbrtl_store s1 track index = .error .inconsistent_data := by
    unfold flytec_pbrtl_store
    by_cases hidx : track.index = index
    · rcases hbad with hbad | ⟨hv, hc⟩
      · exact absurd hidx hbad
      · rw [if_neg (not_not.mpr hidx)]
        cases hv2 : s1.trackv with
        | none => exact absurd hv2 hv
        | some arr =>
          dsimp only
          rw [if_pos hc]
    · rw [if_pos hidx]
  rw [hst]

/-! ## Theorems: what `flytec_puts_nmea` writes -/

theorem flytec_puts_nmea_written (flytec : flytec_t) (s : List Nat)
    (hs : ∀ c ∈ s, 0 < c ∧ c < 256) :
    flytec_puts_nmea flytec s =
      .ok { flytec with written := flytec.written ++ [nmea_sentence s ++ [0]] } ∧
    (nmea_sentence s ++ [0]).length = s.length + 7 := by
  have h0 : c_str s = s := c_str_of_ne_zero s (fun c hc => by have := (hs c hc).1; omega)
  have hlen : (nmea_sentence s).length = s.length + 6 := by
    rw [nmea_sentence_eq s hs]
    simp
  refine ⟨?_, by rw [List.length_append, hlen]; rfl⟩
  unfold flytec_puts_nmea
  have hstr : strlen s = s.length := by unfold strlen; rw [h0]
  simp only [hstr, hlen]
  rw [if_neg (by omega)]
  congr 4
  rw [List.take_of_length_le]
  rw [List.length_append, hlen]
  simp

/-- Claim C3, the code at a payload: for the request `PBRTL,` the block that
`flytec_puts_nmea` hands to `write` is the sentence `$PBRTL,*74` CR LF followed by a NUL
byte, 13 bytes for a payload of 6, not the 12 bytes of the sentence alone. -/
theorem flytec_puts_nmea_hands_nul :
    flytec_puts_nmea (flytec_new []) (bytes "PBRTL,") =
      .ok { flytec_new [] with written := [bytes "$PBRTL,*74\r\n" ++ [0]] } ∧
    (bytes "$PBRTL,*74\r\n" ++ [0]).length = (bytes "PBRTL,").length + 7 := by
  decide

/-! ## Theorems: day indexes -/

theorem track_at_eq_ok (trackv : List (Option track_t)) (i : Nat) (t : track_t) :
    track_at trackv i = .ok t ↔ trackv.getD i none = some t := by
  unfold track_at
  cases h : trackv.getD i none with
  | none => simp
  | some v => simp

theorem track_at_eq_error (trackv : List (Option track_t)) (i : Nat) (e : Fatal) :
    track_at trackv i = .error e → trackv.getD i none = none := by
  unfold track_at
  cases h : trackv.getD i none with
  | none => simp
  | some v => simp

theorem getD_some_lt {α : Type} (l : List (Option α)) (i : Nat) (a : α)
    (h : l.getD i none = some a) : i < l.length := by
  by_contra hge
  rw [List.getD_eq_getElem?_getD, List.getElem?_eq_none (Nat.le_of_not_lt hge)] at h
  cases h

/-- The backward loop over the day indexes: when it ends normally, every slot up to the
starting one held a descriptor, the slots from the starting one on are unchanged, and each
slot `i` below it holds its descriptor with the day index computed from the final
descriptor of slot `i + 1`. -/
theorem day_index_loop_ok (m : Nat) :
    ∀ (trackv out : List (Option track_t)), day_index_loop m trackv = .ok out →
      out.length = trackv.length ∧
      (∀ i, m ≤ i → out.getD i none = trackv.getD i none) ∧
      (0 < m → ∃ t, trackv.getD m none = some t) ∧
      (∀ i, i < m → ∃ t next, trackv.getD i none = some t ∧
        out.getD (i + 1) none = some next ∧
        out.getD i none = some { t with
          day_index := if t.date = next.date then next.day_index + 1 else 1 }) := by
  induction m with
  | zero =>
    intro trackv out h
    simp only [day_index_loop] at h
    cases h
    exact ⟨rfl, fun i _ => rfl, fun h => absurd h (by omega), fun i hi => absurd hi (by omega)⟩
  | succ m ih =>
    intro trackv out h
    rw [day_index_loop] at h
    cases h1 : track_at trackv m with
    | error e => rw [h1] at h; cases h
    | ok track =>
      cases h2 : track_at trackv (m + 1) with
      | error e => rw [h1, h2] at h; cases h
      | ok next =>
        rw [h1, h2] at h
        dsimp only at h
        rw [track_at_eq_ok] at h1 h2
        have hm : m < trackv.length := getD_some_lt _ _ _ h1
        obtain ⟨a1, a2, _, a4⟩ := ih _ out h
        rw [List.length_set] at a1
        have hout_m : out.getD m none = some { track with
            day_index := if track.date = next.date then next.day_index + 1 else 1 } := by
          rw [a2 m (le_refl _), getD_set_slot, if_pos ⟨rfl, hm⟩]
        have hout_m1 : out.getD (m + 1) none = some next := by
          rw [a2 (m + 1) (by omega), getD_set_slot, if_neg (by omega), h2]
        refine ⟨a1, ?_, fun _ => ⟨next, h2⟩, ?_⟩
        · intro i hi
          rw [a2 i (by omega), getD_set_slot, if_neg (by omega)]
        · intro i hi
          by_cases him : i = m
          · subst him
            exact ⟨track, next, h1, hout_m1, hout_m⟩
          · obtain ⟨t, nx, b1, b2, b3⟩ := a4 i (by omega)
            rw [getD_set_slot, if_neg (by omega)] at b1
            exact ⟨t, nx, b1, b2, b3⟩

/-- The backward loop over the day indexes ends normally when all slots hold
descriptors. -/
theorem day_index_loop_total (m : Nat) :
    ∀ (trackv : List (Option track_t)), (∀ i, i ≤ m → ∃ t, trackv.getD i none = some t) →
      ∃ out, day_index_loop m trackv = .ok out := by
  induction m with
  | zero =>
    intro trackv _
    exact ⟨trackv, rfl⟩
  | succ m ih =>
    intro trackv hall
    obtain ⟨track, h1⟩ := hall m (by omega)
    obtain ⟨next, h2⟩ := hall (m + 1) (le_refl _)
    have hm : m < trackv.length := getD_some_lt _ _ _ h1
    rw [day_index_loop, (track_at_eq_ok _ _ _).mpr h1, (track_at_eq_ok _ _ _).mpr h2]
    dsimp only
    apply ih
    intro i hi
    rw [getD_set_slot]
    by_cases him : m = i
    · rw [if_pos ⟨him, hm⟩]
      exact ⟨_, rfl⟩
    · rw [if_neg (by omega)]
      exact hall i (by omega)

/-- The block "calculate daily flight indexes": when it ends normally, the first `trackc`
slots held descriptors, only their day indexes change, the last of them gets day index 1
and each earlier one the day index of its successor plus 1 when their dates are equal, and
1 otherwise. -/
theorem flytec_pbrtl_day_indexes_ok (trackc : Int) (trackv out : List (Option track_t))
    (h : flytec_pbrtl_day_indexes trackc trackv = .ok out) :
    0 < trackc ∧ out.length = trackv.length ∧
    (∀ i, trackc.toNat ≤ i → out.getD i none = trackv.getD i none) ∧
    (∀ i, i < trackc.toNat → ∃ t d, trackv.getD i none = some t ∧
      out.getD i none = some { t with day_index := d } ∧
      (i + 1 = trackc.toNat → d = 1) ∧
      (i + 1 < trackc.toNat → ∃ next, out.getD (i + 1) none = some next ∧
        d = if t.date = next.date then next.day_index + 1 else 1)) := by
  unfold flytec_pbrtl_day_indexes at h
  split at h
  · cases h
  · rename_i hpos
    cases h1 : track_at trackv (trackc.toNat - 1) with
    | error e => rw [h1] at h; cases h
    | ok last =>
      rw [h1] at h
      dsimp only at h
      rw [track_at_eq_ok] at h1
      have hm : trackc.toNat - 1 < trackv.length := getD_some_lt _ _ _ h1
      obtain ⟨a1, a2, _, a4⟩ := day_index_loop_ok _ _ out h
      rw [List.length_set] at a1
      refine ⟨by omega, a1, ?_, ?_⟩
      · intro i hi
        rw [a2 i (by omega), getD_set_slot, if_neg (by omega)]
      · intro i hi
        by_cases hlast : i = trackc.toNat - 1
        · subst hlast
          refine ⟨last, 1, h1, ?_, fun _ => rfl, fun hlt => absurd hlt (by omega)⟩
          rw [a2 _ (le_refl _), getD_set_slot, if_pos ⟨rfl, hm⟩]
        · obtain ⟨t, nx, b1, b2, b3⟩ := a4 i (by omega)
          rw [getD_set_slot, if_neg (by omega)] at b1
          exact ⟨t, _, b1, b3, fun he => absurd he (by omega), fun _ => ⟨nx, b2, rfl⟩⟩

/-- The block "calculate daily flight indexes" ends normally when the first `trackc`
slots hold descriptors. -/
theorem flytec_pbrtl_day_indexes_total (trackc : Int) (trackv : List (Option track_t))
    (hpos : 0 < trackc) (hall : ∀ i, i < trackc.toNat → ∃ t, trackv.getD i none = some t) :
    ∃ out, flytec_pbrtl_day_indexes trackc trackv = .ok out := by
  unfold flytec_pbrtl_day_indexes
  rw [if_neg (by omega)]
  obtain ⟨last, h1⟩ := hall (trackc.toNat - 1) (by omega)
  have hm : trackc.toNat - 1 < trackv.length := getD_some_lt _ _ _ h1
  rw [(track_at_eq_ok _ _ _).mpr h1]
  dsimp only
  apply day_index_loop_total
  intro i hi
  rw [getD_set_slot]
  by_cases him : trackc.toNat - 1 = i
  · rw [if_pos ⟨him, hm⟩]
    exact ⟨_, rfl⟩
  · rw [if_neg (by omega)]
    exact hall i (by omega)

/-! ## Theorems: file names of a listing -/

/-- The loop over the file names: when it ends normally, each slot it visits held a
descriptor and now holds it with the file name that `igc_filename` computes from it; the
other slots are unchanged. -/
theorem igc_filenames_loop_ok (filename_format : igc_filename_format_t)
    (manufacturer : Option (List Nat)) (serial_number : Int) (left : Nat) :
    ∀ (i : Nat) (trackv out : List (Option track_t)),
      igc_filenames_loop filename_format manufacturer serial_number left i trackv = .ok out →
      out.length = trackv.length ∧
      (∀ j, (j < i ∨ i + left ≤ j) → out.getD j none = trackv.getD j none) ∧
      (∀ j, i ≤ j → j < i + left → ∃ t name, trackv.getD j none = some t ∧
        igc_filename filename_format manufacturer serial_number t = .ok name ∧
        out.getD j none = some { t with igc_filename := some name }) := by
  induction left with
  | zero =>
    intro i trackv out h
    simp only [igc_filenames_loop] at h
    cases h
    exact ⟨rfl, fun j _ => rfl, fun j h1 h2 => absurd h2 (by omega)⟩
  | succ left ih =>
    intro i trackv out h
    rw [igc_filenames_loop] at h
    cases h1 : track_at trackv i with
    | error e => rw [h1] at h; cases h
    | ok track =>
      rw [h1] at h
      dsimp only at h
      cases h2 : igc_filename filename_format manufacturer serial_number track with
      | error e => rw [h2] at h; cases h
      | ok name =>
        rw [h2] at h
        dsimp only at h
        rw [track_at_eq_ok] at h1
        have hi : i < trackv.length := getD_some_lt _ _ _ h1
        obtain ⟨a1, a2, a3⟩ := ih _ _ out h
        rw [List.length_set] at a1
        refine ⟨a1, ?_, ?_⟩
        · intro j hj
          rw [a2 j (by omega), getD_set_slot, if_neg (by omega)]
        · intro j hj1 hj2
          by_cases hji : j = i
          · subst hji
            refine ⟨track, name, h1, h2, ?_⟩
            rw [a2 j (Or.inl (by omega)), getD_set_slot, if_pos ⟨rfl, hi⟩]
          · obtain ⟨t, nm, b1, b2, b3⟩ := a3 j (by omega) (by omega)
            rw [getD_set_slot, if_neg (by omega)] at b1
            exact ⟨t, nm, b1, b2, b3⟩

theorem igc_filename_congr (filename_format : igc_filename_format_t)
    (manufacturer : Option (List Nat)) (serial_number : Int) (t u : track_t)
    (hdate : t.date = u.date) (hday : t.day_index = u.day_index) :
    igc_filename filename_format manufacturer serial_number t =
      igc_filename filename_format manufacturer serial_number u := by
  unfold igc_filename
  rw [hdate, hday]

/-- The receiving loop never reaches the bound on its iterations when the bound exceeds the
number of bytes that the session can still receive. -/
theorem flytec_pbrtl_loop_returns (mktime : tm → Int) (fuel : Nat) :
    ∀ (f : flytec_t) (index : Int), pending f < fuel →
      flytec_pbrtl_loop mktime fuel f index ≠ none := by
  induction fuel with
  | zero => intro f index h; omega
  | succ fuel ih =>
    intro f index hp
    rw [flytec_pbrtl_loop_succ]
    cases hg : flytec_gets_nmea f 128 with
    | error e => simp
    | ok r =>
      obtain ⟨line, f1⟩ := r
      obtain ⟨_, _, hlt⟩ := flytec_gets_nmea_session _ _ _ _ hg
      cases line with
      | none => simp
      | some line =>
        dsimp only
        have hlt2 := hlt (by simp)
        cases ht : track_new mktime line with
        | error e => simp
        | ok r2 =>
          cases r2 with
          | none => simp
          | some track =>
            dsimp only
            cases hst : flytec_pbrtl_store f1 track index with
            | error e => simp
            | ok f2 =>
              dsimp only
              apply ih
              have : pending f2 = pending f1 := by
                unfold flytec_pbrtl_store at hst
                split at hst
                · cases hst
                · split at hst
                  · split at hst
                    · cases hst
                    · split at hst
                      · cases hst; rfl
                      · cases hst
                  · split at hst
                    · cases hst
                    · split at hst
                      · cases hst; rfl
                      · cases hst
              omega

/-- The part of `flytec_pbrtl` that processes the response always returns or stops with a
fatal outcome: the bound on the iterations of its loop is never reached. -/
theorem flytec_pbrtl_body_returns (mktime : tm → Int) (f : flytec_t)
    (manufacturer : Option (List Nat)) (filename_format : igc_filename_format_t) :
    flytec_pbrtl_body mktime f manufacturer filename_format ≠ none := by
  unfold flytec_pbrtl_body
  have := flytec_pbrtl_loop_returns mktime (pending f + 1) f 0 (by omega)
  cases hl : flytec_pbrtl_loop mktime (pending f + 1) f 0 with
  | none => exact absurd hl this
  | some r =>
    cases r with
    | error e => simp
    | ok r =>
      obtain ⟨f1, n⟩ := r
      dsimp only
      cases flytec_pbrtl_finish f1 manufacturer filename_format with
      | error e => simp
      | ok f2 =>
        dsimp only
        cases flytec_expectc f2 XON with
        | error e => simp
        | ok f3 => simp

/-- What an accepted listing looks like.  When the part of `flytec_pbrtl` that processes
the response ends normally on a session without a cached listing, then either `trackc` is
0 and the cached listing is the array of one NULL slot, or `trackc` is positive and each of
the first `trackc` slots holds a descriptor with its position as index, `trackc` as count,
the day index of the backward scan and the file name computed from its date and day
index. -/
theorem flytec_pbrtl_body_ok (mktime : tm → Int) (f g : flytec_t)
    (manufacturer : Option (List Nat)) (filename_format : igc_filename_format_t)
    (trackv : List (Option track_t)) (hfresh : f.trackv = none)
    (h : flytec_pbrtl_body mktime f manufacturer filename_format = some (.ok (trackv, g))) :
    g.trackv = some trackv ∧ g.serial_number = f.serial_number ∧
    (g.trackc = 0 → trackv = [none]) ∧
    (g.trackc ≠ 0 → 0 < g.trackc ∧
      ∀ i, i < g.trackc.toNat → ∃ t name, trackv.getD i none = some t ∧
        t.index = i ∧ t.count = g.trackc ∧
        igc_filename filename_format manufacturer g.serial_number t = .ok name ∧
        t.igc_filename = some name ∧
        (i + 1 = g.trackc.toNat → t.day_index = 1) ∧
        (i + 1 < g.trackc.toNat → ∃ next, trackv.getD (i + 1) none = some next ∧
          t.day_index = if t.date = next.date then next.day_index + 1 else 1)) := by
  unfold flytec_pbrtl_body at h
  cases hl : flytec_pbrtl_loop mktime (pending f + 1) f 0 with
  | none => rw [hl] at h; cases h
  | some r =>
    rw [hl] at h
    cases r with
    | error e => cases h
    | ok r =>
      obtain ⟨f1, n⟩ := r
      dsimp only at h
      obtain ⟨hser1, hcase⟩ := flytec_pbrtl_loop_fresh mktime _ f f1 n hfresh hl
      cases hfin : flytec_pbrtl_finish f1 manufacturer filename_format with
      | error e => rw [hfin] at h; cases h
      | ok f2 =>
        rw [hfin] at h
        dsimp only at h
        cases hexp : flytec_expectc f2 XON with
        | error e => rw [hexp] at h; cases h
        | ok f3 =>
          rw [hexp] at h
          cases h
          obtain ⟨_, _, _, hser3, htc3, htv3, _⟩ := flytec_expectc_session _ _ _ hexp
          unfold flytec_pbrtl_finish at hfin
          by_cases hz : f1.trackc = 0
          · rw [if_neg (not_not.mpr hz)] at hfin
            cases hfin
            simp only at hser3 htc3 htv3
            refine ⟨by rw [htv3]; rfl, hser3.trans hser1, fun _ => by rw [htv3]; rfl,
              fun hne => absurd (htc3.trans hz) hne⟩
          · rw [if_pos hz] at hfin
            rcases hcase with ⟨_, hnone, _⟩ | ⟨hn, hpos, arr, harr, _, _, hrest, hslots⟩
            · rw [hnone] at hfin
              cases hfin
            · rw [harr] at hfin
              dsimp only at hfin
              cases hday : flytec_pbrtl_day_indexes f1.trackc arr with
              | error e => rw [hday] at hfin; cases hfin
              | ok out1 =>
                rw [hday] at hfin
                dsimp only at hfin
                cases hnames : igc_filenames_loop filename_format manufacturer
                    f1.serial_number f1.trackc.toNat 0 out1 with
                | error e => rw [hnames] at hfin; cases hfin
                | ok out2 =>
                  rw [hnames] at hfin
                  cases hfin
                  simp only at hser3 htc3 htv3
                  obtain ⟨d1, _, _, d4⟩ := flytec_pbrtl_day_indexes_ok _ _ _ hday
                  obtain ⟨_, _, n3⟩ := igc_filenames_loop_ok _ _ _ _ _ _ _ hnames
                  refine ⟨by rw [htv3]; rfl, hser3.trans hser1,
                    fun h0 => absurd (htc3.symm.trans h0) hz, fun _ => ⟨by omega, ?_⟩⟩
                  rw [htv3, htc3, hser3]
                  intro i hi
                  obtain ⟨t0, d, e1, e2, e3, e4⟩ := d4 i hi
                  obtain ⟨t1, name, g1, g2, g3⟩ := n3 i (by omega) (by omega)
                  rw [e2] at g1
                  cases g1
                  have hin : (i : Int) < n := by
                    by_contra hge
                    rw [hrest i (by omega)] at e1
                    cases e1
                  obtain ⟨t0b, s1, s2, s3⟩ := hslots i hin
                  rw [e1] at s1
                  cases s1
                  refine ⟨_, name, g3, s2, s3, ?_, rfl, e3, ?_⟩
                  · rw [← g2]
                    exact igc_filename_congr _ _ _ _ _ rfl rfl
                  · intro hlt
                    obtain ⟨nx, x1, x2⟩ := e4 hlt
                    obtain ⟨t1b, nameb, y1, _, y3⟩ := n3 (i + 1) (by omega) (by omega)
                    rw [x1] at y1
                    cases y1
                    exact ⟨_, y3, x2⟩

/-! ## Theorems: from `flytec_pbrtl` to the processing of the response -/

theorem flytec_puts_nmea_session (f g : flytec_t) (s : List Nat)
    (h : flytec_puts_nmea f s = .ok g) :
    g.trackv = f.trackv ∧ g.trackc = f.trackc ∧ g.snp = f.snp ∧
    g.unread = f.unread ∧ g.device = f.device := by
  unfold flytec_puts_nmea at h
  dsimp only at h
  split at h
  · cases h
  · cases h
    simp

theorem flytec_pbrsnp_session (f g : flytec_t) (snp : snp_t)
    (h : flytec_pbrsnp f = .ok (snp, g)) :
    g.trackv = f.trackv ∧ g.trackc = f.trackc := by
  unfold flytec_pbrsnp at h
  cases hsnp : f.snp with
  | some cached =>
    rw [hsnp] at h
    cases h
    exact ⟨rfl, rfl⟩
  | none =>
    rw [hsnp] at h
    dsimp only at h
    cases h1 : flytec_puts_nmea f PBRSNP with
    | error e => rw [h1] at h; cases h
    | ok f1 =>
      rw [h1] at h
      dsimp only at h
      obtain ⟨a1, a2, _⟩ := flytec_puts_nmea_session _ _ _ h1
      cases h2 : flytec_expectc f1 XOFF with
      | error e => rw [h2] at h; cases h
      | ok f2 =>
        rw [h2] at h
        dsimp only at h
        obtain ⟨_, _, _, _, b2, b1, _⟩ := flytec_expectc_session _ _ _ h2
        cases h3 : flytec_gets_nmea f2 128 with
        | error e => rw [h3] at h; cases h
        | ok r =>
          obtain ⟨line, f3⟩ := r
          rw [h3] at h
          obtain ⟨⟨_, _, _, _, c2, c1, _⟩, _⟩ := flytec_gets_nmea_session _ _ _ _ h3
          cases line with
          | none => cases h
          | some line =>
            dsimp only at h
            cases h4 : snp_new line with
            | error e => rw [h4] at h; cases h
            | ok r2 =>
              rw [h4] at h
              cases r2 with
              | none => cases h
              | some decoded =>
                dsimp only at h
                cases h5 : flytec_expectc f3 XON with
                | error e => rw [h5] at h; cases h
                | ok f4 =>
                  rw [h5] at h
                  obtain ⟨_, _, _, _, d2, d1, _⟩ := flytec_expectc_session _ _ _ h5
                  cases h
                  exact ⟨((d1.trans c1).trans b1).trans a1, ((d2.trans c2).trans b2).trans a2⟩

theorem flytec_pbrtl_request_session (f g : flytec_t) (h : flytec_pbrtl_request f = .ok g) :
    g.trackv = f.trackv ∧ g.trackc = f.trackc := by
  unfold flytec_pbrtl_request at h
  cases h1 : flytec_pbrsnp f with
  | error e => rw [h1] at h; cases h
  | ok r =>
    obtain ⟨snp, f1⟩ := r
    rw [h1] at h
    dsimp only at h
    obtain ⟨a1, a2⟩ := flytec_pbrsnp_session _ _ _ h1
    cases h2 : flytec_puts_nmea f1 PBRTL with
    | error e => rw [h2] at h; cases h
    | ok f2 =>
      rw [h2] at h
      dsimp only at h
      obtain ⟨b1, b2, _⟩ := flytec_puts_nmea_session _ _ _ h2
      obtain ⟨_, _, _, _, c2, c1, _⟩ := flytec_expectc_session _ _ _ h
      exact ⟨(c1.trans b1).trans a1, (c2.trans b2).trans a2⟩

/-- On a session without a cached listing `flytec_pbrtl` is the identity query, the request
and `XOFF`, followed by the processing of the response. -/
theorem flytec_pbrtl_fresh (mktime : tm → Int) (f g : flytec_t)
    (manufacturer : Option (List Nat)) (filename_format : igc_filename_format_t)
    (trackv : List (Option track_t)) (hfresh : f.trackv = none)
    (h : flytec_pbrtl mktime f manufacturer filename_format = some (.ok (trackv, g))) :
    ∃ started, flytec_pbrtl_request f = .ok started ∧ started.trackv = none ∧
      flytec_pbrtl_body mktime started (manufacturer <|> f.manufacturer) filename_format =
        some (.ok (trackv, g)) := by
  unfold flytec_pbrtl at h
  rw [hfresh] at h
  dsimp only at h
  cases hr : flytec_pbrtl_request f with
  | error e => rw [hr] at h; cases h
  | ok started =>
    rw [hr] at h
    dsimp only at h
    exact ⟨started, rfl, (flytec_pbrtl_request_session _ _ hr).1.trans hfresh, h⟩

/-- The function `flytec_pbrtl` always returns or stops with a fatal outcome. -/
theorem flytec_pbrtl_returns (mktime : tm → Int) (f : flytec_t)
    (manufacturer : Option (List Nat)) (filename_format : igc_filename_format_t) :
    flytec_pbrtl mktime f manufacturer filename_format ≠ none := by
  unfold flytec_pbrtl
  cases f.trackv with
  | some trackv => simp
  | none =>
    dsimp only
    cases flytec_pbrtl_request f with
    | error e => simp
    | ok started => exact flytec_pbrtl_body_returns mktime started _ filename_format

/-- What an accepted listing looks like.  When `flytec_pbrtl` returns on a session without
a cached listing, then either `trackc` is 0 and the cached listing is the array of one
NULL slot, or `trackc` is positive and each of the first `trackc` slots holds a descriptor
with its position as index, `trackc` as count, the day index of the backward scan and the
file name computed from its date and day index. -/
theorem flytec_pbrtl_ok (mktime : tm → Int) (f g : flytec_t)
    (manufacturer : Option (List Nat)) (filename_format : igc_filename_format_t)
    (trackv : List (Option track_t)) (hfresh : f.trackv = none)
    (h : flytec_pbrtl mktime f manufacturer filename_format = some (.ok (trackv, g))) :
    g.trackv = some trackv ∧
    (g.trackc = 0 → trackv = [none]) ∧
    (g.trackc ≠ 0 → 0 < g.trackc ∧
      ∀ i, i < g.trackc.toNat → ∃ t name, trackv.getD i none = some t ∧
        t.index = i ∧ t.count = g.trackc ∧
        igc_filename filename_format (manufacturer <|> f.manufacturer) g.serial_number t =
          .ok name ∧
        t.igc_filename = some name ∧
        (i + 1 = g.trackc.toNat → t.day_index = 1) ∧
        (i + 1 < g.trackc.toNat → ∃ next, trackv.getD (i + 1) none = some next ∧
          t.day_index = if t.date = next.date then next.day_index + 1 else 1)) := by
  obtain ⟨started, _, hs, hb⟩ :=
    flytec_pbrtl_fresh mktime f g manufacturer filename_format trackv hfresh h
  obtain ⟨h1, _, h3, h4⟩ := flytec_pbrtl_body_ok mktime started g _ filename_format trackv hs hb
  exact ⟨h1, h3, h4⟩

/-! ## Theorems: day indexes of an accepted listing -/

/-- The day indexes of the positions below `trackc`: in every accepted listing with
`n = trackc > 0` (`trackc` is the count that the descriptors report), the descriptor at
position `n - 1` has day index 1, and the descriptor at each position `i < n - 1` has the
day index of position `i + 1` plus 1 when the dates of `i` and `i + 1` are equal, and 1
otherwise.  In particular, with `trackc = 3` and the dates A, A, B (B different from A) the
day indexes are 2, 1, 1. -/
theorem flytec_pbrtl_day_index_recurrence (mktime : tm → Int) (f g : flytec_t)
    (manufacturer : Option (List Nat)) (filename_format : igc_filename_format_t)
    (trackv : List (Option track_t)) (hfresh : f.trackv = none)
    (h : flytec_pbrtl mktime f manufacturer filename_format = some (.ok (trackv, g)))
    (hne : g.trackc ≠ 0) :
    0 < g.trackc ∧
    (∃ last, trackv.getD (g.trackc.toNat - 1) none = some last ∧ last.day_index = 1) ∧
    (∀ i, i + 1 < g.trackc.toNat → ∃ t next,
      trackv.getD i none = some t ∧ trackv.getD (i + 1) none = some next ∧
      t.day_index = if t.date = next.date then next.day_index + 1 else 1) ∧
    (g.trackc = 3 → ∃ t0 t1 t2,
      trackv.getD 0 none = some t0 ∧ trackv.getD 1 none = some t1 ∧
      trackv.getD 2 none = some t2 ∧
      (t0.date = t1.date → t1.date ≠ t2.date →
        t0.day_index = 2 ∧ t1.day_index = 1 ∧ t2.day_index = 1)) := by
  obtain ⟨_, _, hpos⟩ := flytec_pbrtl_ok mktime f g manufacturer filename_format
    trackv hfresh h
  obtain ⟨hp, hall⟩ := hpos hne
  refine ⟨hp, ?_, ?_, ?_⟩
  · have e1 : g.trackc.toNat - 1 < g.trackc.toNat := by omega
    have e2 : g.trackc.toNat - 1 + 1 = g.trackc.toNat := by omega
    obtain ⟨t, _, h1, _, _, _, _, h6, _⟩ := hall (g.trackc.toNat - 1) e1
    exact ⟨t, h1, h6 e2⟩
  · intro i hi
    have e1 : i < g.trackc.toNat := by omega
    obtain ⟨t, _, h1, _, _, _, _, _, h7⟩ := hall i e1
    obtain ⟨next, h8, h9⟩ := h7 hi
    exact ⟨t, next, h1, h8, h9⟩
  · intro h3
    have hn : g.trackc.toNat = 3 := by omega
    have k0 : 0 < g.trackc.toNat := by omega
    have k1 : 1 < g.trackc.toNat := by omega
    have k2 : 2 < g.trackc.toNat := by omega
    have k3 : 0 + 1 < g.trackc.toNat := by omega
    have k4 : 1 + 1 < g.trackc.toNat := by omega
    have k5 : 2 + 1 = g.trackc.toNat := by omega
    obtain ⟨t0, _, a1, _, _, _, _, _, a7⟩ := hall 0 k0
    obtain ⟨t1, _, b1, _, _, _, _, _, b7⟩ := hall 1 k1
    obtain ⟨t2, _, c1, _, _, _, _, c6, _⟩ := hall 2 k2
    obtain ⟨n0, a8, a9⟩ := a7 k3
    obtain ⟨n1, b8, b9⟩ := b7 k4
    rw [b1] at a8
    cases a8
    rw [c1] at b8
    cases b8
    refine ⟨t0, t1, t2, a1, b1, c1, fun hAA hAB => ?_⟩
    have hc := c6 k5
    rw [if_neg hAB] at b9
    rw [if_pos hAA, b9] at a9
    exact ⟨a9, b9, hc⟩

theorem flytec_pbrtl_day_index_recurrence_witness :
    (0 : Int) < 3 ∧
    (∃ last, example_listing_long.getD ((3 : Int).toNat - 1) none = some last ∧
      last.day_index = 1) ∧
    (∃ t0 t1 t2,
      example_listing_long.getD 0 none = some t0 ∧
      example_listing_long.getD 1 none = some t1 ∧
      example_listing_long.getD 2 none = some t2 ∧
      (t0.date = t1.date → t1.date ≠ t2.date →
        t0.day_index = 2 ∧ t1.day_index = 1 ∧ t2.day_index = 1)) :=
  have h := flytec_pbrtl_day_index_recurrence mktime_zero example_session
    (example_session_listed example_listing_long)
    (some (bytes "FLY")) .igc_filename_format_long example_listing_long
    rfl (by decide) (by decide)
  ⟨h.1, h.2.1, h.2.2.2 rfl⟩

/-- Claim C6, the code.  The scan of the day indexes starts at position `trackc - 1`, where
`trackc` is the count that the descriptors report: in every accepted listing the descriptor
at that position gets day index 1, and each descriptor before it gets the day index of its
successor plus 1 when their dates are equal, and 1 otherwise; three descriptors dated A, A,
B that report the count 3 get the day indexes 2, 1, 1.  The number of descriptors received
is not compared with `trackc`.  The response of two descriptors of one date that both
report the count 1 is accepted: its last descriptor, at position 1, keeps the day index 0
of its allocation, and the descriptor at position 0 gets the day index 1, where the
recurrence over the two descriptors gives 1 and 2. -/
theorem flytec_pbrtl_day_index_beyond_count :
    (∀ (mktime : tm → Int) (f g : flytec_t) (manufacturer : Option (List Nat))
      (filename_format : igc_filename_format_t) (trackv : List (Option track_t)),
      f.trackv = none →
      flytec_pbrtl mktime f manufacturer filename_format = some (.ok (trackv, g)) →
      g.trackc ≠ 0 →
      0 < g.trackc ∧
      (∃ last, trackv.getD (g.trackc.toNat - 1) none = some last ∧ last.day_index = 1) ∧
      (∀ i, i + 1 < g.trackc.toNat → ∃ t next,
        trackv.getD i none = some t ∧ trackv.getD (i + 1) none = some next ∧
        t.day_index = if t.date = next.date then next.day_index + 1 else 1)) ∧
    flytec_pbrtl mktime_zero example_session (some (bytes "FLY"))
        .igc_filename_format_long =
      some (.ok (example_listing_long, example_session_listed example_listing_long)) ∧
    example_listing_long.map (Option.map (fun t => (t.date, t.day_index))) =
      [some (54949, 2), some (54949, 1), some (54950, 1), none] ∧
    (descriptors_listed mktime_zero example_session_count_one).length = 2 ∧
    (descriptors_listed mktime_zero example_session_count_one).map (fun t => t.date) =
      [54949, 54949] ∧
    flytec_pbrtl mktime_zero example_session_count_one (some (bytes "FLY"))
        .igc_filename_format_long =
      some (.ok (example_listing_count_one,
        { example_session_listed example_listing_count_one with trackc := 1 })) ∧
    example_listing_count_one.map (Option.map (fun t => (t.date, t.day_index))) =
      [some (54949, 1), some (54949, 0)] := by
  refine ⟨?_, ?_, ?_, ?_, ?_, ?_, ?_⟩
  · intro mktime f g manufacturer filename_format trackv hfresh h hne
    obtain ⟨h1, h2, h3, _⟩ := flytec_pbrtl_day_index_recurrence mktime f g manufacturer
      filename_format trackv hfresh h hne
    exact ⟨h1, h2, h3⟩
  all_goals decide

/-! ## Theorems: the day index as an ordinal among the flights of a day -/

theorem decimal_length_le (n e : Nat) (he : 0 < e) (hn : n < 10 ^ e) :
    (decimal n).length ≤ e := by
  unfold decimal
  rw [List.length_map]
  exact Nat.toDigitsCore_length 10 (by decide) (n + 1) n e hn he

theorem zero_padded_length_le (width n e : Nat) (he : 0 < e) (hn : n < 10 ^ e)
    (hw : width ≤ e) : (zero_padded width n).length ≤ e := by
  have := decimal_length_le n e he hn
  unfold zero_padded
  rw [List.length_append, List.length_replicate]
  omega

theorem printf_d_of_nat (width n : Nat) : printf_d width (n : Int) = zero_padded width n := by
  unfold printf_d zero_padded
  rw [if_neg (by omega)]
  rfl

theorem zero_padded_zero (n : Nat) : zero_padded 0 n = decimal n := by
  unfold zero_padded
  simp

theorem calendar_date_unpack (year month day : Nat)
    (hm : 1 ≤ month ∧ month ≤ 12) (hd : 1 ≤ day ∧ day ≤ 31) :
    DATE_YEAR (calendar_date year month day) + 1900 = (year : Int) ∧
    DATE_MON (calendar_date year month day) + 1 = (month : Int) ∧
    DATE_MDAY (calendar_date year month day) = (day : Int) := by
  unfold DATE_YEAR DATE_MON DATE_MDAY calendar_date DATE_NEW
  norm_num
  refine ⟨?_, ?_, ?_⟩ <;> omega

/-- Two valid calendar dates have the same packed date only if they are the same date, so
that the comparison `trackv[i]->date == trackv[i + 1]->date` of `flytec_pbrtl` compares
calendar dates. -/
theorem calendar_date_inj (year month day year2 month2 day2 : Nat)
    (hm : 1 ≤ month ∧ month ≤ 12) (hd : 1 ≤ day ∧ day ≤ 31)
    (hm2 : 1 ≤ month2 ∧ month2 ≤ 12) (hd2 : 1 ≤ day2 ∧ day2 ≤ 31) :
    calendar_date year month day = calendar_date year2 month2 day2 ↔
      year = year2 ∧ month = month2 ∧ day = day2 := by
  constructor
  · intro h
    obtain ⟨a1, a2, a3⟩ := calendar_date_unpack year month day hm hd
    obtain ⟨b1, b2, b3⟩ := calendar_date_unpack year2 month2 day2 hm2 hd2
    rw [h] at a1 a2 a3
    refine ⟨?_, ?_, ?_⟩ <;> omega
  · rintro ⟨rfl, rfl, rfl⟩
    rfl

/-- The long file name of one descriptor. -/
theorem igc_filename_long_eq (year month day : Nat) (m : List Nat) (s k : Nat)
    (track : track_t) (hy : year < 10 ^ 7) (hm : 1 ≤ month ∧ month ≤ 12)
    (hd : 1 ≤ day ∧ day ≤ 31) (hm0 : ∀ c ∈ m, c ≠ 0) (hml : m.length ≤ 80)
    (hs : s < 10 ^ 10) (hk : k < 10 ^ 10)
    (hdate : track.date = calendar_date year month day) (hday : track.day_index = k) :
    igc_filename .igc_filename_format_long (some m) s track =
      .ok (zero_padded 4 year ++ [45] ++ zero_padded 2 month ++ [45] ++ zero_padded 2 day
        ++ [45] ++ m ++ [45] ++ decimal s ++ [45] ++ zero_padded 2 k ++ [46, 73, 71, 67]) := by
  obtain ⟨e1, e2, e3⟩ := calendar_date_unpack year month day hm hd
  unfold igc_filename
  dsimp only
  rw [hdate, hday, e1, e2, e3, c_str_of_ne_zero m hm0]
  simp only [printf_d_of_nat, zero_padded_zero]
  have l1 := zero_padded_length_le 4 year 7 (by omega) hy (by omega)
  have l2 := zero_padded_length_le 2 month 2 (by omega) (by omega) (by omega)
  have l3 := zero_padded_length_le 2 day 2 (by omega) (by omega) (by omega)
  have l4 := decimal_length_le s 10 (by omega) hs
  have l5 := zero_padded_length_le 2 k 10 (by omega) hk (by omega)
  have hlen : (zero_padded 4 year ++ [45] ++ zero_padded 2 month ++ [45]
      ++ zero_padded 2 day ++ [45] ++ m ++ [45] ++ decimal s ++ [45] ++ zero_padded 2 k
      ++ [46, 73, 71, 67]).length ≤ 127 := by
    simp only [List.length_append, List.length_cons, List.length_nil]
    omega
  rw [if_neg (by omega), List.take_of_length_le hlen]

/-- The long file names of the positions below `trackc`: for every descriptor at such a
position of an accepted listing (long format) whose calendar date is `year`-`month`-`day`, with manufacturer code `m`, session serial number `s` and day
index `k`, the file name is the 4-digit zero-padded year, `-`, the 2-digit zero-padded
month, `-`, the 2-digit zero-padded day, `-`, `m`, `-`, the decimal `s`, `-`, the 2-digit
zero-padded `k`, `.IGC`; for 2007-06-05, `FLY`, 123 and day index 2 it is
`2007-06-05-FLY-123-02.IGC`.  The manufacturer code is the value of
`manufacturer ? manufacturer : flytec->manufacturer` in `flytec_pbrtl`. -/
theorem flytec_pbrtl_long_filename (mktime : tm → Int) (f g : flytec_t)
    (manufacturer : Option (List Nat)) (m : List Nat)
    (trackv : List (Option track_t)) (hfresh : f.trackv = none)
    (h : flytec_pbrtl mktime f manufacturer .igc_filename_format_long =
      some (.ok (trackv, g)))
    (hman : (manufacturer <|> f.manufacturer) = some m)
    (i : Nat) (t : track_t) (hi : i < g.trackc.toNat) (ht : trackv.getD i none = some t)
    (year month day s k : Nat) (hy : year < 10 ^ 7) (hmon : 1 ≤ month ∧ month ≤ 12)
    (hd : 1 ≤ day ∧ day ≤ 31) (hm0 : ∀ c ∈ m, c ≠ 0) (hml : m.length ≤ 80)
    (hs : s < 10 ^ 10) (hk : k < 10 ^ 10)
    (hdate : t.date = calendar_date year month day) (hday : t.day_index = k)
    (hser : g.serial_number = s) :
    t.igc_filename =
      some (zero_padded 4 year ++ [45] ++ zero_padded 2 month ++ [45] ++ zero_padded 2 day
        ++ [45] ++ m ++ [45] ++ decimal s ++ [45] ++ zero_padded 2 k ++ [46, 73, 71, 67]) ∧
    zero_padded 4 2007 ++ [45] ++ zero_padded 2 6 ++ [45] ++ zero_padded 2 5
        ++ [45] ++ bytes "FLY" ++ [45] ++ decimal 123 ++ [45] ++ zero_padded 2 2
        ++ [46, 73, 71, 67] = bytes "2007-06-05-FLY-123-02.IGC" := by
  refine ⟨?_, by decide⟩
  have hne : g.trackc ≠ 0 := by
    intro h0
    rw [h0] at hi
    simp at hi
  obtain ⟨_, _, hpos⟩ := flytec_pbrtl_ok mktime f g manufacturer _ trackv hfresh h
  obtain ⟨_, hall⟩ := hpos hne
  obtain ⟨t2, name, h1, _, _, h4, h5, _⟩ := hall i hi
  rw [ht] at h1
  cases h1
  have hname := igc_filename_long_eq year month day m s k t hy hmon hd hm0 hml hs hk hdate
    hday
  rw [hser, hman] at h4
  have hn : name = _ := Except.ok.inj (h4.symm.trans hname)
  rw [h5, hn]

theorem flytec_pbrtl_long_filename_witness :
    (some (bytes "2007-06-05-FLY-123-02.IGC") : Option (List Nat)) =
      some (zero_padded 4 2007 ++ [45] ++ zero_padded 2 6 ++ [45] ++ zero_padded 2 5
        ++ [45] ++ bytes "FLY" ++ [45] ++ decimal 123 ++ [45] ++ zero_padded 2 2
        ++ [46, 73, 71, 67]) :=
  (flytec_pbrtl_long_filename mktime_zero example_session
    (example_session_listed example_listing_long)
    (some (bytes "FLY")) (bytes "FLY") example_listing_long
    rfl (by decide) rfl
    0 ⟨3, 0, 54949, 2, 0, 3600, some (bytes "2007-06-05-FLY-123-02.IGC")⟩
    (by decide) rfl 2007 6 5 123 2 (by decide) (by decide) (by decide) (by decide)
    (by decide) (by decide) (by decide) (by decide) rfl rfl).1

/-- Claim C8, the code.  The loop over the file names runs over the positions below
`trackc`, the count that the descriptors report: in every accepted listing (long format)
the descriptor at such a position, with calendar date `year`-`month`-`day`, manufacturer
code `m`, session serial number `s` and day index `k`, has the file name made of the
4-digit zero-padded year, `-`, the 2-digit zero-padded month, `-`, the 2-digit zero-padded
day, `-`, `m`, `-`, the decimal `s`, `-`, the 2-digit zero-padded `k`, `.IGC`; for
2007-06-05, `FLY`, 123 and day index 2 it is `2007-06-05-FLY-123-02.IGC`.  The number of
descriptors received is not compared with `trackc`.  The response of two descriptors that
both report the count 1 is accepted, and its second descriptor, dated 2007-06-08, has no
file name: `igc_filename` stays NULL, where the format gives
`2007-06-08-FLY-123-00.IGC`. -/
theorem flytec_pbrtl_long_filename_beyond_count :
    (∀ (mktime : tm → Int) (f g : flytec_t) (manufacturer : Option (List Nat))
      (m : List Nat) (trackv : List (Option track_t)) (i : Nat) (t : track_t)
      (year month day s k : Nat),
      f.trackv = none →
      flytec_pbrtl mktime f manufacturer .igc_filename_format_long =
        some (.ok (trackv, g)) →
      (manufacturer <|> f.manufacturer) = some m →
      i < g.trackc.toNat → trackv.getD i none = some t →
      year < 10 ^ 7 → 1 ≤ month ∧ month ≤ 12 → 1 ≤ day ∧ day ≤ 31 →
      (∀ c ∈ m, c ≠ 0) → m.length ≤ 80 → s < 10 ^ 10 → k < 10 ^ 10 →
      t.date = calendar_date year month day → t.day_index = k → g.serial_number = s →
      t.igc_filename =
        some (zero_padded 4 year ++ [45] ++ zero_padded 2 month ++ [45]
          ++ zero_padded 2 day ++ [45] ++ m ++ [45] ++ decimal s ++ [45]
          ++ zero_padded 2 k ++ [46, 73, 71, 67])) ∧
    zero_padded 4 2007 ++ [45] ++ zero_padded 2 6 ++ [45] ++ zero_padded 2 5
        ++ [45] ++ bytes "FLY" ++ [45] ++ decimal 123 ++ [45] ++ zero_padded 2 2
        ++ [46, 73, 71, 67] = bytes "2007-06-05-FLY-123-02.IGC" ∧
    (descriptors_listed mktime_zero example_session_extra).length = 2 ∧
    flytec_pbrtl mktime_zero example_session_extra (some (bytes "FLY"))
        .igc_filename_format_long =
      some (.ok (example_listing_extra_long,
        { example_session_listed example_listing_extra_long with trackc := 1 })) ∧
    example_listing_extra_long.getD 1 none =
      some ⟨1, 1, calendar_date 2007 6 8, 0, 0, 7200, none⟩ ∧
    igc_filename .igc_filename_format_long (some (bytes "FLY")) 123
        ⟨1, 1, calendar_date 2007 6 8, 0, 0, 7200, none⟩ =
      .ok (bytes "2007-06-08-FLY-123-00.IGC") := by
  refine ⟨?_, ?_, ?_, ?_, ?_, ?_⟩
  · intro mktime f g manufacturer m trackv i t year month day s k hfresh h hman hi ht hy
      hmon hd hm0 hml hs hk hdate hday hser
    exact (flytec_pbrtl_long_filename mktime f g manufacturer m trackv hfresh h hman i t hi
      ht year month day s k hy hmon hd hm0 hml hs hk hdate hday hser).1
  all_goals decide

/-! ## Theorems: the short file name -/

theorem base36_getD (v : Nat) (hv : v < 36) : base36.getD v 0 = base36_symbol v := by
  unfold base36_symbol
  interval_cases v <;> rfl

theorem base36_at_of_nat (v : Nat) (hv : v < 36) :
    base36_at (v : Int) = .ok (base36_symbol v) := by
  unfold base36_at
  rw [if_pos ⟨by omega, by omega⟩, Int.toNat_natCast, base36_getD v hv]

theorem base36_symbol_ne_zero (v : Nat) : base36_symbol v ≠ 0 := by
  unfold base36_symbol
  split_ifs <;> omega

/-- The short file name of one descriptor. -/
theorem igc_filename_short_eq (year month day : Nat) (m : List Nat) (s k : Nat)
    (track : track_t) (hy : 1900 ≤ year) (hm : 1 ≤ month ∧ month ≤ 12)
    (hd : 1 ≤ day ∧ day ≤ 31) (hm0 : deref m ≠ 0) (hk : k ≤ 35)
    (hdate : track.date = calendar_date year month day) (hday : track.day_index = k) :
    igc_filename .igc_filename_format_short (some m) s track =
      .ok [base36_symbol (year % 10), base36_symbol month, base36_symbol day, deref m,
        base36_symbol (s % 36), base36_symbol (s / 36 % 36), base36_symbol (s / 1296 % 36),
        base36_symbol k, 46, 73, 71, 67] := by
  obtain ⟨e1, e2, e3⟩ := calendar_date_unpack year month day hm hd
  have ey : (DATE_YEAR (calendar_date year month day)).tmod 10 = ((year % 10 : Nat) : Int) := by
    have : DATE_YEAR (calendar_date year month day) = (year : Int) - 1900 := by omega
    rw [this, Int.tmod_eq_emod (by omega) (by omega)]
    omega
  have es0 : (s : Int).tmod 36 = ((s % 36 : Nat) : Int) := by
    rw [Int.tmod_eq_emod (by omega) (by omega)]
    omega
  have ed1 : (s : Int).tdiv 36 = ((s / 36 : Nat) : Int) := by
    rw [Int.tdiv_eq_ediv (by omega) (by omega)]
    omega
  have ed2 : ((s / 36 : Nat) : Int).tdiv 36 = ((s / 1296 : Nat) : Int) := by
    rw [Int.tdiv_eq_ediv (by omega) (by omega)]
    omega
  have es1 : ((s : Int).tdiv 36).tmod 36 = ((s / 36 % 36 : Nat) : Int) := by
    rw [ed1, Int.tmod_eq_emod (by omega) (by omega)]
    omega
  have es2 : (((s : Int).tdiv 36).tdiv 36).tmod 36 = ((s / 1296 % 36 : Nat) : Int) := by
    rw [ed1, ed2, Int.tmod_eq_emod (by omega) (by omega)]
    omega
  unfold igc_filename
  dsimp only
  rw [hdate, hday, ey, e2, e3, es0, es1, es2,
    base36_at_of_nat (s % 36) (Nat.mod_lt _ (by omega)),
    base36_at_of_nat (s / 36 % 36) (Nat.mod_lt _ (by omega)),
    base36_at_of_nat (s / 1296 % 36) (Nat.mod_lt _ (by omega)),
    base36_at_of_nat (year % 10) (by omega),
    base36_at_of_nat month (by omega), base36_at_of_nat day (by omega),
    base36_at_of_nat k (by omega)]
  dsimp only
  rw [if_neg (by simp)]
  congr 1
  have hne : ∀ c ∈ [base36_symbol (year % 10), base36_symbol month, base36_symbol day,
      deref m, base36_symbol (s % 36), base36_symbol (s / 36 % 36),
      base36_symbol (s / 1296 % 36), base36_symbol k, 46, 73, 71, 67], c ≠ 0 := by
    intro c hc
    simp only [List.mem_cons, List.mem_singleton, List.not_mem_nil, or_false] at hc
    rcases hc with h | h | h | h | h | h | h | h | h | h | h | h <;>
      first
        | (rw [h]; exact base36_symbol_ne_zero _)
        | (rw [h]; exact hm0)
        | omega
  exact c_str_of_ne_zero _ hne

/-- The short file names of the positions below `trackc`: for every descriptor at such a
position of an accepted listing (short format) with a valid calendar date (year 2000 or later, month 1..12, day 1..31), day index at most 35, serial
number `s` and a manufacturer code whose first character is `c`, the file name has exactly
12 characters: the symbols of the alphabet `0`-`9`, `A`-`Z` for year mod 10, month, day,
then `c`, then the symbols for `s mod 36`, `(s / 36) mod 36`, `(s / 1296) mod 36`, then the
symbol for the day index, then `.IGC`; for 2007-06-05, `FLY`, 123 and day index 2 it is
`765FF302.IGC`.  The manufacturer code is the value of
`manufacturer ? manufacturer : flytec->manufacturer` in `flytec_pbrtl`. -/
theorem flytec_pbrtl_short_filename (mktime : tm → Int) (f g : flytec_t)
    (manufacturer : Option (List Nat)) (m : List Nat)
    (trackv : List (Option track_t)) (hfresh : f.trackv = none)
    (h : flytec_pbrtl mktime f manufacturer .igc_filename_format_short =
      some (.ok (trackv, g)))
    (hman : (manufacturer <|> f.manufacturer) = some m)
    (i : Nat) (t : track_t) (hi : i < g.trackc.toNat) (ht : trackv.getD i none = some t)
    (year month day s k c : Nat) (rest : List Nat) (hy : 2000 ≤ year)
    (hmon : 1 ≤ month ∧ month ≤ 12) (hd : 1 ≤ day ∧ day ≤ 31) (hm : m = c :: rest)
    (hc : c ≠ 0) (hk : k ≤ 35)
    (hdate : t.date = calendar_date year month day) (hday : t.day_index = k)
    (hser : g.serial_number = s) :
    t.igc_filename =
      some [base36_symbol (year % 10), base36_symbol month, base36_symbol day, c,
        base36_symbol (s % 36), base36_symbol (s / 36 % 36), base36_symbol (s / 1296 % 36),
        base36_symbol k, 46, 73, 71, 67] ∧
    (t.igc_filename.getD []).length = 12 ∧
    [base36_symbol (2007 % 10), base36_symbol 6, base36_symbol 5, 70,
        base36_symbol (123 % 36), base36_symbol (123 / 36 % 36),
        base36_symbol (123 / 1296 % 36), base36_symbol 2, 46, 73, 71, 67]
      = bytes "765FF302.IGC" := by
  have hne : g.trackc ≠ 0 := by
    intro h0
    rw [h0] at hi
    simp at hi
  obtain ⟨_, _, hpos⟩ := flytec_pbrtl_ok mktime f g manufacturer _ trackv hfresh h
  obtain ⟨_, hall⟩ := hpos hne
  obtain ⟨t2, name, h1, _, _, h4, h5, _⟩ := hall i hi
  rw [ht] at h1
  cases h1
  have hderef : deref m = c := by rw [hm]; rfl
  have hname := igc_filename_short_eq year month day m s k t (by omega) hmon hd
    (by rw [hderef]; exact hc) hk hdate hday
  rw [hser, hman] at h4
  have hn : name = _ := Except.ok.inj (h4.symm.trans hname)
  rw [hderef] at hn
  refine ⟨by rw [h5, hn], by rw [h5, hn]; rfl, by decide⟩

theorem flytec_pbrtl_short_filename_witness :
    (some (bytes "765FF302.IGC") : Option (List Nat)) =
      some [base36_symbol (2007 % 10), base36_symbol 6, base36_symbol 5, 70,
        base36_symbol (123 % 36), base36_symbol (123 / 36 % 36),
        base36_symbol (123 / 1296 % 36), base36_symbol 2, 46, 73, 71, 67] :=
  (flytec_pbrtl_short_filename mktime_zero example_session
    (example_session_listed example_listing_short)
    (some (bytes "FLY")) (bytes "FLY") example_listing_short
    rfl (by decide) rfl
    0 ⟨3, 0, 54949, 2, 0, 3600, some (bytes "765FF302.IGC")⟩
    (by decide) rfl 2007 6 5 123 2 70 [76, 89] (by decide) (by decide) (by decide)
    (by decide) (by decide) (by decide) rfl rfl rfl).1

/-- Claim C9, the code.  The loop over the file names runs over the positions below
`trackc`, the count that the descriptors report: in every accepted listing (short format)
the descriptor at such a position, with a valid calendar date (year 2000 or later, month
1..12, day 1..31), day index at most 35, serial number `s` and a manufacturer code whose
first character is `c`, has a file name of exactly 12 characters: the symbols of the
alphabet `0`-`9`, `A`-`Z` for year mod 10, month, day, then `c`, then the symbols for
`s mod 36`, `(s / 36) mod 36`, `(s / 1296) mod 36`, then the symbol for the day index, then
`.IGC`; for 2007-06-05, `FLY`, 123 and day index 2 it is `765FF302.IGC`.  The number of
descriptors received is not compared with `trackc`.  The response of two descriptors that
both report the count 1 is accepted, and its second descriptor, dated 2007-06-08 and with
day index 0, has no file name: `igc_filename` stays NULL, where the format gives
`768FF300.IGC`. -/
theorem flytec_pbrtl_short_filename_beyond_count :
    (∀ (mktime : tm → Int) (f g : flytec_t) (manufacturer : Option (List Nat))
      (m : List Nat) (trackv : List (Option track_t)) (i : Nat) (t : track_t)
      (year month day s k c : Nat) (rest : List Nat),
      f.trackv = none →
      flytec_pbrtl mktime f manufacturer .igc_filename_format_short =
        some (.ok (trackv, g)) →
      (manufacturer <|> f.manufacturer) = some m →
      i < g.trackc.toNat → trackv.getD i none = some t →
      2000 ≤ year → 1 ≤ month ∧ month ≤ 12 → 1 ≤ day ∧ day ≤ 31 →
      m = c :: rest → c ≠ 0 → k ≤ 35 →
      t.date = calendar_date year month day → t.day_index = k → g.serial_number = s →
      t.igc_filename =
        some [base36_symbol (year % 10), base36_symbol month, base36_symbol day, c,
          base36_symbol (s % 36), base36_symbol (s / 36 % 36),
          base36_symbol (s / 1296 % 36), base36_symbol k, 46, 73, 71, 67] ∧
      (t.igc_filename.getD []).length = 12) ∧
    [base36_symbol (2007 % 10), base36_symbol 6, base36_symbol 5, 70,
        base36_symbol (123 % 36), base36_symbol (123 / 36 % 36),
        base36_symbol (123 / 1296 % 36), base36_symbol 2, 46, 73, 71, 67]
      = bytes "765FF302.IGC" ∧
    (descriptors_listed mktime_zero example_session_extra).length = 2 ∧
    flytec_pbrtl mktime_zero example_session_extra (some (bytes "FLY"))
        .igc_filename_format_short =
      some (.ok (example_listing_extra_short,
        { example_session_listed example_listing_extra_short with trackc := 1 })) ∧
    example_listing_extra_short.getD 1 none =
      some ⟨1, 1, calendar_date 2007 6 8, 0, 0, 7200, none⟩ ∧
    igc_filename .igc_filename_format_short (some (bytes "FLY")) 123
        ⟨1, 1, calendar_date 2007 6 8, 0, 0, 7200, none⟩ =
      .ok (bytes "768FF300.IGC") := by
  refine ⟨?_, ?_, ?_, ?_, ?_, ?_⟩
  · intro mktime f g manufacturer m trackv i t year month day s k c rest hfresh h hman hi
      ht hy hmon hd hm hc hk hdate hday hser
    have key := flytec_pbrtl_short_filename mktime f g manufacturer m trackv hfresh h hman
      i t hi ht year month day s k c rest hy hmon hd hm hc hk hdate hday hser
    exact ⟨key.1, key.2.1⟩
  all_goals decide

/-! ## Theorems: reading depends on the transport only -/

theorem with_transport_same (f f2 : flytec_t) (hu : f.unread = f2.unread)
    (hd : f.device = f2.device) : with_transport f2 f = f2 := by
  cases f2
  simp only [with_transport] at *
  rw [hu, hd]

theorem flytec_read_transport (f f2 : flytec_t)
    (hd : f.device = f2.device) :
    flytec_read f2 = (flytec_read f).map (with_transport f2) := by
  unfold flytec_read
  rw [← hd]
  cases f.device with
  | nil => rfl
  | cons block rest =>
    dsimp only
    by_cases hb : block.length = 0
    · rw [if_pos hb, if_pos hb]; rfl
    · rw [if_neg hb, if_neg hb]; rfl

theorem flytec_gets_loop_transport (len : Nat) :
    ∀ (f f2 : flytec_t) (stored : List Nat), f.unread = f2.unread → f.device = f2.device →
      flytec_gets_loop len f2 stored =
        (flytec_gets_loop len f stored).map (fun r => (r.1, with_transport f2 r.2)) := by
  induction len using Nat.strong_induction_on with
  | _ len ih =>
    intro f f2 stored hu hd
    match len, ih with
    | 0, _ => rfl
    | 1, _ => rfl
    | len + 2, ih =>
      rw [flytec_gets_loop, flytec_gets_loop, ← hu]
      cases hun : f.unread with
      | nil => rfl
      | cons c unread =>
        dsimp only
        by_cases hc : c = 10
        · rw [if_pos hc, if_pos hc]
          simp only [Except.map, with_transport]
          rw [hd]
        · rw [if_neg hc, if_neg hc]
          by_cases hnil : unread = []
          · rw [if_pos hnil, if_pos hnil]
            rw [flytec_read_transport { f with unread := unread } { f2 with unread := unread }
              hd]
            cases hr : flytec_read { f with unread := unread } with
            | error e => rfl
            | ok g =>
              simp only [Except.map]
              rw [ih (len + 1) (by omega) g (with_transport { f2 with unread := unread } g) _
                rfl rfl]
              rfl
          · rw [if_neg hnil, if_neg hnil]
            dsimp only
            rw [ih (len + 1) (by omega) { f with unread := unread }
              { f2 with unread := unread } _ rfl hd]
            rfl

theorem flytec_gets_transport (f f2 : flytec_t) (size : Nat) (hu : f.unread = f2.unread)
    (hd : f.device = f2.device) :
    flytec_gets f2 size =
      (flytec_gets f size).map (fun r => (r.1, with_transport f2 r.2)) := by
  unfold flytec_gets
  have hfirst : (if f2.unread = [] then flytec_read f2 else .ok f2) =
      (if f.unread = [] then flytec_read f else .ok f).map (with_transport f2) := by
    rw [← hu]
    by_cases hnil : f.unread = []
    · rw [if_pos hnil, if_pos hnil, flytec_read_transport f f2 hd]
    · rw [if_neg hnil, if_neg hnil]
      simp only [Except.map]
      rw [with_transport_same f f2 hu hd]
  rw [hfirst]
  cases hr : (if f.unread = [] then flytec_read f else Except.ok f) with
  | error e => rfl
  | ok g =>
    simp only [Except.map]
    have e1 : (with_transport f2 g).unread = g.unread := rfl
    rw [e1]
    by_cases hx : byte_at g.unread 0 = XON
    · rw [if_pos hx, if_pos hx]
    · rw [if_neg hx, if_neg hx]
      rw [flytec_gets_loop_transport size g (with_transport f2 g) [] rfl rfl]
      cases flytec_gets_loop size g [] with
      | error e => rfl
      | ok r => rfl

theorem flytec_gets_nmea_transport (f f2 : flytec_t) (size : Nat)
    (hu : f.unread = f2.unread) (hd : f.device = f2.device) :
    flytec_gets_nmea f2 size =
      (flytec_gets_nmea f size).map (fun r => (r.1, with_transport f2 r.2)) := by
  unfold flytec_gets_nmea
  rw [flytec_gets_transport f f2 size hu hd]
  cases flytec_gets f size with
  | error e => rfl
  | ok r =>
    obtain ⟨line, g⟩ := r
    cases line with
    | none => rfl
    | some buf =>
      simp only [Except.map]
      cases flytec_gets_nmea_check buf with
      | error e => rfl
      | ok payload => rfl

/-! ## Theorems: the descriptors received and the receiving loop -/

theorem descriptors_received_succ (mktime : tm → Int) (fuel : Nat) (f : flytec_t) :
    descriptors_received mktime (fuel + 1) f =
      match flytec_gets_nmea f 128 with
      | .ok (some line, f1) =>
        match track_new mktime line with
        | .ok (some track) => track :: descriptors_received mktime fuel f1
        | _ => []
      | _ => [] := rfl

/-- The receiving loop and the descriptors received.  When the loop ends normally, the
final value of `index` is its initial value plus the number of descriptors received, the
descriptor received at place `j` carries the index `index + j`, and all descriptors carry
the count `trackc` (the count of the first one while `trackv` is NULL at the start). -/
theorem flytec_pbrtl_loop_received (mktime : tm → Int) (fuel : Nat) :
    ∀ (f f0 g : flytec_t) (index n : Int),
      f0.unread = f.unread → f0.device = f.device →
      flytec_pbrtl_loop mktime fuel f index = some (.ok (g, n)) →
      n = index + (descriptors_received mktime fuel f0).length ∧
      (∀ (j : Nat) (d : track_t),
        (descriptors_received mktime fuel f0)[j]? = some d → d.index = index + j) ∧
      (∀ d, d ∈ descriptors_received mktime fuel f0 → d.count = g.trackc) ∧
      (f.trackv ≠ none → g.trackc = f.trackc) := by
  induction fuel with
  | zero =>
    intro f f0 g index n _ _ h
    rw [flytec_pbrtl_loop_zero] at h
    cases h
  | succ fuel ih =>
    intro f f0 g index n hu hd h
    rw [flytec_pbrtl_loop_succ, flytec_gets_nmea_transport f0 f 128 hu hd] at h
    rw [descriptors_received_succ]
    cases hg : flytec_gets_nmea f0 128 with
    | error e => rw [hg] at h; cases h
    | ok r =>
      obtain ⟨line, g0⟩ := r
      rw [hg] at h
      simp only [Except.map] at h
      cases line with
      | none =>
        dsimp only at h ⊢
        cases h
        refine ⟨by simp, fun j d hj => by simp at hj, fun d hd2 => by simp at hd2,
          fun _ => ?_⟩
        rfl
      | some line =>
        dsimp only at h ⊢
        cases ht : track_new mktime line with
        | error e => rw [ht] at h; cases h
        | ok r2 =>
          rw [ht] at h
          cases r2 with
          | none => cases h
          | some track =>
            dsimp only at h ⊢
            cases hst : flytec_pbrtl_store (with_transport f g0) track index with
            | error e => rw [hst] at h; cases h
            | ok f2 =>
              rw [hst] at h
              dsimp only at h
              have hf2 : f2.unread = g0.unread ∧ f2.device = g0.device ∧
                  f2.trackv ≠ none ∧ f2.trackc = track.count ∧ track.index = index ∧
                  (f.trackv ≠ none → track.count = f.trackc) := by
                cases hv : f.trackv with
                | none =>
                  obtain ⟨e1, _, _, e4⟩ :=
                    flytec_pbrtl_store_none (with_transport f g0) f2 track index hv hst
                  rw [e4]
                  exact ⟨rfl, rfl, by simp, rfl, e1, fun hne => absurd rfl hne⟩
                | some arr =>
                  obtain ⟨e1, e2, _, _, e5⟩ :=
                    flytec_pbrtl_store_some (with_transport f g0) f2 track index arr hv hst
                  rw [e5]
                  exact ⟨rfl, rfl, by simp, e2.symm, e1, fun _ => e2⟩
              obtain ⟨a1, a2, a3, a4, a5, a6⟩ := hf2
              obtain ⟨b1, b2, b3, b4⟩ := ih f2 g0 g (index + 1) n a1.symm a2.symm h
              have hgc : g.trackc = track.count := (b4 a3).trans a4
              refine ⟨?_, ?_, ?_, ?_⟩
              · rw [b1, List.length_cons]
                push_cast
                ring
              · intro j d hj
                cases j with
                | zero =>
                  simp only [List.getElem?_cons_zero, Option.some.injEq] at hj
                  rw [← hj, a5]
                  simp
                | succ j =>
                  simp only [List.getElem?_cons_succ] at hj
                  rw [b2 j d hj]
                  push_cast
                  ring
              · intro d hd2
                rcases List.mem_cons.mp hd2 with hd3 | hd3
                · rw [hd3, hgc]
                · exact b3 d hd3
              · intro hne
                rw [hgc]
                exact a6 hne

/-! ## Theorems: indices and counts of the descriptors received -/

theorem flytec_pbrtl_body_loop (mktime : tm → Int) (f g : flytec_t)
    (manufacturer : Option (List Nat)) (filename_format : igc_filename_format_t)
    (trackv : List (Option track_t))
    (h : flytec_pbrtl_body mktime f manufacturer filename_format = some (.ok (trackv, g))) :
    ∃ g1 n, flytec_pbrtl_loop mktime (pending f + 1) f 0 = some (.ok (g1, n)) := by
  unfold flytec_pbrtl_body at h
  cases hl : flytec_pbrtl_loop mktime (pending f + 1) f 0 with
  | none => rw [hl] at h; cases h
  | some r =>
    rw [hl] at h
    cases r with
    | error e => cases h
    | ok r =>
      obtain ⟨g1, n⟩ := r
      exact ⟨g1, n, rfl⟩

theorem flytec_pbrtl_store_first (f : flytec_t) (track : track_t) (index : Int)
    (hv : f.trackv = none) (hidx : track.index = index) (h0 : 0 ≤ index)
    (hlt : index.toNat < (track.count + 1).toNat)
    (hsz : (track.count + 1) * sizeof_pointer ≤ INT_MAX) :
    flytec_pbrtl_store f track index =
      .ok { f with
        trackc := track.count
        trackv := some ((List.replicate (track.count + 1).toNat none).set
          track.index.toNat (some track)) } := by
  unfold flytec_pbrtl_store
  rw [if_neg (not_not.mpr hidx), hv]
  dsimp only
  rw [if_neg (not_lt.mpr hsz), if_pos ⟨by rw [hidx]; exact hlt, by rw [hidx]; exact h0⟩]

theorem flytec_pbrtl_store_next (f : flytec_t) (track : track_t) (index : Int)
    (arr : List (Option track_t)) (hv : f.trackv = some arr) (hidx : track.index = index)
    (hc : track.count = f.trackc) (h0 : 0 ≤ index) (hlt : index.toNat < arr.length) :
    flytec_pbrtl_store f track index =
      .ok { f with trackv := some (arr.set track.index.toNat (some track)) } := by
  unfold flytec_pbrtl_store
  rw [if_neg (not_not.mpr hidx), hv]
  dsimp only
  rw [if_neg (not_not.mpr hc), if_pos ⟨by rw [hidx]; exact hlt, by rw [hidx]; exact h0⟩]

/-- The receiving loop rejects the first descriptor that does not fit.  When the descriptors
received before place `k` carry the indices `index`, `index + 1`, ... and the count `c`,
and fit the array of `c + 1` slots, and the descriptor at place `k` carries another index
or (after the first descriptor) another count, the loop stops with "inconsistent data". -/
theorem flytec_pbrtl_loop_rejects (mktime : tm → Int) (c : Int) (fuel : Nat) :
    ∀ (f f0 : flytec_t) (index k : Nat) (d : track_t),
      f0.unread = f.unread → f0.device = f.device →
      ((index = 0 ∧ f.trackv = none) ∨
        (0 < index ∧ ∃ arr, f.trackv = some arr ∧ arr.length = (c + 1).toNat ∧
          f.trackc = c)) →
      (∀ j, j < k → ∃ dj, (descriptors_received mktime fuel f0)[j]? = some dj ∧
        dj.index = ((index + j : Nat) : Int) ∧ dj.count = c) →
      (descriptors_received mktime fuel f0)[k]? = some d →
      (d.index ≠ ((index + k : Nat) : Int) ∨ (index + k ≠ 0 ∧ d.count ≠ c)) →
      (k ≠ 0 → ((index + k : Nat) : Int) ≤ c + 1 ∧ (c + 1) * sizeof_pointer ≤ INT_MAX) →
      flytec_pbrtl_loop mktime fuel f index = some (.error .inconsistent_data) := by
  induction fuel with
  | zero =>
    intro f f0 index k d _ _ _ _ hk
    have hnil : descriptors_received mktime 0 f0 = [] := rfl
    rw [hnil] at hk
    simp at hk
  | succ fuel ih =>
    intro f f0 index k d hu hd hinv hpre hk hmis hfit
    rw [descriptors_received_succ] at hpre hk
    cases hg : flytec_gets_nmea f0 128 with
    | error e =>
      rw [hg] at hk
      simp at hk
    | ok r =>
      obtain ⟨line, g0⟩ := r
      rw [hg] at hk hpre
      cases line with
      | none => simp at hk
      | some line =>
        dsimp only at hk hpre
        cases ht : track_new mktime line with
        | error e =>
          rw [ht] at hk
          simp at hk
        | ok r2 =>
          rw [ht] at hk hpre
          cases r2 with
          | none => simp at hk
          | some track =>
            dsimp only at hk hpre
            have hgf : flytec_gets_nmea f 128 = .ok (some line, with_transport f g0) := by
              rw [flytec_gets_nmea_transport f0 f 128 hu hd, hg]
              rfl
            cases k with
            | zero =>
              simp only [List.getElem?_cons_zero, Option.some.injEq] at hk
              subst hk
              apply flytec_pbrtl_loop_mismatch mktime fuel f (with_transport f g0) index
                line track hgf ht
              rcases hmis with hmis | ⟨hne, hcount⟩
              · exact Or.inl (by simpa using hmis)
              · rcases hinv with ⟨h0, _⟩ | ⟨_, arr, harr, _, hc⟩
                · omega
                · refine Or.inr ⟨?_, ?_⟩
                  · show f.trackv ≠ none
                    rw [harr]
                    simp
                  · show track.count ≠ f.trackc
                    rw [hc]
                    exact hcount
            | succ k =>
              obtain ⟨hfit1, hfit2⟩ := hfit (by omega)
              obtain ⟨d0, hd0, hidx, hcount⟩ := hpre 0 (by omega)
              simp only [List.getElem?_cons_zero, Option.some.injEq] at hd0
              subst hd0
              have hidx2 : track.index = (index : Int) := by simpa using hidx
              have hi0 : (0 : Int) ≤ (index : Int) := Int.ofNat_nonneg index
              have hilt : (index : Int).toNat < (c + 1).toNat := by
                push_cast at hfit1
                omega
              have hstep : ∀ f2, flytec_pbrtl_store (with_transport f g0) track index = .ok f2 →
                  f2.unread = g0.unread → f2.device = g0.device →
                  (∃ arr, f2.trackv = some arr ∧ arr.length = (c + 1).toNat ∧ f2.trackc = c) →
                  flytec_pbrtl_loop mktime (fuel + 1) f index =
                    some (.error .inconsistent_data) := by
                intro f2 hst hu2 hd2 hinv2
                rw [flytec_pbrtl_loop_succ, hgf]
                dsimp only
                rw [ht]
                dsimp only
                rw [hst]
                dsimp only
                have hcast : ((index : Int) + 1) = ((index + 1 : Nat) : Int) := by
                  push_cast
                  rfl
                rw [hcast]
                apply ih f2 g0 (index + 1) k d hu2.symm hd2.symm
                  (Or.inr ⟨by omega, hinv2⟩)
                · intro j hj
                  obtain ⟨dj, hdj, hji, hjc⟩ := hpre (j + 1) (by omega)
                  simp only [List.getElem?_cons_succ] at hdj
                  refine ⟨dj, hdj, ?_, hjc⟩
                  rw [hji]
                  push_cast
                  ring
                · simpa only [List.getElem?_cons_succ] using hk
                · rcases hmis with hmis | ⟨_, hmis⟩
                  · left
                    intro heq
                    apply hmis
                    rw [heq]
                    push_cast
                    ring
                  · exact Or.inr ⟨by omega, hmis⟩
                · intro _
                  refine ⟨?_, hfit2⟩
                  have e : ((index + 1 + k : Nat) : Int) = ((index + (k + 1) : Nat) : Int) := by
                    push_cast
                    ring
                  rw [e]
                  exact hfit1
              rcases hinv with ⟨h0, hv⟩ | ⟨_, arr, harr, hlen, hc⟩
              · have hst := flytec_pbrtl_store_first (with_transport f g0) track index hv
                  hidx2 hi0 (by rw [hcount]; exact hilt) (by rw [hcount]; exact hfit2)
                exact hstep _ hst rfl rfl
                  ⟨_, rfl, by rw [List.length_set, List.length_replicate, hcount], hcount⟩
              · have hst := flytec_pbrtl_store_next (with_transport f g0) track index arr harr
                  hidx2 (hcount.trans hc.symm) hi0 (by rw [hlen]; exact hilt)
                exact hstep _ hst rfl rfl ⟨_, rfl, by rw [List.length_set, hlen], hc⟩

/-- The function `flytec_pbrtl` rejects a response at the first descriptor that does not
fit. -/
theorem flytec_pbrtl_rejects (mktime : tm → Int) (f : flytec_t)
    (manufacturer : Option (List Nat)) (filename_format : igc_filename_format_t)
    (k : Nat) (d first : track_t) (hfresh : f.trackv = none)
    (hfirst : (descriptors_listed mktime f)[0]? = some first)
    (hpre : ∀ j, j < k → ∃ dj, (descriptors_listed mktime f)[j]? = some dj ∧
      dj.index = (j : Int) ∧ dj.count = first.count)
    (hk : (descriptors_listed mktime f)[k]? = some d)
    (hmis : d.index ≠ (k : Int) ∨ d.count ≠ first.count)
    (hfit : k ≠ 0 → (k : Int) ≤ first.count + 1 ∧
      (first.count + 1) * sizeof_pointer ≤ INT_MAX) :
    flytec_pbrtl mktime f manufacturer filename_format =
      some (.error .inconsistent_data) := by
  unfold descriptors_listed at hfirst hpre hk
  cases hr : flytec_pbrtl_request f with
  | error e =>
    rw [hr] at hk
    simp at hk
  | ok started =>
    rw [hr] at hfirst hpre hk
    dsimp only at hfirst hpre hk
    have hs : started.trackv = none := (flytec_pbrtl_request_session _ _ hr).1.trans hfresh
    have hloop := flytec_pbrtl_loop_rejects mktime first.count (pending started + 1)
      started started 0 k d rfl rfl (Or.inl ⟨rfl, hs⟩)
      (fun j hj => by
        obtain ⟨dj, h1, h2, h3⟩ := hpre j hj
        exact ⟨dj, h1, by rw [h2]; simp, h3⟩)
      hk
      (by
        rcases hmis with hmis | hmis
        · exact Or.inl (by simpa using hmis)
        · refine Or.inr ⟨?_, hmis⟩
          intro hk0
          have hk1 : k = 0 := by omega
          subst hk1
          rw [hfirst] at hk
          cases hk
          exact hmis rfl)
      (fun hne => by simpa using hfit hne)
    unfold flytec_pbrtl
    rw [hfresh]
    dsimp only
    rw [hr]
    dsimp only
    unfold flytec_pbrtl_body
    have hcast : ((0 : Nat) : Int) = 0 := rfl
    rw [hcast] at hloop
    rw [hloop]

/-- Claim C4: on a session without a cached listing, `flytec_pbrtl` returns only if, for
every `k`, the `k`-th descriptor received (counting from 0) carries index `k` and the total
count of the first descriptor received.  A response whose first descriptor that does not
fit is at place `k` (its index is not `k`, or its count is not the count of the first one)
fails with the fatal error "inconsistent data", as long as the descriptors before it fit
the array of `count + 1` slots that the first descriptor allocates.  In the receiving loop,
every iteration that receives a descriptor whose index differs from the loop counter, or
whose count differs from `trackc` once `trackv` is allocated, ends with this error. -/
theorem flytec_pbrtl_index_count_consistent (mktime : tm → Int) (f : flytec_t)
    (manufacturer : Option (List Nat)) (filename_format : igc_filename_format_t)
    (hfresh : f.trackv = none) :
    (∀ (trackv : List (Option track_t)) (g : flytec_t),
      flytec_pbrtl mktime f manufacturer filename_format = some (.ok (trackv, g)) →
      ∀ (k : Nat) (d first : track_t),
        (descriptors_listed mktime f)[k]? = some d →
        (descriptors_listed mktime f)[0]? = some first →
        d.index = k ∧ d.count = first.count) ∧
    (∀ (k : Nat) (d first : track_t),
      (descriptors_listed mktime f)[0]? = some first →
      (∀ j, j < k → ∃ dj, (descriptors_listed mktime f)[j]? = some dj ∧
        dj.index = (j : Int) ∧ dj.count = first.count) →
      (descriptors_listed mktime f)[k]? = some d →
      (d.index ≠ (k : Int) ∨ d.count ≠ first.count) →
      (k ≠ 0 → (k : Int) ≤ first.count + 1 ∧
        (first.count + 1) * sizeof_pointer ≤ INT_MAX) →
      flytec_pbrtl mktime f manufacturer filename_format =
        some (.error .inconsistent_data)) ∧
    (∀ (fuel : Nat) (s s1 : flytec_t) (index : Int) (line : List Nat) (track : track_t),
      flytec_gets_nmea s 128 = .ok (some line, s1) →
      track_new mktime line = .ok (some track) →
      (track.index ≠ index ∨ (s1.trackv ≠ none ∧ track.count ≠ s1.trackc)) →
      flytec_pbrtl_loop mktime (fuel + 1) s index = some (.error .inconsistent_data)) := by
  refine ⟨fun trackv g h k d first hk h0 => ?_,
    fun k d first hfirst hpre hk hmis hfit =>
      flytec_pbrtl_rejects mktime f manufacturer filename_format k d first hfresh hfirst
        hpre hk hmis hfit,
    fun fuel s s1 index line track hg ht hbad =>
      flytec_pbrtl_loop_mismatch mktime fuel s s1 index line track hg ht hbad⟩
  obtain ⟨started, hr, _, hb⟩ :=
    flytec_pbrtl_fresh mktime f g manufacturer filename_format trackv hfresh h
  have hl : descriptors_listed mktime f =
      descriptors_received mktime (pending started + 1) started := by
    unfold descriptors_listed
    rw [hr]
  rw [hl] at hk h0
  obtain ⟨g1, n, hloop⟩ := flytec_pbrtl_body_loop mktime started g _ filename_format
    trackv hb
  obtain ⟨_, h2, h3, _⟩ :=
    flytec_pbrtl_loop_received mktime (pending started + 1) started started g1 0 n rfl rfl
      hloop
  have hd := h3 d (List.mem_iff_getElem?.mpr ⟨k, hk⟩)
  have hf := h3 first (List.mem_iff_getElem?.mpr ⟨0, h0⟩)
  exact ⟨by rw [h2 k d hk]; simp, hd.trans hf.symm⟩

theorem flytec_pbrtl_index_count_consistent_witness :
    (∀ (k : Nat) (d first : track_t),
      (descriptors_listed mktime_zero example_session)[k]? = some d →
      (descriptors_listed mktime_zero example_session)[0]? = some first →
      d.index = k ∧ d.count = first.count) ∧
    flytec_pbrtl mktime_zero
      (example_session_with ["PBRTL,3,0,05.06.07,10:00:00,01:00:00",
        "PBRTL,3,2,06.06.07,12:00:00,02:00:00"])
      (some (bytes "FLY")) .igc_filename_format_long =
      some (.error .inconsistent_data) ∧
    flytec_pbrtl mktime_zero
      (example_session_with ["PBRTL,3,0,05.06.07,10:00:00,01:00:00",
        "PBRTL,2,1,06.06.07,12:00:00,02:00:00"])
      (some (bytes "FLY")) .igc_filename_format_long =
      some (.error .inconsistent_data) :=
  ⟨(flytec_pbrtl_index_count_consistent mktime_zero example_session
      (some (bytes "FLY")) .igc_filename_format_long rfl).1
      example_listing_long (example_session_listed example_listing_long) (by decide),
   (flytec_pbrtl_index_count_consistent mktime_zero
      (example_session_with ["PBRTL,3,0,05.06.07,10:00:00,01:00:00",
        "PBRTL,3,2,06.06.07,12:00:00,02:00:00"])
      (some (bytes "FLY")) .igc_filename_format_long rfl).2.1
      1 ⟨3, 2, 54950, 0, 0, 7200, none⟩ ⟨3, 0, 54949, 0, 0, 3600, none⟩
      (by decide)
      (fun j hj => ⟨⟨3, 0, 54949, 0, 0, 3600, none⟩,
        by
          have hj0 : j = 0 := by omega
          subst hj0
          decide,
        by
          have hj0 : j = 0 := by omega
          subst hj0
          rfl,
        rfl⟩)
      (by decide) (Or.inl (by decide)) (fun _ => by decide),
   (flytec_pbrtl_index_count_consistent mktime_zero
      (example_session_with ["PBRTL,3,0,05.06.07,10:00:00,01:00:00",
        "PBRTL,2,1,06.06.07,12:00:00,02:00:00"])
      (some (bytes "FLY")) .igc_filename_format_long rfl).2.1
      1 ⟨2, 1, 54950, 0, 0, 7200, none⟩ ⟨3, 0, 54949, 0, 0, 3600, none⟩
      (by decide)
      (fun j hj => ⟨⟨3, 0, 54949, 0, 0, 3600, none⟩,
        by
          have hj0 : j = 0 := by omega
          subst hj0
          decide,
        by
          have hj0 : j = 0 := by omega
          subst hj0
          rfl,
        rfl⟩)
      (by decide) (Or.inr (by decide)) (fun _ => by decide)⟩

/-! ## Theorems: the number of descriptors and the reported count -/

/-- Claim C5, the code at three responses.  A single descriptor that reports count 0 is
accepted and yields the empty listing; two descriptors that report count 1 are accepted
too, the second one without day index and file name.  In both the number of descriptors
received differs from `trackc`.  Two descriptors that report count 3 are not rejected with
a protocol error either: the scan of the day indexes dereferences the NULL slot
`trackv[2]`. -/
theorem flytec_pbrtl_accepts_count_mismatch :
    ((descriptors_listed mktime_zero
        (example_session_with ["PBRTL,0,0,05.06.07,10:00:00,01:00:00"])).length = 1 ∧
      flytec_pbrtl mktime_zero
        (example_session_with ["PBRTL,0,0,05.06.07,10:00:00,01:00:00"])
        (some (bytes "FLY")) .igc_filename_format_long =
      some (.ok ([none], { example_session_listed [none] with trackc := 0 }))) ∧
    ((descriptors_listed mktime_zero
        (example_session_with ["PBRTL,1,0,05.06.07,10:00:00,01:00:00",
          "PBRTL,1,1,06.06.07,12:00:00,02:00:00"])).length = 2 ∧
      flytec_pbrtl mktime_zero
        (example_session_with ["PBRTL,1,0,05.06.07,10:00:00,01:00:00",
          "PBRTL,1,1,06.06.07,12:00:00,02:00:00"])
        (some (bytes "FLY")) .igc_filename_format_long =
      some (.ok ([some ⟨1, 0, 54949, 1, 0, 3600, some (bytes "2007-06-05-FLY-123-01.IGC")⟩,
          some ⟨1, 1, 54950, 0, 0, 7200, none⟩],
        { example_session_listed
            [some ⟨1, 0, 54949, 1, 0, 3600, some (bytes "2007-06-05-FLY-123-01.IGC")⟩,
             some ⟨1, 1, 54950, 0, 0, 7200, none⟩] with
          trackc := 1 }))) ∧
    ((descriptors_listed mktime_zero
        (example_session_with ["PBRTL,3,0,05.06.07,10:00:00,01:00:00",
          "PBRTL,3,1,06.06.07,12:00:00,02:00:00"])).length = 2 ∧
      flytec_pbrtl mktime_zero
        (example_session_with ["PBRTL,3,0,05.06.07,10:00:00,01:00:00",
          "PBRTL,3,1,06.06.07,12:00:00,02:00:00"])
        (some (bytes "FLY")) .igc_filename_format_long =
      some (.error .undefined_behaviour)) := by
  refine ⟨⟨?_, ?_⟩, ⟨?_, ?_⟩, ⟨?_, ?_⟩⟩ <;> decide

/-! ## Theorems: numerals and `match_unsigned` -/

theorem foldl_value_ge (ds : List Nat) (hd : ∀ c ∈ ds, 48 ≤ c ∧ c ≤ 57) :
    ∀ r : Int, 0 ≤ r → r ≤ ds.foldl (fun (v : Int) (c : Nat) => 10 * v + ((c : Int) - 48)) r := by
  induction ds with
  | nil => intro r _; exact le_refl r
  | cons c ds ih =>
    intro r hr
    have hc := hd c (List.mem_cons_self c ds)
    rw [List.foldl_cons]
    have h1 : (0 : Int) ≤ 10 * r + ((c : Int) - 48) := by omega
    have h2 := ih (fun x hx => hd x (List.mem_cons_of_mem c hx)) _ h1
    omega

theorem numeral_value_cons (c : Nat) (ds : List Nat) :
    numeral_value (c :: ds) = ds.foldl (fun (v : Int) (c : Nat) => 10 * v + ((c : Int) - 48)) ((c : Int) - 48) := by
  unfold numeral_value
  rw [List.foldl_cons]
  simp

theorem isdigit_iff (c : Nat) : isdigit c = true ↔ 48 ≤ c ∧ c ≤ 57 := by
  unfold isdigit
  simp

/-- The loop of `match_unsigned` on a run of digits that stays within the range of `int`. -/
theorem match_unsigned_loop_digits (q : List Nat) (hq : isdigit (deref q) = false)
    (ds : List Nat) (hd : ∀ c ∈ ds, 48 ≤ c ∧ c ≤ 57) :
    ∀ r : Int, 0 ≤ r →
      ds.foldl (fun (v : Int) (c : Nat) => 10 * v + ((c : Int) - 48)) r ≤ INT_MAX - 48 →
      match_unsigned_loop (ds ++ q) r =
        (.ptr q, ds.foldl (fun (v : Int) (c : Nat) => 10 * v + ((c : Int) - 48)) r) := by
  induction ds with
  | nil =>
    intro r _ _
    cases q with
    | nil => rfl
    | cons c q =>
      have hc : isdigit c = false := hq
      simp only [List.nil_append, match_unsigned_loop, hc, List.foldl_nil]
      rfl
  | cons c ds ih =>
    intro r hr hfit
    have hc := hd c (List.mem_cons_self c ds)
    have hds : ∀ x ∈ ds, 48 ≤ x ∧ x ≤ 57 := fun x hx => hd x (List.mem_cons_of_mem c hx)
    rw [List.foldl_cons] at hfit ⊢
    have h1 : (0 : Int) ≤ 10 * r + ((c : Int) - 48) := by omega
    have h2 := foldl_value_ge ds hds _ h1
    have hdig : isdigit c = true := (isdigit_iff c).mpr hc
    have hno : ¬ (10 * r + (c : Int) > INT_MAX) := by
      unfold INT_MAX at hfit ⊢
      omega
    have e : 10 * r + (c : Int) - 48 = 10 * r + ((c : Int) - 48) := by ring
    simp only [List.cons_append, match_unsigned_loop, hdig, if_true, if_neg hno]
    rw [e]
    exact ih hds _ h1 hfit

/-- The function `match_unsigned` reads a numeral that fits. -/
theorem match_unsigned_digits (ds q : List Nat) (r : Int) (hn : is_numeral ds)
    (hfit : numeral_fits ds) (hq : isdigit (deref q) = false) :
    match_unsigned (.ptr (ds ++ q)) r = (.ptr q, numeral_value ds) := by
  obtain ⟨hne, hd⟩ := hn
  cases ds with
  | nil => exact absurd rfl hne
  | cons c ds =>
    have hc := hd c (List.mem_cons_self c ds)
    have hds : ∀ x ∈ ds, 48 ≤ x ∧ x ≤ 57 := fun x hx => hd x (List.mem_cons_of_mem c hx)
    have hdig : isdigit c = true := (isdigit_iff c).mpr hc
    unfold numeral_fits at hfit
    rw [numeral_value_cons] at hfit ⊢
    unfold match_unsigned
    simp only [List.cons_append, deref, List.headD_cons, hdig, List.tail_cons]
    exact match_unsigned_loop_digits q hq ds hds _ (by omega) hfit

/-! ## Theorems: lists of ranges -/

theorem numeral_value_nonneg (ds : List Nat) (hn : is_numeral ds) : 0 ≤ numeral_value ds :=
  foldl_value_ge ds hn.2 0 (le_refl 0)

theorem numeral_deref (ds q : List Nat) (hn : is_numeral ds) :
    48 ≤ deref (ds ++ q) ∧ deref (ds ++ q) ≤ 57 := by
  obtain ⟨hne, hd⟩ := hn
  cases ds with
  | nil => exact absurd rfl hne
  | cons c ds => exact hd c (List.mem_cons_self c ds)

theorem dropWhile_commas (k : Nat) (p : List Nat) (hp : deref p ≠ 44) :
    (List.replicate k 44 ++ p).dropWhile (fun c => c = 44) = p := by
  induction k with
  | zero =>
    cases p with
    | nil => rfl
    | cons c p =>
      have hc : c ≠ 44 := hp
      simp [List.dropWhile, hc]
  | succ k ih =>
    rw [List.replicate_succ, List.cons_append, List.dropWhile_cons]
    simpa using ih

theorem isdigit_of_separator (q : List Nat) (hq : deref q = 0 ∨ deref q = 44) :
    isdigit (deref q) = false := by
  rcases hq with h | h <;> rw [h] <;> rfl

/-- One iteration of `set_merge` on an item that is followed by a comma or by the end of
the text. -/
theorem set_merge_item_text (k : Nat) (item : range_item) (q : List Nat)
    (hwf : item_wf item) (hfit : item_fits item) (hq : deref q = 0 ∨ deref q = 44) :
    set_merge_item (List.replicate k 44 ++ item_text item ++ q) = .ok (item_node item, q) := by
  have hqd := isdigit_of_separator q hq
  have hfin : ∀ first last : Int,
      (if deref q = 0 then (.ok (⟨first, last⟩, q) : Except Fatal (set_t × List Nat))
        else if deref q ≠ 44 then .error .invalid_list else .ok (⟨first, last⟩, q)) =
      .ok (⟨first, last⟩, q) := by
    intro first last
    rcases hq with h | h
    · rw [if_pos h]
    · rw [if_neg (by rw [h]; decide), if_neg (not_not.mpr h)]
  have hq45 : deref q ≠ 45 := by
    rcases hq with h | h <;> rw [h] <;> decide
  unfold set_merge_item
  cases item with
  | exactly n =>
    have hn : is_numeral n := hwf n (by simp [item_numerals])
    have hf : numeral_fits n := hfit n (by simp [item_numerals])
    have hd := numeral_deref n q hn
    have h44 : deref (n ++ q) ≠ 44 := by omega
    have h45 : deref (n ++ q) ≠ 45 := by omega
    simp only [item_text, List.append_assoc]
    rw [dropWhile_commas k _ h44]
    simp only [h45, ne_eq, not_false_eq_true, if_true, match_unsigned_digits n q (-1) hn hf hqd,
      hq45, if_false, hfin, item_node]
  | between n m =>
    have hn : is_numeral n := hwf n (by simp [item_numerals])
    have hf : numeral_fits n := hfit n (by simp [item_numerals])
    have hm : is_numeral m := hwf m (by simp [item_numerals])
    have hfm : numeral_fits m := hfit m (by simp [item_numerals])
    have hd := numeral_deref n (45 :: (m ++ q)) hn
    have hdm := numeral_deref m q hm
    have h44 : deref (n ++ 45 :: (m ++ q)) ≠ 44 := by omega
    have h45 : deref (n ++ 45 :: (m ++ q)) ≠ 45 := by omega
    have hm0 : ¬ (deref (m ++ q) = 0 ∨ deref (m ++ q) = 44) := by omega
    have hdash : isdigit (deref (45 :: (m ++ q))) = false := rfl
    have hd45 : deref (45 :: (m ++ q)) = 45 := rfl
    have htl : (45 :: (m ++ q)).tail = m ++ q := rfl
    simp only [item_text, List.append_assoc, List.cons_append]
    rw [dropWhile_commas k _ h44]
    simp only [h45, ne_eq, not_false_eq_true, if_true,
      match_unsigned_digits n (45 :: (m ++ q)) (-1) hn hf hdash, hd45, htl, hm0, if_false,
      match_unsigned_digits m q (numeral_value n) hm hfm hqd, hfin, item_node]
  | at_least n =>
    have hn : is_numeral n := hwf n (by simp [item_numerals])
    have hf : numeral_fits n := hfit n (by simp [item_numerals])
    have hd := numeral_deref n (45 :: q) hn
    have h44 : deref (n ++ 45 :: q) ≠ 44 := by omega
    have h45 : deref (n ++ 45 :: q) ≠ 45 := by omega
    have hdash : isdigit (deref (45 :: q)) = false := rfl
    have hd45 : deref (45 :: q) = 45 := rfl
    have htl : (45 :: q).tail = q := rfl
    simp only [item_text, List.append_assoc, List.cons_append, List.singleton_append,
      List.nil_append]
    rw [dropWhile_commas k _ h44]
    simp only [h45, ne_eq, not_false_eq_true, if_true,
      match_unsigned_digits n (45 :: q) (-1) hn hf hdash, hd45, htl, hq, hfin, item_node]
  | at_most m =>
    have hm : is_numeral m := hwf m (by simp [item_numerals])
    have hfm : numeral_fits m := hfit m (by simp [item_numerals])
    have hdm := numeral_deref m q hm
    have hd45 : deref (45 :: (m ++ q)) = 45 := rfl
    have h44 : deref (45 :: (m ++ q)) ≠ 44 := by rw [hd45]; decide
    have hm0 : ¬ (deref (m ++ q) = 0 ∨ deref (m ++ q) = 44) := by omega
    have htl : (45 :: (m ++ q)).tail = m ++ q := rfl
    simp only [item_text, List.append_assoc, List.cons_append]
    rw [dropWhile_commas k _ h44]
    simp only [hd45, ne_eq, not_true_eq_false, if_false, if_true, htl, hm0,
      match_unsigned_digits m q (-1) hm hfm hqd, hfin, item_node]
  | everything =>
    have hd45 : deref (45 :: q) = 45 := rfl
    have h44 : deref (45 :: q) ≠ 44 := by rw [hd45]; decide
    have htl : (45 :: q).tail = q := rfl
    simp only [item_text, List.append_assoc, List.cons_append, List.singleton_append,
      List.nil_append]
    rw [dropWhile_commas k _ h44]
    simp only [hd45, ne_eq, not_true_eq_false, if_false, if_true, htl, hq, hfin, item_node]

theorem set_merge_loop_succ (fuel : Nat) (set : List set_t) (p : List Nat) :
    set_merge_loop (fuel + 1) set p =
      if deref p = 0 then some (.ok set)
      else
        match set_merge_item p with
        | .error e => some (.error e)
        | .ok (node, p) => set_merge_loop fuel (node :: set) p := rfl

theorem item_text_deref (item : range_item) (q : List Nat) (hwf : item_wf item) :
    deref (item_text item ++ q) ≠ 0 ∧ deref (item_text item ++ q) ≠ 44 := by
  cases item with
  | exactly n =>
    have hd := numeral_deref n q (hwf n (by simp [item_numerals]))
    simp only [item_text]
    omega
  | between n m =>
    have hd := numeral_deref n (45 :: (m ++ q)) (hwf n (by simp [item_numerals]))
    simp only [item_text, List.append_assoc, List.cons_append]
    omega
  | at_least n =>
    have hd := numeral_deref n ([45] ++ q) (hwf n (by simp [item_numerals]))
    simp only [item_text, List.append_assoc]
    omega
  | at_most m => simp [item_text, deref]
  | everything => simp [item_text, deref]

theorem item_text_length (item : range_item) (hwf : item_wf item) :
    1 ≤ (item_text item).length := by
  cases h : item_text item with
  | nil =>
    have := (item_text_deref item [] hwf).1
    rw [List.append_nil, h] at this
    exact absurd rfl this
  | cons c p => simp

theorem loose_text_length (segments : List (Nat × range_item))
    (hwf : ∀ segment ∈ segments, item_wf segment.2) :
    segments.length ≤ (loose_text segments).length := by
  induction segments with
  | nil => simp
  | cons segment rest ih =>
    obtain ⟨k, item⟩ := segment
    have h1 := item_text_length item (hwf (k, item) (List.mem_cons_self _ _))
    have h2 := ih (fun s hs => hwf s (List.mem_cons_of_mem _ hs))
    simp only [loose_text, List.length_append, List.length_replicate, List.length_cons]
    omega

theorem replicate_commas_deref (k : Nat) (p : List Nat) (hp : deref p ≠ 0) :
    deref (List.replicate k 44 ++ p) ≠ 0 := by
  cases k with
  | zero => simpa using hp
  | succ k =>
    rw [List.replicate_succ, List.cons_append]
    show (44 : Nat) ≠ 0
    decide

/-- The loop of `set_merge` on a list of items: every item becomes a node. -/
theorem set_merge_loop_loose (q : List Nat) (hq : deref q = 0) :
    ∀ (segments : List (Nat × range_item)) (fuel : Nat) (set : List set_t),
      (∀ segment ∈ segments, item_wf segment.2 ∧ item_fits segment.2) →
      (∀ segment ∈ segments.tail, 1 ≤ segment.1) →
      segments.length < fuel →
      set_merge_loop fuel set (loose_text segments ++ q) =
        some (.ok ((segments.map (fun segment => item_node segment.2)).reverse ++ set)) := by
  intro segments
  induction segments with
  | nil =>
    intro fuel set _ _ hfuel
    obtain ⟨fuel, rfl⟩ : ∃ f, fuel = f + 1 := ⟨fuel - 1, by simp at hfuel; omega⟩
    rw [set_merge_loop_succ]
    simp only [loose_text, List.nil_append, hq, if_true, List.map_nil, List.reverse_nil]
  | cons segment rest ih =>
    intro fuel set hwf hsep hfuel
    obtain ⟨k, item⟩ := segment
    obtain ⟨fuel, rfl⟩ : ∃ f, fuel = f + 1 := ⟨fuel - 1, by simp at hfuel; omega⟩
    obtain ⟨hw, hf⟩ := hwf (k, item) (List.mem_cons_self _ _)
    have hrest : ∀ s ∈ rest, item_wf s.2 ∧ item_fits s.2 :=
      fun s hs => hwf s (List.mem_cons_of_mem _ hs)
    have hsep1 : ∀ s ∈ rest, 1 ≤ s.1 := by simpa using hsep
    have htail : deref (loose_text rest ++ q) = 0 ∨ deref (loose_text rest ++ q) = 44 := by
      cases rest with
      | nil => exact Or.inl (by simpa [loose_text] using hq)
      | cons s2 rest2 =>
        obtain ⟨k2, item2⟩ := s2
        have hk2 : 1 ≤ k2 := hsep1 (k2, item2) (List.mem_cons_self _ _)
        obtain ⟨k3, rfl⟩ : ∃ j, k2 = j + 1 := ⟨k2 - 1, by omega⟩
        right
        simp only [loose_text, List.replicate_succ, List.cons_append, List.append_assoc]
        rfl
    have hne : deref (loose_text ((k, item) :: rest) ++ q) ≠ 0 := by
      simp only [loose_text, List.append_assoc]
      exact replicate_commas_deref k _ (item_text_deref item _ hw).1
    rw [set_merge_loop_succ, if_neg hne]
    have hitem := set_merge_item_text k item (loose_text rest ++ q) hw hf htail
    simp only [loose_text, List.append_assoc] at hitem ⊢
    rw [hitem]
    dsimp only
    rw [ih fuel (item_node item :: set) hrest
      (fun s hs => hsep1 s (List.mem_of_mem_tail hs))
      (by simp at hfuel; omega)]
    simp

theorem list_text_cons (item : range_item) (rest : List range_item) :
    list_text (item :: rest) =
      item_text item ++ loose_text (rest.map (fun other => (1, other))) := by
  induction rest generalizing item with
  | nil => simp [list_text, loose_text]
  | cons other rest ih =>
    show item_text item ++ 44 :: list_text (other :: rest) = _
    rw [ih other]
    simp [loose_text]

theorem list_text_eq_loose (items : List range_item) :
    list_text items = loose_text (tight items) := by
  cases items with
  | nil => rfl
  | cons item rest =>
    rw [list_text_cons]
    simp [tight, loose_text]

theorem item_node_contains (item : range_item) (hwf : item_wf item) (e : Int) :
    interval_contains (item_node item) e ↔ item_covers item e := by
  cases item with
  | exactly n =>
    have h := numeral_value_nonneg n (hwf n (by simp [item_numerals]))
    unfold interval_contains
    simp only [item_node, item_covers, true_and, and_true, ne_eq, not_true_eq_false,
      false_and, and_false, or_false, false_or, true_or, or_true, iff_true, true_iff]
    try omega
  | between n m =>
    have h := numeral_value_nonneg n (hwf n (by simp [item_numerals]))
    have h2 := numeral_value_nonneg m (hwf m (by simp [item_numerals]))
    unfold interval_contains
    simp only [item_node, item_covers, true_and, and_true, ne_eq, not_true_eq_false,
      false_and, and_false, or_false, false_or, true_or, or_true, iff_true, true_iff]
    try omega
  | at_least n =>
    have h := numeral_value_nonneg n (hwf n (by simp [item_numerals]))
    unfold interval_contains
    simp only [item_node, item_covers, true_and, and_true, ne_eq, not_true_eq_false,
      false_and, and_false, or_false, false_or, true_or, or_true, iff_true, true_iff]
    try omega
  | at_most m =>
    have h := numeral_value_nonneg m (hwf m (by simp [item_numerals]))
    unfold interval_contains
    simp only [item_node, item_covers, true_and, and_true, ne_eq, not_true_eq_false,
      false_and, and_false, or_false, false_or, true_or, or_true, iff_true, true_iff]
    try omega
  | everything =>
    unfold interval_contains
    simp only [item_node, item_covers, true_and, and_true, ne_eq, not_true_eq_false,
      false_and, and_false, or_false, false_or, true_or, or_true, iff_true, true_iff]
    try omega

/-- Claim C11: for every set `S` and every comma-separated list of one or more items of the
forms `N`, `N-M`, `N-`, `-M` (and the bare `-`, which covers every element), with `N` and
`M` decimal numerals that do not overflow `int`, `set_merge` returns a set, and an integer
is a member of it exactly when it is a member of `S` or some item covers it.  For
`2,4-6,8-` merged into the empty set, 2, 5 and 100 are members and 3 and 7 are not. -/
theorem set_merge_spec (S : List set_t) (items : List range_item) (hne : items ≠ [])
    (hwf : ∀ item ∈ items, item_wf item) (hfit : ∀ item ∈ items, item_fits item) :
    (∃ result, set_merge S (list_text items) = some (.ok result) ∧
      ∀ e : Int, set_include result e = true ↔
        (set_include S e = true ∨ ∃ item ∈ items, item_covers item e)) ∧
    (∃ result, set_merge [] (bytes "2,4-6,8-") = some (.ok result) ∧
      set_include result 2 = true ∧ set_include result 5 = true ∧
      set_include result 100 = true ∧ set_include result 3 = false ∧
      set_include result 7 = false) := by
  refine ⟨?_, ⟨[⟨8, -1⟩, ⟨4, 6⟩, ⟨2, 2⟩], by decide, by decide, by decide, by decide,
    by decide, by decide⟩⟩
  have hmem : ∀ segment ∈ tight items, segment.2 ∈ items := by
    intro segment hs
    cases items with
    | nil => simp [tight] at hs
    | cons item rest =>
      simp only [tight, List.mem_cons, List.mem_map] at hs
      rcases hs with rfl | ⟨other, ho, rfl⟩
      · exact List.mem_cons_self _ _
      · exact List.mem_cons_of_mem _ ho
  have hsep : ∀ segment ∈ (tight items).tail, 1 ≤ segment.1 := by
    intro segment hs
    cases items with
    | nil => simp [tight] at hs
    | cons item rest =>
      simp only [tight, List.tail_cons, List.mem_map] at hs
      obtain ⟨other, _, rfl⟩ := hs
      exact le_refl 1
  have hlen : (tight items).length < (list_text items).length + 1 := by
    rw [list_text_eq_loose]
    have := loose_text_length (tight items) (fun s hs => hwf _ (hmem s hs))
    omega
  have hrun := set_merge_loop_loose [] rfl (tight items) ((list_text items).length + 1) S
    (fun s hs => ⟨hwf _ (hmem s hs), hfit _ (hmem s hs)⟩) hsep hlen
  rw [List.append_nil, ← list_text_eq_loose] at hrun
  refine ⟨_, hrun, fun e => ?_⟩
  rw [set_include_eq_true_iff, set_include_eq_true_iff]
  have hitems : (tight items).map (fun segment => segment.2) = items := by
    cases items with
    | nil => rfl
    | cons item rest => simp [tight, Function.comp_def]
  constructor
  · rintro ⟨iv, hiv, hin⟩
    rcases List.mem_append.mp hiv with h | h
    · right
      rw [List.mem_reverse, List.mem_map] at h
      obtain ⟨segment, hs, rfl⟩ := h
      exact ⟨segment.2, hmem segment hs,
        (item_node_contains segment.2 (hwf _ (hmem segment hs)) e).mp hin⟩
    · exact Or.inl ⟨iv, h, hin⟩
  · rintro (⟨iv, hiv, hin⟩ | ⟨item, hitem, hcov⟩)
    · exact ⟨iv, List.mem_append.mpr (Or.inr hiv), hin⟩
    · refine ⟨item_node item, List.mem_append.mpr (Or.inl ?_),
        (item_node_contains item (hwf item hitem) e).mpr hcov⟩
      rw [List.mem_reverse, List.mem_map]
      rw [← hitems] at hitem
      obtain ⟨segment, hs, rfl⟩ := List.mem_map.mp hitem
      exact ⟨segment, hs, rfl⟩

theorem set_merge_spec_witness :
    ∃ result, set_merge [⟨1, 1⟩]
        (list_text [.exactly (bytes "2"), .between (bytes "4") (bytes "6"),
          .at_least (bytes "8"), .at_most (bytes "0")]) = some (.ok result) ∧
      ∀ e : Int, set_include result e = true ↔
        (set_include [⟨1, 1⟩] e = true ∨
          ∃ item ∈ [range_item.exactly (bytes "2"), .between (bytes "4") (bytes "6"),
            .at_least (bytes "8"), .at_most (bytes "0")], item_covers item e) :=
  (set_merge_spec [⟨1, 1⟩]
    [.exactly (bytes "2"), .between (bytes "4") (bytes "6"), .at_least (bytes "8"),
      .at_most (bytes "0")]
    (by decide) (by decide) (by decide)).1

theorem match_unsigned_loop_ptr (p : List Nat) :
    ∀ (r : Int) (q : List Nat) (v : Int), 0 ≤ r → r ≤ INT_MAX - 48 →
      match_unsigned_loop p r = (.ptr q, v) →
      ∃ ds, (∀ c ∈ ds, 48 ≤ c ∧ c ≤ 57) ∧ p = ds ++ q ∧
        v = ds.foldl (fun (v : Int) (c : Nat) => 10 * v + ((c : Int) - 48)) r ∧
        isdigit (deref q) = false ∧ v ≤ INT_MAX - 48 := by
  induction p with
  | nil =>
    intro r q v _ hr h
    simp only [match_unsigned_loop, Prod.mk.injEq, cursor.ptr.injEq] at h
    obtain ⟨rfl, rfl⟩ := h
    exact ⟨[], by simp, rfl, rfl, rfl, hr⟩
  | cons c p ih =>
    intro r q v hr0 hr h
    by_cases hc : isdigit c = true
    · by_cases ho : 10 * r + (c : Int) > INT_MAX
      · simp [match_unsigned_loop, hc, ho] at h
      · simp only [match_unsigned_loop, hc, if_true, if_neg ho] at h
        have hc2 := (isdigit_iff c).mp hc
        have e : 10 * r + (c : Int) - 48 = 10 * r + ((c : Int) - 48) := by ring
        rw [e] at h
        obtain ⟨ds, h1, h2, h3, h4, h5⟩ := ih _ q v (by omega) (by unfold INT_MAX at ho ⊢; omega) h
        refine ⟨c :: ds, ?_, by rw [h2]; rfl, by rw [h3]; rfl, h4, h5⟩
        intro x hx
        rcases List.mem_cons.mp hx with rfl | hx
        · exact hc2
        · exact h1 x hx
    · simp only [match_unsigned_loop, hc, Bool.false_eq_true, if_false, Prod.mk.injEq,
        cursor.ptr.injEq] at h
      obtain ⟨rfl, rfl⟩ := h
      refine ⟨[], by simp, rfl, rfl, ?_, hr⟩
      simpa using hc

theorem match_unsigned_loop_ne_null (p : List Nat) :
    ∀ (r v : Int), match_unsigned_loop p r ≠ (.null, v) := by
  induction p with
  | nil => intro r v h; simp [match_unsigned_loop] at h
  | cons c p ih =>
    intro r v h
    by_cases hc : isdigit c = true
    · by_cases ho : 10 * r + (c : Int) > INT_MAX
      · simp [match_unsigned_loop, hc, ho] at h
      · simp only [match_unsigned_loop, hc, if_true, if_neg ho] at h
        exact ih _ v h
    · simp [match_unsigned_loop, hc] at h

theorem match_unsigned_loop_undefined (p : List Nat) :
    ∀ (r v : Int), match_unsigned_loop p r = (.undefined, v) →
      ∃ ds after, (∀ c ∈ ds, 48 ≤ c ∧ c ≤ 57) ∧ ds ≠ [] ∧ p = ds ++ after ∧
        INT_MAX - 48 < ds.foldl (fun (v : Int) (c : Nat) => 10 * v + ((c : Int) - 48)) r := by
  induction p with
  | nil => intro r v h; simp [match_unsigned_loop] at h
  | cons c p ih =>
    intro r v h
    by_cases hc : isdigit c = true
    · have hc2 := (isdigit_iff c).mp hc
      by_cases ho : 10 * r + (c : Int) > INT_MAX
      · refine ⟨[c], p, ?_, by simp, rfl, ?_⟩
        · intro x hx
          rw [List.mem_singleton.mp hx]
          exact hc2
        · simp only [List.foldl_cons, List.foldl_nil]
          omega
      · simp only [match_unsigned_loop, hc, if_true, if_neg ho] at h
        have e : 10 * r + (c : Int) - 48 = 10 * r + ((c : Int) - 48) := by ring
        rw [e] at h
        obtain ⟨ds, after, h1, _, h3, h4⟩ := ih _ v h
        refine ⟨c :: ds, after, ?_, by simp, by rw [h3]; rfl, by rw [List.foldl_cons]; exact h4⟩
        intro x hx
        rcases List.mem_cons.mp hx with rfl | hx
        · exact hc2
        · exact h1 x hx
    · simp [match_unsigned_loop, hc] at h

theorem deref_cons_tail (p : List Nat) (h : deref p ≠ 0) : p = deref p :: p.tail := by
  cases p with
  | nil => exact absurd rfl h
  | cons c p => rfl

/-- What `match_unsigned` has read when it returns a pointer: a numeral that fits. -/
theorem match_unsigned_ptr (p q : List Nat) (r v : Int)
    (h : match_unsigned (.ptr p) r = (.ptr q, v)) :
    ∃ ds, is_numeral ds ∧ numeral_fits ds ∧ p = ds ++ q ∧ v = numeral_value ds ∧
      isdigit (deref q) = false := by
  unfold match_unsigned at h
  by_cases hc : isdigit (deref p) = true
  · have hc2 := (isdigit_iff _).mp hc
    simp only [hc, not_true_eq_false, if_false] at h
    obtain ⟨ds, h1, h2, h3, h4, h5⟩ :=
      match_unsigned_loop_ptr p.tail _ q v (by omega) (by unfold INT_MAX; omega) h
    have hp := deref_cons_tail p (by omega)
    refine ⟨deref p :: ds, ⟨by simp, ?_⟩, ?_, by rw [List.cons_append, ← h2]; exact hp, ?_, h4⟩
    · intro x hx
      rcases List.mem_cons.mp hx with rfl | hx
      · exact hc2
      · exact h1 x hx
    · unfold numeral_fits
      rw [numeral_value_cons, ← h3]
      exact h5
    · rw [numeral_value_cons, ← h3]
  · simp [hc] at h

/-- The function `match_unsigned` returns 0 only when the text does not start with a
digit. -/
theorem match_unsigned_null (p : List Nat) (r v : Int)
    (h : match_unsigned (.ptr p) r = (.null, v)) : isdigit (deref p) = false := by
  unfold match_unsigned at h
  by_cases hc : isdigit (deref p) = true
  · simp only [hc, not_true_eq_false, if_false] at h
    exact absurd h (match_unsigned_loop_ne_null _ _ _)
  · simpa using hc

/-- The function `match_unsigned` overflows only on a numeral that does not fit. -/
theorem match_unsigned_undefined (p : List Nat) (r v : Int)
    (h : match_unsigned (.ptr p) r = (.undefined, v)) :
    ∃ ds after, is_numeral ds ∧ ¬ numeral_fits ds ∧ p = ds ++ after := by
  unfold match_unsigned at h
  by_cases hc : isdigit (deref p) = true
  · have hc2 := (isdigit_iff _).mp hc
    simp only [hc, not_true_eq_false, if_false] at h
    obtain ⟨ds, after, h1, _, h3, h4⟩ := match_unsigned_loop_undefined p.tail _ v h
    have hp := deref_cons_tail p (by omega)
    refine ⟨deref p :: ds, after, ⟨by simp, ?_⟩, ?_, by rw [List.cons_append, ← h3]; exact hp⟩
    · intro x hx
      rcases List.mem_cons.mp hx with rfl | hx
      · exact hc2
      · exact h1 x hx
    · unfold numeral_fits
      rw [numeral_value_cons]
      omega
  · simp [hc] at h

theorem commas_split (p : List Nat) :
    ∃ k, p = List.replicate k 44 ++ p.dropWhile (fun c => c = 44) := by
  induction p with
  | nil => exact ⟨0, rfl⟩
  | cons c p ih =>
    by_cases hc : c = 44
    · obtain ⟨k, hk⟩ := ih
      refine ⟨k + 1, ?_⟩
      subst hc
      rw [List.dropWhile_cons]
      simp only [decide_True, if_true]
      rw [List.replicate_succ, List.cons_append, ← hk]
    · exact ⟨0, by simp [List.dropWhile, hc]⟩

theorem set_merge_item_final (first last : Int) (p q : List Nat) (node : set_t)
    (h : (if deref p = 0 then (.ok (⟨first, last⟩, p) : Except Fatal (set_t × List Nat))
      else if deref p ≠ 44 then .error .invalid_list else .ok (⟨first, last⟩, p)) =
      .ok (node, q)) :
    node = ⟨first, last⟩ ∧ q = p ∧ (deref q = 0 ∨ deref q = 44) := by
  by_cases h0 : deref p = 0
  · rw [if_pos h0] at h
    cases h
    exact ⟨rfl, rfl, Or.inl h0⟩
  · rw [if_neg h0] at h
    by_cases h44 : deref p = 44
    · rw [if_neg (not_not.mpr h44)] at h
      cases h
      exact ⟨rfl, rfl, Or.inr h44⟩
    · rw [if_pos h44] at h
      cases h

theorem set_merge_item_final_error (first last : Int) (p : List Nat) (e : Fatal)
    (h : (if deref p = 0 then (.ok (⟨first, last⟩, p) : Except Fatal (set_t × List Nat))
      else if deref p ≠ 44 then .error .invalid_list else .ok (⟨first, last⟩, p)) =
      .error e) :
    e = .invalid_list := by
  by_cases h0 : deref p = 0
  · rw [if_pos h0] at h
    cases h
  · rw [if_neg h0] at h
    by_cases h44 : deref p = 44
    · rw [if_neg (not_not.mpr h44)] at h
      cases h
    · rw [if_pos h44] at h
      cases h
      rfl

/-- What one iteration of `set_merge` has read when it ends normally: commas and one
item, which is followed by a comma or by the end of the text. -/
theorem set_merge_item_ok (p q : List Nat) (node : set_t)
    (h : set_merge_item p = .ok (node, q)) :
    ∃ k item, item_wf item ∧ item_fits item ∧
      p = List.replicate k 44 ++ item_text item ++ q ∧ node = item_node item ∧
      (deref q = 0 ∨ deref q = 44) := by
  unfold set_merge_item at h
  obtain ⟨k, hk⟩ := commas_split p
  generalize p.dropWhile (fun c => c = 44) = p1 at h hk
  by_cases h45 : deref p1 = 45
  · have hp1 : p1 = 45 :: p1.tail := by
      have := deref_cons_tail p1 (by rw [h45]; decide)
      rw [h45] at this
      exact this
    simp only [h45, ne_eq, not_true_eq_false, if_false, if_true] at h
    by_cases hs : deref p1.tail = 0 ∨ deref p1.tail = 44
    · simp only [hs, if_true] at h
      obtain ⟨rfl, rfl, hq⟩ := set_merge_item_final _ _ _ _ _ h
      refine ⟨k, .everything, by simp [item_wf, item_numerals], by simp [item_fits, item_numerals],
        ?_, rfl, hq⟩
      rw [hk, List.append_assoc]
      congr 1
    · simp only [hs, if_false] at h
      cases hm : match_unsigned (.ptr p1.tail) (-1) with
      | mk c v =>
        rw [hm] at h
        cases c with
        | null => cases h
        | undefined => cases h
        | ptr p2 =>
          dsimp only at h
          obtain ⟨rfl, rfl, hq⟩ := set_merge_item_final _ _ _ _ _ h
          obtain ⟨ds, hn, hf, hp, hv, _⟩ := match_unsigned_ptr _ _ _ _ hm
          refine ⟨k, .at_most ds, by simpa [item_wf, item_numerals] using hn,
            by simpa [item_fits, item_numerals] using hf, ?_, by rw [hv]; rfl, hq⟩
          rw [hk, List.append_assoc]
          congr 1
          rw [hp1, hp]
          rfl
  · simp only [h45, ne_eq, not_false_eq_true, if_true] at h
    cases hm : match_unsigned (.ptr p1) (-1) with
    | mk c v =>
      rw [hm] at h
      cases c with
      | null => cases h
      | undefined => cases h
      | ptr p2 =>
        dsimp only at h
        obtain ⟨ds, hn, hf, hp, hv, _⟩ := match_unsigned_ptr _ _ _ _ hm
        by_cases h45b : deref p2 = 45
        · have hp2 : p2 = 45 :: p2.tail := by
            have := deref_cons_tail p2 (by rw [h45b]; decide)
            rw [h45b] at this
            exact this
          simp only [h45b, if_true] at h
          by_cases hs : deref p2.tail = 0 ∨ deref p2.tail = 44
          · simp only [hs, if_true] at h
            obtain ⟨rfl, rfl, hq⟩ := set_merge_item_final _ _ _ _ _ h
            refine ⟨k, .at_least ds, by simpa [item_wf, item_numerals] using hn,
              by simpa [item_fits, item_numerals] using hf, ?_, by rw [hv]; rfl, hq⟩
            rw [hk, List.append_assoc]
            congr 1
            rw [hp]
            simp only [item_text, List.append_assoc, List.singleton_append]
            congr 1
          · simp only [hs, if_false] at h
            cases hm2 : match_unsigned (.ptr p2.tail) v with
            | mk c2 v2 =>
              rw [hm2] at h
              cases c2 with
              | null => cases h
              | undefined => cases h
              | ptr p3 =>
                dsimp only at h
                obtain ⟨rfl, rfl, hq⟩ := set_merge_item_final _ _ _ _ _ h
                obtain ⟨ds2, hn2, hf2, hp3, hv2, _⟩ := match_unsigned_ptr _ _ _ _ hm2
                refine ⟨k, .between ds ds2, ?_, ?_, ?_, by rw [hv, hv2]; rfl, hq⟩
                · intro x hx
                  simp only [item_numerals, List.mem_cons, List.mem_singleton,
                    List.not_mem_nil, or_false] at hx
                  rcases hx with rfl | rfl
                  · exact hn
                  · exact hn2
                · intro x hx
                  simp only [item_numerals, List.mem_cons, List.mem_singleton,
                    List.not_mem_nil, or_false] at hx
                  rcases hx with rfl | rfl
                  · exact hf
                  · exact hf2
                · rw [hk, List.append_assoc]
                  congr 1
                  rw [hp]
                  simp only [item_text, List.append_assoc, List.cons_append]
                  congr 1
                  rw [hp2, hp3]
        · simp only [h45b, if_false] at h
          obtain ⟨rfl, rfl, hq⟩ := set_merge_item_final _ _ _ _ _ h
          refine ⟨k, .exactly ds, by simpa [item_wf, item_numerals] using hn,
            by simpa [item_fits, item_numerals] using hf, ?_, by rw [hv]; rfl, hq⟩
          rw [hk, List.append_assoc]
          congr 1

/-- One iteration of `set_merge` stops with "invalid list", or overflows on a numeral of
the text that does not fit. -/
theorem set_merge_item_error (p : List Nat) (e : Fatal) (h : set_merge_item p = .error e) :
    e = .invalid_list ∨
    (e = .undefined_behaviour ∧
      ∃ before ds after, p = before ++ ds ++ after ∧ is_numeral ds ∧ ¬ numeral_fits ds) := by
  unfold set_merge_item at h
  obtain ⟨k, hk⟩ := commas_split p
  generalize p.dropWhile (fun c => c = 44) = p1 at h hk
  by_cases h45 : deref p1 = 45
  · have hp1 : p1 = 45 :: p1.tail := by
      have := deref_cons_tail p1 (by rw [h45]; decide)
      rw [h45] at this
      exact this
    simp only [h45, ne_eq, not_true_eq_false, if_false, if_true] at h
    by_cases hs : deref p1.tail = 0 ∨ deref p1.tail = 44
    · simp only [hs, if_true] at h
      exact Or.inl (set_merge_item_final_error _ _ _ _ h)
    · simp only [hs, if_false] at h
      cases hm : match_unsigned (.ptr p1.tail) (-1) with
      | mk c v =>
        rw [hm] at h
        cases c with
        | null => cases h; exact Or.inl rfl
        | undefined =>
          cases h
          obtain ⟨ds, after, hn, hf, hp⟩ := match_unsigned_undefined _ _ _ hm
          refine Or.inr ⟨rfl, List.replicate k 44 ++ [45], ds, after, ?_, hn, hf⟩
          rw [hk, hp1, hp]
          simp
        | ptr p2 =>
          dsimp only at h
          exact Or.inl (set_merge_item_final_error _ _ _ _ h)
  · simp only [h45, ne_eq, not_false_eq_true, if_true] at h
    cases hm : match_unsigned (.ptr p1) (-1) with
    | mk c v =>
      rw [hm] at h
      cases c with
      | null => cases h; exact Or.inl rfl
      | undefined =>
        cases h
        obtain ⟨ds, after, hn, hf, hp⟩ := match_unsigned_undefined _ _ _ hm
        refine Or.inr ⟨rfl, List.replicate k 44, ds, after, ?_, hn, hf⟩
        rw [hk, hp]
        simp
      | ptr p2 =>
        dsimp only at h
        obtain ⟨ds, hn, hf, hp, hv, _⟩ := match_unsigned_ptr _ _ _ _ hm
        by_cases h45b : deref p2 = 45
        · have hp2 : p2 = 45 :: p2.tail := by
            have := deref_cons_tail p2 (by rw [h45b]; decide)
            rw [h45b] at this
            exact this
          simp only [h45b, if_true] at h
          by_cases hs : deref p2.tail = 0 ∨ deref p2.tail = 44
          · simp only [hs, if_true] at h
            exact Or.inl (set_merge_item_final_error _ _ _ _ h)
          · simp only [hs, if_false] at h
            cases hm2 : match_unsigned (.ptr p2.tail) v with
            | mk c2 v2 =>
              rw [hm2] at h
              cases c2 with
              | null => cases h; exact Or.inl rfl
              | undefined =>
                cases h
                obtain ⟨ds2, after, hn2, hf2, hp3⟩ := match_unsigned_undefined _ _ _ hm2
                refine Or.inr ⟨rfl, List.replicate k 44 ++ ds ++ [45], ds2, after, ?_, hn2, hf2⟩
                rw [hk, hp, hp2, hp3]
                simp
              | ptr p3 =>
                dsimp only at h
                exact Or.inl (set_merge_item_final_error _ _ _ _ h)
        · simp only [h45b, if_false] at h
          exact Or.inl (set_merge_item_final_error _ _ _ _ h)

theorem loose_text_deref (segments : List (Nat × range_item)) (q : List Nat)
    (hne : segments ≠ []) (hwf : ∀ segment ∈ segments, item_wf segment.2) :
    deref (loose_text segments ++ q) ≠ 0 := by
  cases segments with
  | nil => exact absurd rfl hne
  | cons segment rest =>
    obtain ⟨k, item⟩ := segment
    simp only [loose_text, List.append_assoc]
    exact replicate_commas_deref k _
      (item_text_deref item _ (hwf (k, item) (List.mem_cons_self _ _))).1

/-- What the loop of `set_merge` has read when it ends normally: items, the first one
possibly after commas, the other ones after one comma or more, up to the end of the
text. -/
theorem set_merge_loop_ok (fuel : Nat) :
    ∀ (set : List set_t) (p : List Nat) (result : List set_t),
      set_merge_loop fuel set p = some (.ok result) →
      ∃ (segments : List (Nat × range_item)) (q : List Nat),
        (∀ segment ∈ segments, item_wf segment.2 ∧ item_fits segment.2) ∧
        (∀ segment ∈ segments.tail, 1 ≤ segment.1) ∧
        (deref p = 44 → ∀ segment ∈ segments, 1 ≤ segment.1) ∧
        deref q = 0 ∧ p = loose_text segments ++ q ∧
        result = (segments.map (fun segment => item_node segment.2)).reverse ++ set := by
  induction fuel with
  | zero =>
    intro set p result h
    cases h
  | succ fuel ih =>
    intro set p result h
    rw [set_merge_loop_succ] at h
    by_cases h0 : deref p = 0
    · rw [if_pos h0] at h
      cases h
      exact ⟨[], p, by simp, by simp, by simp, h0, rfl, rfl⟩
    · rw [if_neg h0] at h
      cases hi : set_merge_item p with
      | error e => rw [hi] at h; cases h
      | ok r =>
        obtain ⟨node, p2⟩ := r
        rw [hi] at h
        dsimp only at h
        obtain ⟨k, item, hw, hf, hp, hnode, hq⟩ := set_merge_item_ok p p2 node hi
        obtain ⟨segments, q, h1, h2, h3, h4, h5, h6⟩ := ih _ _ _ h
        have hall : ∀ segment ∈ segments, 1 ≤ segment.1 := by
          cases hs : segments with
          | nil => simp
          | cons s rest =>
            rw [← hs]
            apply h3
            rcases hq with hq | hq
            · have := loose_text_deref segments q (by rw [hs]; simp)
                (fun s hs2 => (h1 s hs2).1)
              rw [← h5] at this
              exact absurd hq this
            · exact hq
        refine ⟨(k, item) :: segments, q, ?_, ?_, ?_, h4, ?_, ?_⟩
        · intro s hs
          rcases List.mem_cons.mp hs with rfl | hs
          · exact ⟨hw, hf⟩
          · exact h1 s hs
        · simpa using hall
        · intro h44 s hs
          rcases List.mem_cons.mp hs with rfl | hs
          · show 1 ≤ k
            cases k with
            | zero =>
              rw [hp, List.replicate_zero, List.nil_append] at h44
              exact absurd h44 (item_text_deref item _ hw).2
            | succ k => omega
          · exact hall s hs
        · rw [hp, h5]
          simp [loose_text]
        · rw [h6, hnode]
          simp

/-- The loop of `set_merge` consumes the text: it ends within `strlen(p) + 1`
iterations. -/
theorem set_merge_loop_returns (fuel : Nat) :
    ∀ (set : List set_t) (p : List Nat), p.length < fuel →
      set_merge_loop fuel set p ≠ none := by
  induction fuel with
  | zero => intro set p h; omega
  | succ fuel ih =>
    intro set p hlen
    rw [set_merge_loop_succ]
    by_cases h0 : deref p = 0
    · rw [if_pos h0]
      simp
    · rw [if_neg h0]
      cases hi : set_merge_item p with
      | error e => simp
      | ok r =>
        obtain ⟨node, p2⟩ := r
        dsimp only
        obtain ⟨k, item, hw, _, hp, _, _⟩ := set_merge_item_ok p p2 node hi
        apply ih
        have := item_text_length item hw
        rw [hp] at hlen
        simp only [List.length_append, List.length_replicate] at hlen
        omega

/-- The loop of `set_merge` stops with "invalid list", or overflows on a numeral of the
text that does not fit. -/
theorem set_merge_loop_error (fuel : Nat) :
    ∀ (set : List set_t) (p : List Nat) (e : Fatal),
      set_merge_loop fuel set p = some (.error e) →
      e = .invalid_list ∨
      (e = .undefined_behaviour ∧
        ∃ before ds after, p = before ++ ds ++ after ∧ is_numeral ds ∧ ¬ numeral_fits ds) := by
  induction fuel with
  | zero => intro set p e h; cases h
  | succ fuel ih =>
    intro set p e h
    rw [set_merge_loop_succ] at h
    by_cases h0 : deref p = 0
    · rw [if_pos h0] at h
      cases h
    · rw [if_neg h0] at h
      cases hi : set_merge_item p with
      | error e2 =>
        rw [hi] at h
        cases h
        exact set_merge_item_error p e hi
      | ok r =>
        obtain ⟨node, p2⟩ := r
        rw [hi] at h
        dsimp only at h
        obtain ⟨k, item, _, _, hp, _, _⟩ := set_merge_item_ok p p2 node hi
        rcases ih _ _ _ h with h1 | ⟨h1, before, ds, after, h2, h3, h4⟩
        · exact Or.inl h1
        · refine Or.inr ⟨h1, List.replicate k 44 ++ item_text item ++ before, ds, after, ?_,
            h3, h4⟩
          rw [hp, h2]
          simp

theorem foldl_value_lt (ds : List Nat) (hd : ∀ c ∈ ds, 48 ≤ c ∧ c ≤ 57) :
    ∀ r : Int, 0 ≤ r →
      ds.foldl (fun (v : Int) (c : Nat) => 10 * v + ((c : Int) - 48)) r <
        (r + 1) * 10 ^ ds.length := by
  induction ds with
  | nil => intro r _; simp
  | cons c ds ih =>
    intro r hr
    have hc := hd c (List.mem_cons_self c ds)
    rw [List.foldl_cons, List.length_cons, pow_succ]
    have h1 := ih (fun x hx => hd x (List.mem_cons_of_mem c hx)) (10 * r + ((c : Int) - 48))
      (by omega)
    have hX : (0 : Int) < 10 ^ ds.length := by positivity
    have h2 : (10 * r + ((c : Int) - 48) + 1) * 10 ^ ds.length ≤
        (r + 1) * (10 ^ ds.length * 10) := by
      have : (10 * r + ((c : Int) - 48) + 1) ≤ (r + 1) * 10 := by omega
      calc (10 * r + ((c : Int) - 48) + 1) * 10 ^ ds.length
          ≤ ((r + 1) * 10) * 10 ^ ds.length := Int.mul_le_mul_of_nonneg_right this hX.le
        _ = (r + 1) * (10 ^ ds.length * 10) := by ring
    omega

/-- A text of at most 9 characters holds no numeral that overflows `int`. -/
theorem numerals_fit_in_short (p : List Nat) (hp : p.length ≤ 9) : numerals_fit_in p := by
  intro before ds after h hn
  have hlen : ds.length ≤ 9 := by
    have := congrArg List.length h
    simp only [List.length_append] at this
    omega
  have h1 := foldl_value_lt ds hn.2 0 (le_refl 0)
  have h2 : (10 : Int) ^ ds.length ≤ 10 ^ 9 := pow_le_pow_right₀ (by norm_num) hlen
  unfold numeral_fits numeral_value INT_MAX
  have h3 : (10 : Int) ^ 9 = 1000000000 := by norm_num
  omega

theorem item_numerals_infix (item : range_item) (ds : List Nat)
    (h : ds ∈ item_numerals item) : ∃ before after, item_text item = before ++ ds ++ after := by
  cases item with
  | exactly n =>
    simp only [item_numerals, List.mem_singleton] at h
    exact ⟨[], [], by simp [item_text, h]⟩
  | between n m =>
    simp only [item_numerals, List.mem_cons, List.mem_singleton, List.not_mem_nil,
      or_false] at h
    rcases h with rfl | rfl
    · exact ⟨[], 45 :: m, by simp [item_text]⟩
    · exact ⟨n ++ [45], [], by simp [item_text]⟩
  | at_least n =>
    simp only [item_numerals, List.mem_singleton] at h
    exact ⟨[], [45], by simp [item_text, h]⟩
  | at_most m =>
    simp only [item_numerals, List.mem_singleton] at h
    exact ⟨[45], [], by simp [item_text, h]⟩
  | everything => simp [item_numerals] at h

theorem loose_numerals_infix (segments : List (Nat × range_item)) :
    ∀ segment ∈ segments, ∀ ds ∈ item_numerals segment.2,
      ∃ before after, loose_text segments = before ++ ds ++ after := by
  induction segments with
  | nil => intro s hs; simp at hs
  | cons first rest ih =>
    intro s hs ds hds
    obtain ⟨k, item⟩ := first
    rcases List.mem_cons.mp hs with rfl | hs
    · obtain ⟨b, a, h⟩ := item_numerals_infix item ds hds
      exact ⟨List.replicate k 44 ++ b, a ++ loose_text rest, by simp [loose_text, h]⟩
    · obtain ⟨b, a, h⟩ := ih s hs ds hds
      exact ⟨List.replicate k 44 ++ item_text item ++ b, a, by simp [loose_text, h]⟩

/-- Counterexample to claim C12 as stated: `set_merge` accepts the bare `-`, a list with
an empty item, a list that starts with a comma, and the empty text. -/
theorem set_merge_accepts_malformed :
    set_merge [] (bytes "-") = some (.ok [⟨-1, -1⟩]) ∧
    set_merge [] (bytes "2,,3") = some (.ok [⟨3, 3⟩, ⟨2, 2⟩]) ∧
    set_merge [] (bytes ",2") = some (.ok [⟨2, 2⟩]) ∧
    set_merge [] (bytes "") = some (.ok []) := by
  refine ⟨?_, ?_, ?_, ?_⟩ <;> decide

/-- Claim C12 as amended: for every input string whose numerals do not overflow `int`,
`set_merge` succeeds if and only if the string is a list of items of the forms `N`, `N-M`,
`N-`, `-M` or `-`, in which the first item may follow commas and every other item follows
one comma or more (the empty string is the list of no items); every other string fails
with the fatal error "invalid list". -/
theorem set_merge_succeeds_iff (S : List set_t) (p : List Nat) (hp : ∀ c ∈ p, c ≠ 0)
    (hfit : numerals_fit_in p) :
    ((∃ result, set_merge S p = some (.ok result)) ↔ is_loose_list p) ∧
    (¬ is_loose_list p → set_merge S p = some (.error .invalid_list)) := by
  have hto : ∀ result, set_merge S p = some (.ok result) → is_loose_list p := by
    intro result h
    obtain ⟨segments, q, h1, h2, _, h4, h5, _⟩ := set_merge_loop_ok _ _ _ _ h
    have hq : q = [] := by
      cases q with
      | nil => rfl
      | cons c q =>
        have hc : c = 0 := h4
        exact absurd hc (hp c (by rw [h5]; simp))
    rw [hq, List.append_nil] at h5
    exact ⟨segments, fun s hs => (h1 s hs).1, h2, h5⟩
  refine ⟨⟨fun ⟨result, h⟩ => hto result h, ?_⟩, ?_⟩
  · rintro ⟨segments, h1, h2, h3⟩
    have hf : ∀ segment ∈ segments, item_wf segment.2 ∧ item_fits segment.2 := by
      intro s hs
      refine ⟨h1 s hs, fun ds hds => ?_⟩
      obtain ⟨b, a, h⟩ := loose_numerals_infix segments s hs ds hds
      exact hfit b ds a (by rw [h3, h]) (h1 s hs ds hds)
    have hlen := loose_text_length segments h1
    have := set_merge_loop_loose [] rfl segments (p.length + 1) S hf h2
      (by rw [h3]; omega)
    rw [List.append_nil, ← h3] at this
    exact ⟨_, this⟩
  · intro hnot
    cases h : set_merge S p with
    | none => exact absurd h (set_merge_loop_returns _ _ _ (by omega))
    | some r =>
      cases r with
      | ok result => exact absurd (hto result h) hnot
      | error e =>
        rcases set_merge_loop_error _ _ _ _ h with he | ⟨_, b, ds, a, h1, h2, h3⟩
        · rw [he]
        · exact absurd (hfit b ds a h1 h2) h3

theorem set_merge_succeeds_iff_witness :
    ((∃ result, set_merge [] (bytes "2-3-4") = some (.ok result)) ↔
      is_loose_list (bytes "2-3-4")) ∧
    (¬ is_loose_list (bytes "2-3-4") →
      set_merge [] (bytes "2-3-4") = some (.error .invalid_list)) :=
  set_merge_succeeds_iff [] (bytes "2-3-4") (by decide)
    (numerals_fit_in_short (bytes "2-3-4") (by decide))

/-! ## Theorems: decoding the identity -/

theorem match_literal_loop_append (s q : List Nat) (hs : ∀ c ∈ s, c ≠ 0) :
    match_literal_loop (s ++ q) s = .ptr q := by
  induction s with
  | nil => rfl
  | cons c s ih =>
    have hc : c ≠ 0 := hs c (List.mem_cons_self c s)
    have hd : deref (c :: s ++ q) = c := rfl
    rw [match_literal_loop, hd, if_pos ⟨hc, hc, rfl⟩]
    exact ih (fun x hx => hs x (List.mem_cons_of_mem c hx))

theorem match_literal_loop_ptr (s : List Nat) (hs : ∀ c ∈ s, c ≠ 0) :
    ∀ p q, match_literal_loop p s = .ptr q → p = s ++ q := by
  induction s with
  | nil =>
    intro p q h
    simp only [match_literal_loop, cursor.ptr.injEq] at h
    rw [h]
    rfl
  | cons c s ih =>
    intro p q h
    have hc : c ≠ 0 := hs c (List.mem_cons_self c s)
    rw [match_literal_loop] at h
    by_cases hm : deref p ≠ 0 ∧ c ≠ 0 ∧ deref p = c
    · rw [if_pos hm] at h
      have := ih (fun x hx => hs x (List.mem_cons_of_mem c hx)) _ _ h
      rw [List.cons_append, ← this, ← hm.2.2]
      exact deref_cons_tail p hm.1
    · rw [if_neg hm, if_pos hc] at h
      cases h

theorem match_literal_loop_ne_undefined (s : List Nat) :
    ∀ p, match_literal_loop p s ≠ .undefined := by
  induction s with
  | nil => intro p h; simp [match_literal_loop] at h
  | cons c s ih =>
    intro p h
    rw [match_literal_loop] at h
    by_cases hm : deref p ≠ 0 ∧ c ≠ 0 ∧ deref p = c
    · rw [if_pos hm] at h
      exact ih _ h
    · rw [if_neg hm] at h
      by_cases hc : c ≠ 0
      · rw [if_pos hc] at h; cases h
      · rw [if_neg hc] at h; cases h

/-- The function `match_literal` fails on a text that does not start with the literal. -/
theorem match_literal_null (p s : List Nat) (hs : ∀ c ∈ s, c ≠ 0) (h : ¬ s <+: p) :
    match_literal (.ptr p) s = .null := by
  show match_literal_loop p s = .null
  cases hr : match_literal_loop p s with
  | null => rfl
  | undefined => exact absurd hr (match_literal_loop_ne_undefined s p)
  | ptr q => exact absurd ⟨q, (match_literal_loop_ptr s hs p q hr).symm⟩ h

theorem takeWhile_until (t q : List Nat) (c : Nat) (ht : ∀ b ∈ t, b ≠ 0 ∧ b ≠ c)
    (hq : deref q = 0 ∨ deref q = c) :
    (t ++ q).takeWhile (fun b => b ≠ 0 ∧ b ≠ c) = t ∧
    (t ++ q).dropWhile (fun b => b ≠ 0 ∧ b ≠ c) = q := by
  induction t with
  | nil =>
    cases q with
    | nil => exact ⟨rfl, rfl⟩
    | cons b q =>
      have hb : ¬ (b ≠ 0 ∧ b ≠ c) := by
        rcases hq with h | h
        · exact fun hh => hh.1 h
        · exact fun hh => hh.2 h
      simp [List.takeWhile, List.dropWhile, hb]
  | cons b t ih =>
    have hb := ht b (List.mem_cons_self b t)
    obtain ⟨h1, h2⟩ := ih (fun x hx => ht x (List.mem_cons_of_mem b hx))
    simp only [List.cons_append, List.takeWhile_cons, List.dropWhile_cons, hb, ne_eq,
      not_false_eq_true, and_self, decide_True, if_true]
    exact ⟨by rw [h1], h2⟩

/-- The function `match_string_until` on a text that holds the delimiter. -/
theorem match_string_until_found (t q : List Nat) (c : Nat) (consume : Bool)
    (ht : ∀ b ∈ t, b ≠ 0 ∧ b ≠ c) :
    match_string_until (.ptr (t ++ c :: q)) c consume =
      (if consume then .ptr q else .ptr (c :: q), some t) := by
  obtain ⟨h1, h2⟩ := takeWhile_until t (c :: q) c ht (Or.inr rfl)
  unfold match_string_until
  simp only [h1, h2]
  rfl

/-- The function `match_string_until` on a text that ends without the delimiter: with
`consume` set, the pointer that it returns is beyond the terminating NUL. -/
theorem match_string_until_end (t : List Nat) (c : Nat) (consume : Bool)
    (ht : ∀ b ∈ t, b ≠ 0 ∧ b ≠ c) :
    match_string_until (.ptr t) c consume =
      (if consume then .undefined else .ptr [], some t) := by
  obtain ⟨h1, h2⟩ := takeWhile_until t [] c ht (Or.inl rfl)
  rw [List.append_nil] at h1 h2
  unfold match_string_until
  simp only [h1, h2]
  rfl

theorem no_nul_pair (t : List Nat) (h : ∀ b ∈ t, b ≠ 0) : ∀ b ∈ t, b ≠ 0 ∧ b ≠ 0 :=
  fun b hb => ⟨h b hb, h b hb⟩

theorem PBRSNP_ne_zero : ∀ c ∈ PBRSNP, c ≠ 0 := by decide

/-- Claim C13: for every payload `PBRSNP,` id `,` name `,` digits `,` version, in which id
and name hold no comma and digits is a decimal numeral that does not overflow `int`,
`snp_new` succeeds, and the identity has the instrument id id, the raw pilot name name, the
serial number that digits denotes and the software version version, which is everything
after the fourth comma, commas included. -/
theorem snp_new_decodes (id name digits version : List Nat)
    (hid : ∀ c ∈ id, c ≠ 0 ∧ c ≠ 44) (hname : ∀ c ∈ name, c ≠ 0 ∧ c ≠ 44)
    (hdigits : is_numeral digits) (hfit : numeral_fits digits)
    (hversion : ∀ c ∈ version, c ≠ 0) :
    snp_new (PBRSNP ++ id ++ [44] ++ name ++ [44] ++ digits ++ [44] ++ version) =
      .ok (some
        { instrument_id := id, pilot_name := name, serial_number := numeral_value digits,
          software_version := version }) := by
  have e : PBRSNP ++ id ++ [44] ++ name ++ [44] ++ digits ++ [44] ++ version =
      PBRSNP ++ (id ++ 44 :: (name ++ 44 :: (digits ++ 44 :: version))) := by simp
  have h1 : match_literal (.ptr (PBRSNP ++ (id ++ 44 :: (name ++ 44 :: (digits ++ 44 :: version)))))
      PBRSNP = .ptr (id ++ 44 :: (name ++ 44 :: (digits ++ 44 :: version))) :=
    match_literal_loop_append PBRSNP _ PBRSNP_ne_zero
  have h2 := match_string_until_found id (name ++ 44 :: (digits ++ 44 :: version)) 44 true hid
  have h3 := match_string_until_found name (digits ++ 44 :: version) 44 true hname
  have h4 := match_unsigned_digits digits (44 :: version) 0 hdigits hfit rfl
  have h5 : match_char (.ptr (44 :: version)) 44 = .ptr version := rfl
  have h6 := match_string_until_end version 0 false (no_nul_pair version hversion)
  have h7 : match_eos (.ptr []) = .ptr [] := rfl
  rw [e]
  unfold snp_new
  simp only [h1, h2, h3, h4, h5, h6, h7, if_true, Bool.false_eq_true, if_false, Option.getD_some]

theorem snp_new_decodes_witness :
    snp_new (PBRSNP ++ bytes "5020" ++ [44] ++ bytes "Tom Payne" ++ [44] ++ bytes "123" ++ [44]
        ++ bytes "1.18,b") =
      .ok (some
        { instrument_id := bytes "5020", pilot_name := bytes "Tom Payne",
          serial_number := numeral_value (bytes "123"), software_version := bytes "1.18,b" }) :=
  snp_new_decodes (bytes "5020") (bytes "Tom Payne") (bytes "123") (bytes "1.18,b")
    (by decide) (by decide) (by decide) (by decide) (by decide)

theorem match_char_ne (p : List Nat) (c : Nat) (h : deref p ≠ c) :
    match_char (.ptr p) c = .null := by
  show (if deref p = c then advance p else cursor.null) = cursor.null
  rw [if_neg h]

/-- Claim C14, the code.  A payload without the prefix `PBRSNP,`, a payload whose serial
number does not start with a digit and a payload without a comma after the serial number
are decode failures.  A payload that ends within the instrument id or within the pilot name
is not: `match_string_until` has no test for the missing comma and steps over the
terminating NUL, so that the matchers that follow read beyond the end of the payload.  For
the payload `PBRSNP,5020` the decoding leaves the payload, and when the bytes `A,7,v` follow
it in memory the decoding succeeds with them. -/
theorem snp_new_reads_past_end :
    (∀ p, ¬ PBRSNP <+: p → snp_new p = .ok none) ∧
    (∀ id name rest, (∀ c ∈ id, c ≠ 0 ∧ c ≠ 44) → (∀ c ∈ name, c ≠ 0 ∧ c ≠ 44) →
      isdigit (deref rest) = false →
      snp_new (PBRSNP ++ id ++ [44] ++ name ++ [44] ++ rest) = .ok none) ∧
    (∀ id name digits rest, (∀ c ∈ id, c ≠ 0 ∧ c ≠ 44) → (∀ c ∈ name, c ≠ 0 ∧ c ≠ 44) →
      is_numeral digits → numeral_fits digits → isdigit (deref rest) = false →
      deref rest ≠ 44 →
      snp_new (PBRSNP ++ id ++ [44] ++ name ++ [44] ++ digits ++ rest) = .ok none) ∧
    (∀ id, (∀ c ∈ id, c ≠ 0 ∧ c ≠ 44) →
      snp_new (PBRSNP ++ id) = .error .undefined_behaviour) ∧
    (∀ id name, (∀ c ∈ id, c ≠ 0 ∧ c ≠ 44) → (∀ c ∈ name, c ≠ 0 ∧ c ≠ 44) →
      snp_new (PBRSNP ++ id ++ [44] ++ name) = .error .undefined_behaviour) ∧
    snp_new (bytes "PBRSNP,5020") = .error .undefined_behaviour ∧
    snp_new (bytes "PBRSNP,5020" ++ [0] ++ bytes "A,7,v") =
      .ok (some
        { instrument_id := bytes "5020", pilot_name := bytes "A", serial_number := 7,
          software_version := bytes "v" }) := by
  refine ⟨?_, ?_, ?_, ?_, ?_, by decide, by decide⟩
  · intro p hp
    have h1 := match_literal_null p PBRSNP PBRSNP_ne_zero hp
    unfold snp_new
    simp only [h1]
    rfl
  · intro id name rest hid hname hrest
    have e : PBRSNP ++ id ++ [44] ++ name ++ [44] ++ rest =
        PBRSNP ++ (id ++ 44 :: (name ++ 44 :: rest)) := by simp
    have h1 : match_literal (.ptr (PBRSNP ++ (id ++ 44 :: (name ++ 44 :: rest)))) PBRSNP =
        .ptr (id ++ 44 :: (name ++ 44 :: rest)) :=
      match_literal_loop_append PBRSNP _ PBRSNP_ne_zero
    have h2 := match_string_until_found id (name ++ 44 :: rest) 44 true hid
    have h3 := match_string_until_found name rest 44 true hname
    have h4 : match_unsigned (.ptr rest) 0 = (.null, 0) := by
      unfold match_unsigned
      simp [hrest]
    rw [e]
    unfold snp_new
    simp only [h1, h2, h3, h4, if_true]
    rfl
  · intro id name digits rest hid hname hdigits hfit hrest h44
    have e : PBRSNP ++ id ++ [44] ++ name ++ [44] ++ digits ++ rest =
        PBRSNP ++ (id ++ 44 :: (name ++ 44 :: (digits ++ rest))) := by simp
    have h1 : match_literal (.ptr (PBRSNP ++ (id ++ 44 :: (name ++ 44 :: (digits ++ rest)))))
        PBRSNP = .ptr (id ++ 44 :: (name ++ 44 :: (digits ++ rest))) :=
      match_literal_loop_append PBRSNP _ PBRSNP_ne_zero
    have h2 := match_string_until_found id (name ++ 44 :: (digits ++ rest)) 44 true hid
    have h3 := match_string_until_found name (digits ++ rest) 44 true hname
    have h4 := match_unsigned_digits digits rest 0 hdigits hfit hrest
    have h5 := match_char_ne rest 44 h44
    rw [e]
    unfold snp_new
    simp only [h1, h2, h3, h4, h5, if_true]
    rfl
  · intro id hid
    have h1 : match_literal (.ptr (PBRSNP ++ id)) PBRSNP = .ptr id :=
      match_literal_loop_append PBRSNP _ PBRSNP_ne_zero
    have h2 := match_string_until_end id 44 true hid
    unfold snp_new
    simp only [h1, h2, if_true]
    rfl
  · intro id name hid hname
    have e : PBRSNP ++ id ++ [44] ++ name = PBRSNP ++ (id ++ 44 :: name) := by simp
    have h1 : match_literal (.ptr (PBRSNP ++ (id ++ 44 :: name))) PBRSNP =
        .ptr (id ++ 44 :: name) :=
      match_literal_loop_append PBRSNP _ PBRSNP_ne_zero
    have h2 := match_string_until_found id name 44 true hid
    have h3 := match_string_until_end name 44 true hname
    rw [e]
    unfold snp_new
    simp only [h1, h2, h3, if_true]
    rfl

/-! ## Theorems: chains of matchers and the track descriptor -/

theorem track_new_eq_chain (mktime : tm → Int) (p : List Nat) :
    track_new mktime p =
      match match_eos (match_chain track_chain (.ptr p)).1 with
      | .undefined => .error .undefined_behaviour
      | .null => .ok none
      | .ptr _ =>
        let v := (match_chain track_chain (.ptr p)).2
        let t : tm :=
          { tm_sec := v.getD 7 0, tm_min := v.getD 6 0, tm_hour := v.getD 5 0,
            tm_mday := v.getD 2 0, tm_mon := v.getD 3 0 - 1,
            tm_year := v.getD 4 0 + (2000 - 1900) }
        if t.tm_mon < 0 ∨ t.tm_year > INT_MAX ∨ DATE_NEW t > INT_MAX then
          .error .undefined_behaviour
        else if mktime t = -1 then
          .error .die_mktime
        else if 3600 * v.getD 8 0 + 60 * v.getD 9 0 + v.getD 10 0 > INT_MAX then
          .error .undefined_behaviour
        else
          .ok (some
            { count := v.getD 0 0, index := v.getD 1 0, date := DATE_NEW t, day_index := 0,
              time := mktime t,
              duration := 3600 * v.getD 8 0 + 60 * v.getD 9 0 + v.getD 10 0,
              igc_filename := none }) := rfl

theorem match_chain_null (chain : List matcher) :
    (match_chain chain .null).1 = .null := by
  induction chain with
  | nil => rfl
  | cons m chain ih =>
    cases m with
    | literal s => exact ih
    | char c => exact ih
    | unsigned => exact ih

theorem match_chain_undefined (chain : List matcher) :
    (match_chain chain .undefined).1 = .undefined := by
  induction chain with
  | nil => rfl
  | cons m chain ih =>
    cases m with
    | literal s => exact ih
    | char c => exact ih
    | unsigned => exact ih

theorem match_char_eq (p : List Nat) (c : Nat) :
    match_char (.ptr (c :: p)) c = .ptr p := by
  show (if deref (c :: p) = c then advance (c :: p) else cursor.null) = cursor.ptr p
  have hd : deref (c :: p) = c := rfl
  rw [if_pos hd]
  rfl

theorem match_char_ptr (p q : List Nat) (c : Nat) (hc : c ≠ 0)
    (h : match_char (.ptr p) c = .ptr q) : p = c :: q := by
  have h2 : (if deref p = c then advance p else cursor.null) = cursor.ptr q := h
  by_cases hd : deref p = c
  · rw [if_pos hd] at h2
    have hp := deref_cons_tail p (by rw [hd]; exact hc)
    rw [hp] at h2
    simp only [advance, cursor.ptr.injEq] at h2
    rw [hp, hd, h2]
  · rw [if_neg hd] at h2
    cases h2

theorem match_char_ne_undefined (p : List Nat) (c : Nat) (hc : c ≠ 0) :
    match_char (.ptr p) c ≠ .undefined := by
  intro h
  have h2 : (if deref p = c then advance p else cursor.null) = cursor.undefined := h
  by_cases hd : deref p = c
  · rw [if_pos hd] at h2
    have hp := deref_cons_tail p (by rw [hd]; exact hc)
    rw [hp] at h2
    cases h2
  · rw [if_neg hd] at h2
    cases h2

/-- A chain of matchers on the text that it is made for. -/
theorem match_chain_text (q : List Nat) (chain : List matcher) :
    ∀ numerals, chain_wf chain numerals q →
      match_chain chain (.ptr (chain_text chain numerals ++ q)) =
        (.ptr q, numerals.map numeral_value) := by
  induction chain with
  | nil =>
    intro numerals h
    have h2 : numerals = [] := h
    rw [h2]
    rfl
  | cons m chain ih =>
    intro numerals h
    cases m with
    | literal s =>
      obtain ⟨hs, h2⟩ := h
      have e : match_literal (.ptr (chain_text (.literal s :: chain) numerals ++ q)) s =
          .ptr (chain_text chain numerals ++ q) := by
        show match_literal_loop ((s ++ chain_text chain numerals) ++ q) s = _
        rw [List.append_assoc]
        exact match_literal_loop_append s _ hs
      show match_chain chain (match_literal _ s) = _
      rw [e]
      exact ih numerals h2
    | char c =>
      obtain ⟨hc, h2⟩ := h
      show match_chain chain (match_char (.ptr (c :: (chain_text chain numerals ++ q))) c) = _
      rw [match_char_eq _ c]
      exact ih numerals h2
    | unsigned =>
      cases numerals with
      | nil => exact absurd h id
      | cons numeral numerals =>
        obtain ⟨hn, hf, hq, h2⟩ := h
        have e : match_unsigned (.ptr (chain_text (.unsigned :: chain) (numeral :: numerals) ++ q))
            0 = (.ptr (chain_text chain numerals ++ q), numeral_value numeral) := by
          show match_unsigned (.ptr ((numeral ++ chain_text chain numerals) ++ q)) 0 = _
          rw [List.append_assoc]
          exact match_unsigned_digits numeral _ 0 hn hf hq
        show ((match_chain chain (match_unsigned _ 0).1).1,
          (match_unsigned _ 0).2 :: (match_chain chain (match_unsigned _ 0).1).2) = _
        rw [e]
        dsimp only
        rw [ih numerals h2]
        rfl

/-- What a chain of matchers has read when it ends with a pointer. -/
theorem match_chain_ptr (q : List Nat) (chain : List matcher) :
    ∀ (p : List Nat) (values : List Int), chain_literals_ok chain →
      match_chain chain (.ptr p) = (.ptr q, values) →
      ∃ numerals, chain_wf chain numerals q ∧ p = chain_text chain numerals ++ q ∧
        values = numerals.map numeral_value := by
  induction chain with
  | nil =>
    intro p values _ h
    simp only [match_chain, Prod.mk.injEq, cursor.ptr.injEq] at h
    exact ⟨[], rfl, by rw [h.1]; rfl, by rw [← h.2]; rfl⟩
  | cons m chain ih =>
    intro p values hok h
    cases m with
    | literal s =>
      obtain ⟨hs, hok2⟩ := hok
      have h2 : match_chain chain (match_literal_loop p s) = (.ptr q, values) := h
      cases hl : match_literal_loop p s with
      | null =>
        rw [hl] at h2
        have := match_chain_null chain
        rw [h2] at this
        cases this
      | undefined => exact absurd hl (match_literal_loop_ne_undefined s p)
      | ptr p2 =>
        rw [hl] at h2
        obtain ⟨numerals, h3, h4, h5⟩ := ih p2 values hok2 h2
        refine ⟨numerals, ⟨hs, h3⟩, ?_, h5⟩
        rw [match_literal_loop_ptr s hs p p2 hl, h4]
        show _ = (s ++ chain_text chain numerals) ++ q
        rw [List.append_assoc]
    | char c =>
      obtain ⟨hc, hok2⟩ := hok
      have h2 : match_chain chain (match_char (.ptr p) c) = (.ptr q, values) := h
      cases hl : match_char (.ptr p) c with
      | null =>
        rw [hl] at h2
        have := match_chain_null chain
        rw [h2] at this
        cases this
      | undefined => exact absurd hl (match_char_ne_undefined p c hc)
      | ptr p2 =>
        rw [hl] at h2
        obtain ⟨numerals, h3, h4, h5⟩ := ih p2 values hok2 h2
        refine ⟨numerals, ⟨hc, h3⟩, ?_, h5⟩
        rw [match_char_ptr p p2 c hc hl, h4]
        rfl
    | unsigned =>
      have hok2 : chain_literals_ok chain := hok
      have h2 : ((match_chain chain (match_unsigned (.ptr p) 0).1).1,
          (match_unsigned (.ptr p) 0).2 :: (match_chain chain (match_unsigned (.ptr p) 0).1).2)
          = (.ptr q, values) := h
      cases hm : match_unsigned (.ptr p) 0 with
      | mk c v =>
        rw [hm] at h2
        simp only [Prod.mk.injEq] at h2
        obtain ⟨h3, h4⟩ := h2
        cases c with
        | null =>
          rw [match_chain_null] at h3
          cases h3
        | undefined =>
          rw [match_chain_undefined] at h3
          cases h3
        | ptr p2 =>
          obtain ⟨ds, hn, hf, hp, hv, hd⟩ := match_unsigned_ptr _ _ _ _ hm
          obtain ⟨numerals, h5, h6, h7⟩ := ih p2 (match_chain chain (.ptr p2)).2 hok2
            (Prod.ext h3 rfl)
          refine ⟨ds :: numerals, ⟨hn, hf, by rw [← h6]; exact hd, h5⟩, ?_, ?_⟩
          · rw [hp, h6]
            show _ = (ds ++ chain_text chain numerals) ++ q
            rw [List.append_assoc]
          · rw [← h4, h7, hv]
            rfl

/-- A chain of matchers leaves defined behaviour only by the overflow of a numeral of the
text that does not fit. -/
theorem match_chain_overflow (chain : List matcher) :
    ∀ (p : List Nat), chain_literals_ok chain →
      (match_chain chain (.ptr p)).1 = .undefined →
      ∃ before ds after, p = before ++ ds ++ after ∧ is_numeral ds ∧ ¬ numeral_fits ds := by
  induction chain with
  | nil =>
    intro p _ h
    cases h
  | cons m chain ih =>
    intro p hok h
    cases m with
    | literal s =>
      obtain ⟨hs, hok2⟩ := hok
      have h2 : (match_chain chain (match_literal_loop p s)).1 = .undefined := h
      cases hl : match_literal_loop p s with
      | null =>
        rw [hl, match_chain_null] at h2
        cases h2
      | undefined => exact absurd hl (match_literal_loop_ne_undefined s p)
      | ptr p2 =>
        rw [hl] at h2
        obtain ⟨b, ds, a, h3, h4, h5⟩ := ih p2 hok2 h2
        refine ⟨s ++ b, ds, a, ?_, h4, h5⟩
        rw [match_literal_loop_ptr s hs p p2 hl, h3]
        simp
    | char c =>
      obtain ⟨hc, hok2⟩ := hok
      have h2 : (match_chain chain (match_char (.ptr p) c)).1 = .undefined := h
      cases hl : match_char (.ptr p) c with
      | null =>
        rw [hl, match_chain_null] at h2
        cases h2
      | undefined => exact absurd hl (match_char_ne_undefined p c hc)
      | ptr p2 =>
        rw [hl] at h2
        obtain ⟨b, ds, a, h3, h4, h5⟩ := ih p2 hok2 h2
        refine ⟨c :: b, ds, a, ?_, h4, h5⟩
        rw [match_char_ptr p p2 c hc hl, h3]
        simp
    | unsigned =>
      have hok2 : chain_literals_ok chain := hok
      have h2 : (match_chain chain (match_unsigned (.ptr p) 0).1).1 = .undefined := h
      cases hm : match_unsigned (.ptr p) 0 with
      | mk c v =>
        rw [hm] at h2
        cases c with
        | null =>
          rw [match_chain_null] at h2
          cases h2
        | undefined =>
          obtain ⟨ds, after, hn, hf, hp⟩ := match_unsigned_undefined _ _ _ hm
          exact ⟨[], ds, after, by rw [hp]; rfl, hn, hf⟩
        | ptr p2 =>
          obtain ⟨ds, hn, hf, hp, hv, hd⟩ := match_unsigned_ptr _ _ _ _ hm
          obtain ⟨b, ds2, a, h3, h4, h5⟩ := ih p2 hok2 h2
          refine ⟨ds ++ b, ds2, a, ?_, h4, h5⟩
          rw [hp, h3]
          simp

theorem track_chain_ok : chain_literals_ok track_chain := by
  simp only [track_chain, chain_literals_ok]
  decide

theorem track_payload_eq_chain (c i dd mm yy h m s dh dm ds : List Nat) :
    track_payload c i dd mm yy h m s dh dm ds =
      chain_text track_chain [c, i, dd, mm, yy, h, m, s, dh, dm, ds] := by
  simp [track_payload, track_chain, chain_text]

theorem track_chain_wf (c i dd mm yy h m s dh dm ds : List Nat)
    (hn : ∀ field ∈ [c, i, dd, mm, yy, h, m, s, dh, dm, ds],
      is_numeral field ∧ numeral_fits field) :
    chain_wf track_chain [c, i, dd, mm, yy, h, m, s, dh, dm, ds] [] := by
  have hc := hn c (by simp)
  have hi := hn i (by simp)
  have hdd := hn dd (by simp)
  have hmm := hn mm (by simp)
  have hyy := hn yy (by simp)
  have hh := hn h (by simp)
  have hm := hn m (by simp)
  have hs := hn s (by simp)
  have hdh := hn dh (by simp)
  have hdm := hn dm (by simp)
  have hds := hn ds (by simp)
  simp only [track_chain, chain_wf, chain_text]
  refine ⟨by decide, hc.1, hc.2, rfl, by decide, hi.1, hi.2, rfl, by decide,
    hdd.1, hdd.2, rfl, by decide, hmm.1, hmm.2, rfl, by decide, hyy.1, hyy.2, rfl, by decide,
    hh.1, hh.2, rfl, by decide, hm.1, hm.2, rfl, by decide, hs.1, hs.2, rfl, by decide,
    hdh.1, hdh.2, rfl, by decide, hdm.1, hdm.2, rfl, by decide, hds.1, hds.2, rfl, trivial⟩

theorem track_chain_numerals (numerals : List (List Nat)) (q : List Nat)
    (h : chain_wf track_chain numerals q) :
    ∃ c i dd mm yy h m s dh dm ds : List Nat,
      numerals = [c, i, dd, mm, yy, h, m, s, dh, dm, ds] ∧
      ∀ field ∈ [c, i, dd, mm, yy, h, m, s, dh, dm, ds],
        is_numeral field ∧ numeral_fits field := by
  rcases numerals with _ | ⟨c, _ | ⟨i, _ | ⟨dd, _ | ⟨mm, _ | ⟨yy, _ | ⟨h1, _ | ⟨m, _ | ⟨s,
    _ | ⟨dh, _ | ⟨dm, _ | ⟨ds, rest⟩⟩⟩⟩⟩⟩⟩⟩⟩⟩⟩
  all_goals simp only [track_chain, chain_wf, and_false, false_and] at h
  obtain ⟨_, hc1, hc2, _, _, hi1, hi2, _, _, hdd1, hdd2, _, _, hmm1, hmm2, _, _, hyy1, hyy2, _,
    _, hh1, hh2, _, _, hm1, hm2, _, _, hs1, hs2, _, _, hdh1, hdh2, _, _, hdm1, hdm2, _, _,
    hds1, hds2, _, hrest⟩ := h
  refine ⟨c, i, dd, mm, yy, h1, m, s, dh, dm, ds, by rw [hrest], ?_⟩
  intro field hf
  simp only [List.mem_cons, List.mem_singleton, List.not_mem_nil, or_false] at hf
  rcases hf with rfl | rfl | rfl | rfl | rfl | rfl | rfl | rfl | rfl | rfl | rfl
  · exact ⟨hc1, hc2⟩
  · exact ⟨hi1, hi2⟩
  · exact ⟨hdd1, hdd2⟩
  · exact ⟨hmm1, hmm2⟩
  · exact ⟨hyy1, hyy2⟩
  · exact ⟨hh1, hh2⟩
  · exact ⟨hm1, hm2⟩
  · exact ⟨hs1, hs2⟩
  · exact ⟨hdh1, hdh2⟩
  · exact ⟨hdm1, hdm2⟩
  · exact ⟨hds1, hds2⟩

theorem match_eos_of_ptr (c : cursor) (q : List Nat) (h : match_eos c = .ptr q) :
    c = .ptr q ∧ deref q = 0 := by
  cases c with
  | null => cases h
  | undefined => cases h
  | ptr p =>
    have h2 : (if deref p ≠ 0 then cursor.null else cursor.ptr p) = cursor.ptr q := h
    by_cases hd : deref p ≠ 0
    · rw [if_pos hd] at h2
      cases h2
    · rw [if_neg hd] at h2
      cases h2
      exact ⟨rfl, not_not.mp hd⟩

theorem match_eos_undefined (c : cursor) (h : match_eos c = .undefined) : c = .undefined := by
  cases c with
  | null => cases h
  | undefined => rfl
  | ptr p =>
    have h2 : (if deref p ≠ 0 then cursor.null else cursor.ptr p) = cursor.undefined := h
    by_cases hd : deref p ≠ 0
    · rw [if_pos hd] at h2
      cases h2
    · rw [if_neg hd] at h2
      cases h2

theorem nil_of_deref_zero (p q before : List Nat) (hp : ∀ c ∈ p, c ≠ 0) (h : p = before ++ q)
    (hq : deref q = 0) : q = [] := by
  cases q with
  | nil => rfl
  | cons c q =>
    have hc : c = 0 := hq
    exact absurd hc (hp c (by rw [h]; simp))

/-- A text on which `track_new` returns a descriptor is a payload of a track descriptor. -/
theorem track_new_some (mktime : tm → Int) (p : List Nat) (t : track_t)
    (hp : ∀ c ∈ p, c ≠ 0) (h : track_new mktime p = .ok (some t)) : is_track_payload p := by
  rw [track_new_eq_chain] at h
  cases he : match_eos (match_chain track_chain (.ptr p)).1 with
  | null => rw [he] at h; cases h
  | undefined => rw [he] at h; cases h
  | ptr q =>
    obtain ⟨h1, h2⟩ := match_eos_of_ptr _ _ he
    obtain ⟨numerals, h3, h4, _⟩ := match_chain_ptr q track_chain p _ track_chain_ok
      (Prod.ext h1 rfl)
    obtain ⟨c, i, dd, mm, yy, h5, m, s, dh, dm, ds, h6, h7⟩ := track_chain_numerals numerals q h3
    have hq := nil_of_deref_zero p q _ hp h4 h2
    rw [hq, List.append_nil, h6, ← track_payload_eq_chain] at h4
    exact ⟨c, i, dd, mm, yy, h5, m, s, dh, dm, ds, fun f hf => (h7 f hf).1, h4⟩

/-- On a text that is not a payload of a track descriptor `track_new` returns 0, unless a
numeral of the text overflows. -/
theorem track_new_none (mktime : tm → Int) (p : List Nat) (hp : ∀ c ∈ p, c ≠ 0)
    (hfit : numerals_fit_in p) (hnot : ¬ is_track_payload p) :
    track_new mktime p = .ok none := by
  rw [track_new_eq_chain]
  cases he : match_eos (match_chain track_chain (.ptr p)).1 with
  | null => rfl
  | undefined =>
    have h1 := match_eos_undefined _ he
    obtain ⟨b, ds, a, h2, h3, h4⟩ := match_chain_overflow track_chain p track_chain_ok h1
    exact absurd (hfit b ds a h2 h3) h4
  | ptr q =>
    exfalso
    apply hnot
    obtain ⟨h1, h2⟩ := match_eos_of_ptr _ _ he
    obtain ⟨numerals, h3, h4, _⟩ := match_chain_ptr q track_chain p _ track_chain_ok
      (Prod.ext h1 rfl)
    obtain ⟨c, i, dd, mm, yy, h5, m, s, dh, dm, ds, h6, h7⟩ := track_chain_numerals numerals q h3
    have hq := nil_of_deref_zero p q _ hp h4 h2
    rw [hq, List.append_nil, h6, ← track_payload_eq_chain] at h4
    exact ⟨c, i, dd, mm, yy, h5, m, s, dh, dm, ds, fun f hf => (h7 f hf).1, h4⟩

/-- On a payload of a track descriptor the matchers of `track_new` reach the end of the
text. -/
theorem track_new_payload_chain (c i dd mm yy h m s dh dm ds : List Nat)
    (hn : ∀ field ∈ [c, i, dd, mm, yy, h, m, s, dh, dm, ds],
      is_numeral field ∧ numeral_fits field) :
    match_chain track_chain (.ptr (track_payload c i dd mm yy h m s dh dm ds)) =
      (.ptr [], [numeral_value c, numeral_value i, numeral_value dd, numeral_value mm,
        numeral_value yy, numeral_value h, numeral_value m, numeral_value s,
        numeral_value dh, numeral_value dm, numeral_value ds]) := by
  have := match_chain_text [] track_chain _ (track_chain_wf c i dd mm yy h m s dh dm ds hn)
  rw [List.append_nil, ← track_payload_eq_chain] at this
  rw [this]
  rfl

theorem chain_text_infix (chain : List matcher) :
    ∀ (numerals : List (List Nat)) (n : List Nat), n ∈ numerals →
      numerals.length ≤ chain.count .unsigned →
      ∃ before after, chain_text chain numerals = before ++ n ++ after := by
  induction chain with
  | nil =>
    intro numerals n hn hlen
    cases numerals with
    | nil => simp at hn
    | cons a rest => simp at hlen
  | cons m chain ih =>
    intro numerals n hn hlen
    cases m with
    | literal s =>
      rw [List.count_cons_of_ne (by simp)] at hlen
      obtain ⟨b, a, h⟩ := ih numerals n hn hlen
      exact ⟨s ++ b, a, by simp [chain_text, h]⟩
    | char c =>
      rw [List.count_cons_of_ne (by simp)] at hlen
      obtain ⟨b, a, h⟩ := ih numerals n hn hlen
      exact ⟨c :: b, a, by simp [chain_text, h]⟩
    | unsigned =>
      cases numerals with
      | nil => simp at hn
      | cons n0 rest =>
        rw [List.count_cons_self, List.length_cons] at hlen
        rcases List.mem_cons.mp hn with rfl | hn
        · exact ⟨[], chain_text chain rest, by simp [chain_text]⟩
        · obtain ⟨b, a, h⟩ := ih rest n hn (by omega)
          exact ⟨n0 ++ b, a, by simp [chain_text, h]⟩

/-- On a payload of a track descriptor `track_new` does not return 0. -/
theorem track_new_payload_ne_none (mktime : tm → Int) (p : List Nat)
    (hfit : numerals_fit_in p) (h : is_track_payload p) : track_new mktime p ≠ .ok none := by
  obtain ⟨c, i, dd, mm, yy, h1, m, s, dh, dm, ds, hn, hp⟩ := h
  have hn2 : ∀ field ∈ [c, i, dd, mm, yy, h1, m, s, dh, dm, ds],
      is_numeral field ∧ numeral_fits field := by
    intro f hf
    refine ⟨hn f hf, ?_⟩
    obtain ⟨b, a, hba⟩ := chain_text_infix track_chain _ f hf
      (by show 11 ≤ List.count matcher.unsigned track_chain; decide)
    rw [← track_payload_eq_chain, ← hp] at hba
    exact hfit b f a hba (hn f hf)
  rw [hp, track_new_eq_chain, track_new_payload_chain c i dd mm yy h1 m s dh dm ds hn2]
  have he : match_eos (.ptr []) = .ptr [] := rfl
  simp only [he]
  split_ifs <;> simp

/-- Counterexample to claim C15 as stated: the payload `PBRTL,1,0,32.01.07,10:00:00,01:00:00`
has the form of the claim, and `track_new` decodes it, but the day read back by `DATE_MDAY`
is 0 and the month read back by `DATE_MON + 1` is 2, not 32 and 1. -/
theorem track_new_day_not_read_back :
    is_track_payload (bytes "PBRTL,1,0,32.01.07,10:00:00,01:00:00") ∧
    track_new mktime_zero (bytes "PBRTL,1,0,32.01.07,10:00:00,01:00:00") =
      .ok (some ⟨1, 0, 54816, 0, 0, 3600, none⟩) ∧
    DATE_MDAY 54816 = 0 ∧ DATE_MON 54816 + 1 = 2 ∧ DATE_YEAR 54816 + 1900 = 2007 := by
  refine ⟨⟨bytes "1", bytes "0", bytes "32", bytes "01", bytes "07", bytes "10", bytes "00",
    bytes "00", bytes "01", bytes "00", bytes "00", by decide, by decide⟩, ?_, ?_, ?_, ?_⟩
    <;> decide

/-- Claim C15 as amended: for every payload
`PBRTL,` c `,` i `,` dd `.` mm `.` yy `,` h `:` m `:` s `,` dh `:` dm `:` ds whose fields are
decimal numerals that do not overflow `int`, with mm between 1 and 16, dd at most 31, yy at
most 4194203 (the packed date fits `int`), a duration that fits `int` and a time that
`mktime` accepts, `track_new` succeeds, and the descriptor has count c, index i, the date
that `DATE_YEAR + 1900`, `DATE_MON + 1` and `DATE_MDAY` read back as 2000 + yy, mm and dd,
and the duration 3600 dh + 60 dm + ds.  A text on which `track_new` returns a descriptor is
such a payload, and on every other text without an overflowing numeral it returns 0. -/
theorem track_new_spec (mktime : tm → Int) :
    (∀ c i dd mm yy h m s dh dm ds : List Nat,
      (∀ field ∈ [c, i, dd, mm, yy, h, m, s, dh, dm, ds],
        is_numeral field ∧ numeral_fits field) →
      1 ≤ numeral_value mm → numeral_value mm ≤ 16 → numeral_value dd ≤ 31 →
      numeral_value yy ≤ 4194203 →
      3600 * numeral_value dh + 60 * numeral_value dm + numeral_value ds ≤ INT_MAX →
      mktime ⟨numeral_value s, numeral_value m, numeral_value h, numeral_value dd,
        numeral_value mm - 1, numeral_value yy + (2000 - 1900)⟩ ≠ -1 →
      ∃ t, track_new mktime (track_payload c i dd mm yy h m s dh dm ds) = .ok (some t) ∧
        t.count = numeral_value c ∧ t.index = numeral_value i ∧
        DATE_YEAR t.date + 1900 = 2000 + numeral_value yy ∧
        DATE_MON t.date + 1 = numeral_value mm ∧
        DATE_MDAY t.date = numeral_value dd ∧
        t.duration = 3600 * numeral_value dh + 60 * numeral_value dm + numeral_value ds ∧
        t.time = mktime ⟨numeral_value s, numeral_value m, numeral_value h, numeral_value dd,
          numeral_value mm - 1, numeral_value yy + (2000 - 1900)⟩) ∧
    (∀ p t, (∀ c ∈ p, c ≠ 0) → track_new mktime p = .ok (some t) → is_track_payload p) ∧
    (∀ p, (∀ c ∈ p, c ≠ 0) → numerals_fit_in p → ¬ is_track_payload p →
      track_new mktime p = .ok none) := by
  refine ⟨?_, fun p t hp h => track_new_some mktime p t hp h,
    fun p hp hfit hnot => track_new_none mktime p hp hfit hnot⟩
  intro c i dd mm yy h m s dh dm ds hn hmm1 hmm2 hdd hyy hdur hmk
  have hdd0 := numeral_value_nonneg dd (hn dd (by simp)).1
  have hyy0 := numeral_value_nonneg yy (hn yy (by simp)).1
  have he : match_eos (.ptr []) = .ptr [] := rfl
  have hdate : (numeral_value yy + (2000 - 1900)) * 2 ^ 9 + (numeral_value mm - 1) * 2 ^ 5
      + numeral_value dd ≤ INT_MAX := by
    unfold INT_MAX
    norm_num
    omega
  have hub : ¬ (numeral_value mm - 1 < 0 ∨ numeral_value yy + (2000 - 1900) > INT_MAX ∨
      DATE_NEW ⟨numeral_value s, numeral_value m, numeral_value h, numeral_value dd,
        numeral_value mm - 1, numeral_value yy + (2000 - 1900)⟩ > INT_MAX) := by
    unfold DATE_NEW
    dsimp only
    unfold INT_MAX at hdate ⊢
    omega
  rw [track_new_eq_chain, track_new_payload_chain c i dd mm yy h m s dh dm ds hn]
  simp only [he, List.getD_cons_zero, List.getD_cons_succ]
  rw [if_neg hub, if_neg hmk, if_neg (not_lt.mpr hdur)]
  refine ⟨_, rfl, rfl, rfl, ?_, ?_, ?_, rfl, rfl⟩
  · unfold DATE_YEAR DATE_NEW
    dsimp only
    norm_num
    omega
  · unfold DATE_MON DATE_NEW
    dsimp only
    norm_num
    omega
  · unfold DATE_MDAY DATE_NEW
    dsimp only
    norm_num
    omega

theorem track_new_spec_witness :
    (∃ t, track_new mktime_zero
        (track_payload (bytes "3") (bytes "0") (bytes "05") (bytes "06") (bytes "07")
          (bytes "10") (bytes "00") (bytes "00") (bytes "01") (bytes "00") (bytes "00")) =
        .ok (some t) ∧
      t.count = numeral_value (bytes "3") ∧ t.index = numeral_value (bytes "0") ∧
      DATE_YEAR t.date + 1900 = 2000 + numeral_value (bytes "07") ∧
      DATE_MON t.date + 1 = numeral_value (bytes "06") ∧
      DATE_MDAY t.date = numeral_value (bytes "05") ∧
      t.duration = 3600 * numeral_value (bytes "01") + 60 * numeral_value (bytes "00")
        + numeral_value (bytes "00") ∧
      t.time = mktime_zero ⟨numeral_value (bytes "00"), numeral_value (bytes "00"),
        numeral_value (bytes "10"), numeral_value (bytes "05"),
        numeral_value (bytes "06") - 1, numeral_value (bytes "07") + (2000 - 1900)⟩) ∧
    track_new mktime_zero (bytes "PBRTL,1,") = .ok none :=
  ⟨(track_new_spec mktime_zero).1 (bytes "3") (bytes "0") (bytes "05") (bytes "06")
      (bytes "07") (bytes "10") (bytes "00") (bytes "00") (bytes "01") (bytes "00")
      (bytes "00") (by decide) (by decide) (by decide) (by decide) (by decide) (by decide)
      (by decide),
   (track_new_spec mktime_zero).2.2 (bytes "PBRTL,1,") (by decide)
      (numerals_fit_in_short _ (by decide))
      (fun h => track_new_payload_ne_none mktime_zero (bytes "PBRTL,1,")
        (numerals_fit_in_short _ (by decide)) h (by decide))⟩

/-! ## Theorems: IGC records -/

theorem numeral_value_two (a b : Nat) :
    numeral_value [a, b] = 10 * ((a : Int) - 48) + ((b : Int) - 48) := by
  unfold numeral_value
  simp only [List.foldl_cons, List.foldl_nil]
  ring

/-- The function `match_n_digits` with `n = 2`: it reads two digits, or it returns 0. -/
theorem match_n_digits_two_cases (p : List Nat) (r : Int) :
    (∃ ds q, is_two_digits ds ∧ p = ds ++ q ∧
      match_n_digits (.ptr p) 2 r = (.ptr q, numeral_value ds)) ∨
    (match_n_digits (.ptr p) 2 r).1 = .null := by
  show _ ∨ (match_n_digits_loop 2 p 0).1 = .null
  by_cases h1 : 48 ≤ deref p ∧ deref p ≤ 57
  · have hp := deref_cons_tail p (by omega)
    have e1 : match_n_digits_loop 2 p 0 =
        match_n_digits_loop 1 p.tail (10 * 0 + (deref p : Int) - 48) := by
      rw [match_n_digits_loop, if_pos h1, if_neg (by unfold INT_MAX; omega)]
    by_cases h2 : 48 ≤ deref p.tail ∧ deref p.tail ≤ 57
    · have hp2 := deref_cons_tail p.tail (by omega)
      have e2 : match_n_digits_loop 1 p.tail (10 * 0 + (deref p : Int) - 48) =
          (.ptr p.tail.tail,
            10 * (10 * 0 + (deref p : Int) - 48) + (deref p.tail : Int) - 48) := by
        rw [match_n_digits_loop, if_pos h2, if_neg (by unfold INT_MAX; omega)]
        rfl
      left
      refine ⟨[deref p, deref p.tail], p.tail.tail, ⟨rfl, ?_⟩, ?_, ?_⟩
      · intro c hc
        simp only [List.mem_cons, List.mem_singleton, List.not_mem_nil, or_false] at hc
        rcases hc with rfl | rfl
        · exact h1
        · exact h2
      · show p = deref p :: deref p.tail :: p.tail.tail
        rw [← hp2, ← hp]
      · show match_n_digits_loop 2 p 0 = _
        rw [e1, e2, numeral_value_two]
        congr 1
        ring
    · right
      rw [e1, match_n_digits_loop, if_neg h2]
  · right
    rw [match_n_digits_loop, if_neg h1]

theorem match_n_digits_two (ds q : List Nat) (r : Int) (h : is_two_digits ds) :
    match_n_digits (.ptr (ds ++ q)) 2 r = (.ptr q, numeral_value ds) := by
  obtain ⟨hlen, hd⟩ := h
  rcases ds with _ | ⟨a, _ | ⟨b, _ | ⟨c, rest⟩⟩⟩
  · simp at hlen
  · simp at hlen
  · have ha := hd a (by simp)
    have hb := hd b (by simp)
    show match_n_digits_loop 2 (a :: b :: q) 0 = _
    have hda : deref (a :: b :: q) = a := rfl
    have hdb : deref (b :: q) = b := rfl
    rw [match_n_digits_loop, hda, if_pos ha, if_neg (by unfold INT_MAX; omega)]
    rw [List.tail_cons, match_n_digits_loop, hdb, if_pos hb,
      if_neg (by unfold INT_MAX; omega), numeral_value_two]
    show (cursor.ptr q, _) = _
    congr 1
    ring
  · simp at hlen

theorem dropWhile_until_split (p : List Nat) (c : Nat) :
    ∃ content, (∀ b ∈ content, b ≠ 0 ∧ b ≠ c) ∧
      p = content ++ p.dropWhile (fun b => b ≠ 0 ∧ b ≠ c) := by
  refine ⟨p.takeWhile (fun b => b ≠ 0 ∧ b ≠ c), ?_, (List.takeWhile_append_dropWhile _ p).symm⟩
  intro b hb
  have := List.mem_takeWhile_imp hb
  simpa using this

/-- The function `match_until_eol`: it reads content without CR and then CR LF, or it
returns 0. -/
theorem match_until_eol_cases (p : List Nat) :
    (∃ content q, (∀ b ∈ content, b ≠ 0 ∧ b ≠ 13) ∧ p = content ++ 13 :: 10 :: q ∧
      match_until_eol (.ptr p) = .ptr q) ∨
    match_until_eol (.ptr p) = .null := by
  obtain ⟨content, hc, hp⟩ := dropWhile_until_split p 13
  unfold match_until_eol
  dsimp only
  generalize p.dropWhile (fun b => b ≠ 0 ∧ b ≠ 13) = stop at hp
  by_cases h1 : deref stop ≠ 13
  · right
    rw [if_pos h1]
  · rw [if_neg h1]
    have h13 : deref stop = 13 := not_not.mp h1
    have hs := deref_cons_tail stop (by rw [h13]; decide)
    by_cases h2 : deref stop.tail = 10
    · left
      have hs2 := deref_cons_tail stop.tail (by rw [h2]; decide)
      rw [if_pos h2]
      refine ⟨content, stop.tail.tail, hc, ?_, ?_⟩
      · rw [hp]
        congr 1
        rw [← h13, ← h2, ← hs2, ← hs]
      · rw [hs2]
        rfl
    · right
      rw [if_neg h2]

theorem match_until_eol_found (content q : List Nat) (hc : ∀ b ∈ content, b ≠ 0 ∧ b ≠ 13) :
    match_until_eol (.ptr (content ++ 13 :: 10 :: q)) = .ptr q := by
  obtain ⟨_, h2⟩ := takeWhile_until content (13 :: 10 :: q) 13 hc (Or.inr rfl)
  unfold match_until_eol
  simp only [h2]
  rfl

theorem match_char_cases (p : List Nat) (c : Nat) (hc : c ≠ 0) :
    (∃ q, p = c :: q ∧ match_char (.ptr p) c = .ptr q) ∨ match_char (.ptr p) c = .null := by
  by_cases hd : deref p = c
  · left
    have hp := deref_cons_tail p (by rw [hd]; exact hc)
    rw [hd] at hp
    refine ⟨p.tail, hp, ?_⟩
    rw [hp]
    exact match_char_eq _ c
  · right
    exact match_char_ne p c hd

theorem match_literal_cases (p s : List Nat) (hs : ∀ c ∈ s, c ≠ 0) :
    (∃ q, p = s ++ q ∧ match_literal (.ptr p) s = .ptr q) ∨
    match_literal (.ptr p) s = .null := by
  show _ ∨ match_literal_loop p s = .null
  cases hr : match_literal_loop p s with
  | null => exact Or.inr rfl
  | undefined => exact absurd hr (match_literal_loop_ne_undefined s p)
  | ptr q => exact Or.inl ⟨q, match_literal_loop_ptr s hs p q hr, hr⟩

/-- The function `match_b_record` on a text: it reads a B record and sets the time of day,
or it returns 0 and leaves the accumulator as it is. -/
theorem match_b_record_cases (p : List Nat) (t : tm) :
    (∃ hh mm ss content rest, is_two_digits hh ∧ is_two_digits mm ∧ is_two_digits ss ∧
      (∀ c ∈ content, c ≠ 0 ∧ c ≠ 13) ∧
      p = [66] ++ hh ++ mm ++ ss ++ content ++ [13, 10] ++ rest ∧
      match_b_record (.ptr p) t =
        (.ptr rest,
          { t with
            tm_hour := numeral_value hh
            tm_min := numeral_value mm
            tm_sec := numeral_value ss })) ∨
    match_b_record (.ptr p) t = (.null, t) := by
  unfold match_b_record
  rcases match_char_cases p 66 (by decide) with ⟨p1, hp1, h1⟩ | h1
  · rw [h1]
    dsimp only
    rcases match_n_digits_two_cases p1 0 with ⟨hh, p2, hhh, hp2, h2⟩ | h2
    · rw [h2]
      dsimp only
      rcases match_n_digits_two_cases p2 0 with ⟨mm, p3, hmm, hp3, h3⟩ | h3
      · rw [h3]
        dsimp only
        rcases match_n_digits_two_cases p3 0 with ⟨ss, p4, hss, hp4, h4⟩ | h4
        · rw [h4]
          dsimp only
          rcases match_until_eol_cases p4 with ⟨content, rest, hc, hp5, h5⟩ | h5
          · left
            rw [h5]
            refine ⟨hh, mm, ss, content, rest, hhh, hmm, hss, hc, ?_, rfl⟩
            rw [hp1, hp2, hp3, hp4, hp5]
            simp
          · right
            rw [h5]
        · right
          cases h : match_n_digits (.ptr p3) 2 0 with
          | mk c v =>
            rw [h] at h4
            have hc : c = .null := h4
            rw [hc]
      · right
        cases h : match_n_digits (.ptr p2) 2 0 with
        | mk c v =>
          rw [h] at h3
          have hc : c = .null := h3
          rw [hc]
          rfl
    · right
      cases h : match_n_digits (.ptr p1) 2 0 with
      | mk c v =>
        rw [h] at h2
        have hc : c = .null := h2
        rw [hc]
        rfl
  · right
    rw [h1]

theorem HFDTE_ne_zero : ∀ c ∈ HFDTE, c ≠ 0 := by decide

/-- The function `match_hfdte_record` on a text: it reads an HFDTE record and sets the
date, or it returns 0 and leaves the accumulator as it is. -/
theorem match_hfdte_record_cases (p : List Nat) (t : tm) :
    (∃ dd mm yy rest, is_two_digits dd ∧ is_two_digits mm ∧ is_two_digits yy ∧
      p = HFDTE ++ dd ++ mm ++ yy ++ [13, 10] ++ rest ∧
      match_hfdte_record (.ptr p) t =
        (.ptr rest,
          { t with
            tm_year := numeral_value yy + 2000 - 1900
            tm_mon := numeral_value mm - 1
            tm_mday := numeral_value dd })) ∨
    match_hfdte_record (.ptr p) t = (.null, t) := by
  unfold match_hfdte_record
  rcases match_literal_cases p HFDTE HFDTE_ne_zero with ⟨p1, hp1, h1⟩ | h1
  · rw [h1]
    dsimp only
    rcases match_n_digits_two_cases p1 0 with ⟨dd, p2, hdd, hp2, h2⟩ | h2
    · rw [h2]
      dsimp only
      rcases match_n_digits_two_cases p2 0 with ⟨mm, p3, hmm, hp3, h3⟩ | h3
      · rw [h3]
        dsimp only
        rcases match_n_digits_two_cases p3 0 with ⟨yy, p4, hyy, hp4, h4⟩ | h4
        · rw [h4]
          dsimp only
          rcases match_literal_cases p4 [13, 10] (by decide) with ⟨rest, hp5, h5⟩ | h5
          · left
            rw [h5]
            refine ⟨dd, mm, yy, rest, hdd, hmm, hyy, ?_, rfl⟩
            rw [hp1, hp2, hp3, hp4, hp5]
            simp
          · right
            rw [h5]
        · right
          cases h : match_n_digits (.ptr p3) 2 0 with
          | mk c v =>
            rw [h] at h4
            have hc : c = .null := h4
            rw [hc]
            rfl
      · right
        cases h : match_n_digits (.ptr p2) 2 0 with
        | mk c v =>
          rw [h] at h3
          have hc : c = .null := h3
          rw [hc]
          rfl
    · right
      cases h : match_n_digits (.ptr p1) 2 0 with
      | mk c v =>
        rw [h] at h2
        have hc : c = .null := h2
        rw [hc]
        rfl
  · right
    rw [h1]

/-- The function `igc_tm_update` on a B record. -/
theorem igc_tm_update_b (t : tm) (p hh mm ss : List Nat) (h : is_b_record p hh mm ss) :
    igc_tm_update t p =
      .ok (1,
        { t with
          tm_hour := numeral_value hh
          tm_min := numeral_value mm
          tm_sec := numeral_value ss }) := by
  obtain ⟨content, rest, hhh, hmm, hss, hc, hp⟩ := h
  have e : p = 66 :: (hh ++ (mm ++ (ss ++ (content ++ 13 :: 10 :: rest)))) := by
    rw [hp]
    simp
  have h1 : match_char (.ptr (66 :: (hh ++ (mm ++ (ss ++ (content ++ 13 :: 10 :: rest)))))) 66 =
      .ptr (hh ++ (mm ++ (ss ++ (content ++ 13 :: 10 :: rest)))) := match_char_eq _ 66
  have hd : deref (66 :: (hh ++ (mm ++ (ss ++ (content ++ 13 :: 10 :: rest))))) = 66 := rfl
  rw [e]
  unfold igc_tm_update
  rw [if_pos hd]
  unfold match_b_record
  simp only [h1, match_n_digits_two _ _ 0 hhh, match_n_digits_two _ _ 0 hmm,
    match_n_digits_two _ _ 0 hss, match_until_eol_found content rest hc]

/-- The function `igc_tm_update` on an HFDTE record. -/
theorem igc_tm_update_hfdte (t : tm) (p dd mm yy : List Nat)
    (h : is_hfdte_record p dd mm yy) :
    igc_tm_update t p =
      .ok (1,
        { t with
          tm_year := numeral_value yy + 2000 - 1900
          tm_mon := numeral_value mm - 1
          tm_mday := numeral_value dd }) := by
  obtain ⟨rest, hdd, hmm, hyy, hp⟩ := h
  have e : p = HFDTE ++ (dd ++ (mm ++ (yy ++ ([13, 10] ++ rest)))) := by
    rw [hp]
    simp
  have h1 : match_literal (.ptr (HFDTE ++ (dd ++ (mm ++ (yy ++ ([13, 10] ++ rest)))))) HFDTE =
      .ptr (dd ++ (mm ++ (yy ++ ([13, 10] ++ rest)))) :=
    match_literal_loop_append HFDTE _ HFDTE_ne_zero
  have h2 : match_literal (.ptr ([13, 10] ++ rest)) [13, 10] = .ptr rest :=
    match_literal_loop_append [13, 10] rest (by decide)
  have hd : deref (HFDTE ++ (dd ++ (mm ++ (yy ++ ([13, 10] ++ rest))))) = 72 := rfl
  rw [e]
  unfold igc_tm_update
  rw [if_neg (by rw [hd]; decide), if_pos hd]
  unfold match_hfdte_record
  simp only [h1, match_n_digits_two _ _ 0 hdd, match_n_digits_two _ _ 0 hmm,
    match_n_digits_two _ _ 0 hyy, h2]

/-- The function `igc_tm_update` on a line that starts with neither record. -/
theorem igc_tm_update_other (t : tm) (p : List Nat)
    (hb : ¬ ∃ hh mm ss, is_b_record p hh mm ss)
    (hh : ¬ ∃ dd mm yy, is_hfdte_record p dd mm yy) :
    igc_tm_update t p = .ok (0, t) := by
  unfold igc_tm_update
  by_cases h66 : deref p = 66
  · rw [if_pos h66]
    rcases match_b_record_cases p t with ⟨h1, m1, s1, content, rest, a1, a2, a3, a4, a5, _⟩ | h
    · exact absurd ⟨h1, m1, s1, content, rest, a1, a2, a3, a4, a5⟩ hb
    · rw [h]
  · rw [if_neg h66]
    by_cases h72 : deref p = 72
    · rw [if_pos h72]
      rcases match_hfdte_record_cases p t with ⟨d1, m1, y1, rest, a1, a2, a3, a4, _⟩ | h
      · exact absurd ⟨d1, m1, y1, rest, a1, a2, a3, a4⟩ hh
      · rw [h]
    · rw [if_neg h72]

theorem not_b_record_of_zero (t t2 : tm) (p : List Nat)
    (h : igc_tm_update t p = .ok (0, t2)) : ¬ ∃ hh mm ss, is_b_record p hh mm ss := by
  rintro ⟨hh, mm, ss, hb⟩
  rw [igc_tm_update_b t p hh mm ss hb] at h
  cases h

theorem not_hfdte_record_of_zero (t t2 : tm) (p : List Nat)
    (h : igc_tm_update t p = .ok (0, t2)) : ¬ ∃ dd mm yy, is_hfdte_record p dd mm yy := by
  rintro ⟨dd, mm, yy, hb⟩
  rw [igc_tm_update_hfdte t p dd mm yy hb] at h
  cases h

/-- Counterexample to claim C16 as stated: the line `B123456`, content `a` CR `b`, CR LF
has the form `B`, six digits, content, CR LF, but `igc_tm_update` reports it as not
recognised and leaves the accumulator as it is: `match_until_eol` stops at the first CR,
which LF does not follow. -/
theorem igc_tm_update_rejects_cr :
    bytes "B123456a\rb\r\n" =
      [66] ++ bytes "12" ++ bytes "34" ++ bytes "56" ++ bytes "a\rb" ++ [13, 10] ∧
    igc_tm_update ⟨1, 2, 3, 4, 5, 107⟩ (bytes "B123456a\rb\r\n") =
      .ok (0, ⟨1, 2, 3, 4, 5, 107⟩) := by
  refine ⟨?_, ?_⟩ <;> decide

/-- Claim C16 as amended: for every accumulator and every line, `igc_tm_update` reports
recognised on a line that starts with `B`, six digits hhmmss, content without CR, and CR LF,
and sets hour, minute and second to hh, mm, ss, leaving year, month and day as they are; it
reports recognised on a line that starts with `HFDTE`, six digits ddmmyy and CR LF, and sets
the day to dd, the month to mm (`tm_mon = mm - 1`) and the year to 2000 + yy
(`tm_year = yy + 2000 - 1900`), leaving hour, minute and second as they are; on every other
line it reports not recognised and leaves the whole accumulator as it is. -/
theorem igc_tm_update_spec (t : tm) (p : List Nat) :
    (∀ hh mm ss, is_b_record p hh mm ss →
      igc_tm_update t p =
        .ok (1,
          { t with
            tm_hour := numeral_value hh
            tm_min := numeral_value mm
            tm_sec := numeral_value ss })) ∧
    (∀ dd mm yy, is_hfdte_record p dd mm yy →
      igc_tm_update t p =
        .ok (1,
          { t with
            tm_year := numeral_value yy + 2000 - 1900
            tm_mon := numeral_value mm - 1
            tm_mday := numeral_value dd })) ∧
    ((¬ ∃ hh mm ss, is_b_record p hh mm ss) → (¬ ∃ dd mm yy, is_hfdte_record p dd mm yy) →
      igc_tm_update t p = .ok (0, t)) :=
  ⟨fun hh mm ss h => igc_tm_update_b t p hh mm ss h,
   fun dd mm yy h => igc_tm_update_hfdte t p dd mm yy h,
   fun hb hh => igc_tm_update_other t p hb hh⟩

theorem igc_tm_update_spec_witness :
    igc_tm_update ⟨1, 2, 3, 4, 5, 107⟩ (bytes "B1234564807123N\r\n") =
      .ok (1, ⟨numeral_value (bytes "56"), numeral_value (bytes "34"),
        numeral_value (bytes "12"), 4, 5, 107⟩) ∧
    igc_tm_update ⟨1, 2, 3, 4, 5, 107⟩ (bytes "HFDTE050608\r\n") =
      .ok (1, ⟨1, 2, 3, numeral_value (bytes "05"), numeral_value (bytes "06") - 1,
        numeral_value (bytes "08") + 2000 - 1900⟩) ∧
    igc_tm_update ⟨1, 2, 3, 4, 5, 107⟩ (bytes "HFPLTPILOT:Tom\r\n") =
      .ok (0, ⟨1, 2, 3, 4, 5, 107⟩) :=
  ⟨(igc_tm_update_spec ⟨1, 2, 3, 4, 5, 107⟩ (bytes "B1234564807123N\r\n")).1
      (bytes "12") (bytes "34") (bytes "56")
      ⟨bytes "4807123N", [], by decide, by decide, by decide, by decide, by decide⟩,
   (igc_tm_update_spec ⟨1, 2, 3, 4, 5, 107⟩ (bytes "HFDTE050608\r\n")).2.1
      (bytes "05") (bytes "06") (bytes "08")
      ⟨[], by decide, by decide, by decide, by decide⟩,
   (igc_tm_update_spec ⟨1, 2, 3, 4, 5, 107⟩ (bytes "HFPLTPILOT:Tom\r\n")).2.2
      (not_b_record_of_zero ⟨1, 2, 3, 4, 5, 107⟩ ⟨1, 2, 3, 4, 5, 107⟩ _ (by decide))
      (not_hfdte_record_of_zero ⟨1, 2, 3, 4, 5, 107⟩ ⟨1, 2, 3, 4, 5, 107⟩ _ (by decide))⟩

/-! ## Theorems: the manufacturer code of the file names -/

theorem igc_filename_null (filename_format : igc_filename_format_t) (serial_number : Int)
    (track : track_t) :
    igc_filename filename_format none serial_number track = .error .undefined_behaviour := by
  cases filename_format <;> rfl

/-- Claim C17, the code.  `flytec_pbrtl` makes the file names with the value that
`manufacturer ? manufacturer : flytec->manufacturer` has on entry, before the call of
`flytec_pbrsnp`: with an override the names carry the override, and after an earlier
identity query they carry the derived code.  When the listing is the first command of the
session and no override is given, the identity query inside `flytec_pbrtl` derives the code
(`FLY` for the instrument 5020) but the names are made with the NULL pointer read before
it, which no conversion of `snprintf` accepts. -/
theorem flytec_pbrtl_manufacturer_read_early :
    (∀ (mktime : tm → Int) (f g : flytec_t) (manufacturer : Option (List Nat))
      (filename_format : igc_filename_format_t) (trackv : List (Option track_t)),
      f.trackv = none →
      flytec_pbrtl mktime f manufacturer filename_format = some (.ok (trackv, g)) →
      ∀ i, i < g.trackc.toNat → ∃ t name, trackv.getD i none = some t ∧
        t.igc_filename = some name ∧
        igc_filename filename_format (manufacturer <|> f.manufacturer) g.serial_number t =
          .ok name) ∧
    (∀ (filename_format : igc_filename_format_t) (serial_number : Int) (track : track_t),
      igc_filename filename_format none serial_number track = .error .undefined_behaviour) ∧
    example_session.manufacturer = none ∧
    (flytec_pbrtl_request example_session).map (fun started => started.manufacturer) =
      .ok (some (bytes "FLY")) ∧
    flytec_pbrtl mktime_zero example_session none .igc_filename_format_long =
      some (.error .undefined_behaviour) ∧
    flytec_pbrtl mktime_zero example_session none .igc_filename_format_short =
      some (.error .undefined_behaviour) ∧
    (flytec_pbrsnp example_session).map (fun r => r.2.manufacturer) =
      .ok (some (bytes "FLY")) ∧
    (match flytec_pbrsnp example_session with
      | .ok r => flytec_pbrtl mktime_zero r.2 none .igc_filename_format_long
      | .error e => some (.error e)) =
      some (.ok (example_listing_long, example_session_listed example_listing_long)) ∧
    flytec_pbrtl mktime_zero example_session (some (bytes "BRA")) .igc_filename_format_short =
      some (.ok
        ([some ⟨3, 0, 54949, 2, 0, 3600, some (bytes "765BF302.IGC")⟩,
          some ⟨3, 1, 54949, 1, 0, 3600, some (bytes "765BF301.IGC")⟩,
          some ⟨3, 2, 54950, 1, 0, 3600, some (bytes "766BF301.IGC")⟩,
          none],
         example_session_listed
          [some ⟨3, 0, 54949, 2, 0, 3600, some (bytes "765BF302.IGC")⟩,
           some ⟨3, 1, 54949, 1, 0, 3600, some (bytes "765BF301.IGC")⟩,
           some ⟨3, 2, 54950, 1, 0, 3600, some (bytes "766BF301.IGC")⟩,
           none])) := by
  refine ⟨?_, igc_filename_null, rfl, by decide, by decide, by decide, by decide,
    by decide, by decide⟩
  intro mktime f g manufacturer filename_format trackv hfresh h i hi
  have hne : g.trackc ≠ 0 := by
    intro h0
    rw [h0] at hi
    simp at hi
  obtain ⟨_, _, hpos⟩ := flytec_pbrtl_ok mktime f g manufacturer filename_format trackv
    hfresh h
  obtain ⟨t, name, h1, _, _, h4, h5, _⟩ := (hpos hne).2 i hi
  exact ⟨t, name, h1, h5, h4⟩

/-! ## Theorems: the pilot name -/

theorem dropWhile_spaces_append (l r : List Nat) :
    (l ++ r).dropWhile (fun c => c = 32) =
      if l.dropWhile (fun c => c = 32) = [] then r.dropWhile (fun c => c = 32)
      else l.dropWhile (fun c => c = 32) ++ r := by
  induction l with
  | nil => simp
  | cons c l ih =>
    by_cases hc : c = 32
    · simp only [List.cons_append, List.dropWhile_cons, hc, decide_True, if_true]
      exact ih
    · simp [List.dropWhile_cons, hc]

theorem trim_trailing_cons (c : Nat) (p : List Nat) :
    trim_trailing_spaces (c :: p) =
      if trim_trailing_spaces p = [] then (if c = 32 then [] else [c])
      else c :: trim_trailing_spaces p := by
  unfold trim_trailing_spaces
  rw [List.reverse_cons, dropWhile_spaces_append]
  by_cases h : p.reverse.dropWhile (fun c => c = 32) = []
  · rw [if_pos h, if_pos (by rw [h]; rfl)]
    by_cases hc : c = 32
    · simp [hc]
    · simp [hc]
  · rw [if_neg h, if_neg (by simpa using h)]
    simp

theorem trim_trailing_prefix (p : List Nat) : trim_trailing_spaces p <+: p := by
  induction p with
  | nil => exact List.prefix_refl _
  | cons c p ih =>
    rw [trim_trailing_cons]
    by_cases h : trim_trailing_spaces p = []
    · rw [if_pos h]
      by_cases hc : c = 32
      · rw [if_pos hc]
        exact List.nil_prefix
      · rw [if_neg hc]
        exact ⟨p, rfl⟩
    · rw [if_neg h]
      exact (List.cons_prefix_cons).mpr ⟨rfl, ih⟩

theorem trim_trailing_of_head (c : Nat) (p : List Nat) (hc : c ≠ 32) :
    trim_trailing_spaces (c :: p) ≠ [] := by
  rw [trim_trailing_cons]
  by_cases h : trim_trailing_spaces p = []
  · rw [if_pos h, if_neg hc]
    simp
  · rw [if_neg h]
    simp

/-- The loop of `flytec_pbrsnp` that looks for the end of the pilot name: the offset after
the last character that is not a space, or the initial offset when there is none. -/
theorem pilot_name_end_eq (p : List Nat) (hp : ∀ c ∈ p, c ≠ 0) :
    ∀ i e : Nat, pilot_name_end p i e =
      if trim_trailing_spaces p = [] then e else i + (trim_trailing_spaces p).length := by
  induction p with
  | nil => intro i e; rfl
  | cons c p ih =>
    intro i e
    have hc : c ≠ 0 := hp c (List.mem_cons_self c p)
    rw [pilot_name_end, if_neg hc, ih (fun x hx => hp x (List.mem_cons_of_mem c hx)),
      trim_trailing_cons]
    by_cases h : trim_trailing_spaces p = []
    · rw [if_pos h, if_pos h]
      by_cases h32 : c = 32
      · rw [if_neg (not_not.mpr h32), if_pos h32, if_pos rfl]
      · rw [if_pos h32, if_neg h32, if_neg (by simp)]
        rfl
    · rw [if_neg h, if_neg h, if_neg (by simp), List.length_cons]
      omega

theorem dropWhile_spaces_head (p : List Nat) :
    (p.dropWhile (fun c => c = 32)).head? ≠ some 32 := by
  induction p with
  | nil => simp
  | cons c p ih =>
    by_cases hc : c = 32
    · simpa [List.dropWhile_cons, hc] using ih
    · simp [List.dropWhile_cons, hc]

/-- The block of `flytec_pbrsnp` that strips the pilot name gives the name without its
leading and trailing spaces. -/
theorem strip_pilot_name_eq (name : List Nat) (hn : ∀ c ∈ name, c ≠ 0) :
    strip_pilot_name name = trim_spaces name := by
  unfold strip_pilot_name trim_spaces
  rw [c_str_of_ne_zero name hn]
  dsimp only
  have hsub : ∀ c ∈ name.dropWhile (fun c => c = 32), c ≠ 0 :=
    fun c hc => hn c ((List.dropWhile_sublist _).subset hc)
  have hhead := dropWhile_spaces_head name
  generalize name.dropWhile (fun c => c = 32) = pn at hsub hhead
  rw [pilot_name_end_eq pn hsub]
  by_cases h : trim_trailing_spaces pn = []
  · rw [if_pos h, h]
    cases pn with
    | nil => rfl
    | cons c pn =>
      have h2 : ((c :: pn) ++ [0]).take 1 = [c] := rfl
      rw [h2]
      rw [trim_trailing_cons] at h
      by_cases h3 : trim_trailing_spaces pn = []
      · rw [if_pos h3] at h
        by_cases h32 : c = 32
        · rw [h32] at hhead
          exact absurd rfl hhead
        · rw [if_neg h32] at h
          cases h
      · rw [if_neg h3] at h
        cases h
  · rw [if_neg h, Nat.zero_add]
    have hpre := trim_trailing_prefix pn
    rw [List.take_append_of_le_length hpre.length_le, ← List.prefix_iff_eq_take.mp hpre]
    apply c_str_of_ne_zero
    intro c hc
    exact hsub c (hpre.subset hc)

theorem dropWhile_spaces_of_head (p : List Nat) (h : p.head? ≠ some 32) :
    p.dropWhile (fun c => c = 32) = p := by
  cases p with
  | nil => rfl
  | cons c p =>
    have hc : c ≠ 32 := fun hc => h (by rw [hc]; rfl)
    simp [List.dropWhile_cons, hc]

theorem leading_spaces_split (p : List Nat) :
    ∃ a, p = List.replicate a 32 ++ p.dropWhile (fun c => c = 32) := by
  induction p with
  | nil => exact ⟨0, rfl⟩
  | cons c p ih =>
    by_cases hc : c = 32
    · obtain ⟨a, ha⟩ := ih
      refine ⟨a + 1, ?_⟩
      subst hc
      rw [List.dropWhile_cons]
      simp only [decide_True, if_true]
      rw [List.replicate_succ, List.cons_append, ← ha]
    · exact ⟨0, by simp [List.dropWhile, hc]⟩

theorem trim_trailing_split (p : List Nat) :
    ∃ b, p = trim_trailing_spaces p ++ List.replicate b 32 := by
  obtain ⟨b, hb⟩ := leading_spaces_split p.reverse
  refine ⟨b, ?_⟩
  have := congrArg List.reverse hb
  rw [List.reverse_reverse, List.reverse_append, List.reverse_replicate] at this
  exact this

theorem trim_trailing_last (p : List Nat) : (trim_trailing_spaces p).getLast? ≠ some 32 := by
  unfold trim_trailing_spaces
  rw [List.getLast?_reverse]
  exact dropWhile_spaces_head p.reverse

theorem trim_trailing_head (p : List Nat) (h : p.head? ≠ some 32) :
    (trim_trailing_spaces p).head? ≠ some 32 := by
  obtain ⟨rest, hrest⟩ := trim_trailing_prefix p
  cases ht : trim_trailing_spaces p with
  | nil => simp
  | cons c t =>
    rw [ht] at hrest
    rw [← hrest] at h
    exact h

theorem trim_trailing_of_last (p : List Nat) (h : p.getLast? ≠ some 32) :
    trim_trailing_spaces p = p := by
  unfold trim_trailing_spaces
  rw [dropWhile_spaces_of_head p.reverse (by rw [List.head?_reverse]; exact h),
    List.reverse_reverse]

/-- The name without its leading and trailing spaces: what is removed are spaces at the
start and spaces at the end, and what is left neither starts nor ends with a space. -/
theorem trim_spaces_split (name : List Nat) :
    ∃ a b, name = List.replicate a 32 ++ trim_spaces name ++ List.replicate b 32 ∧
      (trim_spaces name).head? ≠ some 32 ∧ (trim_spaces name).getLast? ≠ some 32 := by
  obtain ⟨a, ha⟩ := leading_spaces_split name
  obtain ⟨b, hb⟩ := trim_trailing_split (name.dropWhile (fun c => c = 32))
  refine ⟨a, b, ?_, trim_trailing_head _ (dropWhile_spaces_head name), trim_trailing_last _⟩
  unfold trim_spaces
  rw [List.append_assoc, ← hb, ← ha]

theorem trim_spaces_of_spaces (name : List Nat) (h : ∀ c ∈ name, c = 32) :
    trim_spaces name = [] := by
  unfold trim_spaces
  have : name.dropWhile (fun c => c = 32) = [] := by
    rw [List.dropWhile_eq_nil_iff]
    intro c hc
    simpa using h c hc
  rw [this]
  rfl

theorem trim_spaces_idempotent (name : List Nat) :
    trim_spaces (trim_spaces name) = trim_spaces name := by
  obtain ⟨_, _, _, h1, h2⟩ := trim_spaces_split name
  generalize trim_spaces name = m at h1 h2
  unfold trim_spaces
  rw [dropWhile_spaces_of_head m h1, trim_trailing_of_last m h2]

theorem match_string_until_text (p : cursor) (c : Nat) (consume : Bool) :
    ∀ b ∈ (match_string_until p c consume).2.getD [], b ≠ 0 := by
  intro b hb
  cases p with
  | null => simp [match_string_until] at hb
  | undefined => simp [match_string_until] at hb
  | ptr p =>
    simp only [match_string_until, Option.getD_some] at hb
    have h1 := List.mem_takeWhile_imp hb
    have h2 : b ≠ 0 ∧ b ≠ c := by simpa using h1
    exact h2.1

theorem snp_new_pilot_name (p : List Nat) (snp : snp_t) (h : snp_new p = .ok (some snp)) :
    snp.pilot_name =
      (match_string_until (match_string_until (match_literal (.ptr p) PBRSNP) 44 true).1 44
        true).2.getD [] := by
  unfold snp_new at h
  dsimp only at h
  split at h
  · cases h
  · cases h
  · cases h
    rfl

/-- A successful identity query stores the pilot name of the response without its leading
and trailing spaces. -/
theorem flytec_pbrsnp_pilot_name (f g : flytec_t) (snp : snp_t) (hfresh : f.snp = none)
    (h : flytec_pbrsnp f = .ok (snp, g)) :
    g.snp = some snp ∧ g.pilot_name = some (trim_spaces snp.pilot_name) ∧
    ∀ c ∈ snp.pilot_name, c ≠ 0 := by
  unfold flytec_pbrsnp at h
  rw [hfresh] at h
  dsimp only at h
  cases h1 : flytec_puts_nmea f PBRSNP with
  | error e => rw [h1] at h; cases h
  | ok f1 =>
    rw [h1] at h
    dsimp only at h
    cases h2 : flytec_expectc f1 XOFF with
    | error e => rw [h2] at h; cases h
    | ok f2 =>
      rw [h2] at h
      dsimp only at h
      cases h3 : flytec_gets_nmea f2 128 with
      | error e => rw [h3] at h; cases h
      | ok r =>
        obtain ⟨line, f3⟩ := r
        rw [h3] at h
        cases line with
        | none => cases h
        | some line =>
          dsimp only at h
          cases h4 : snp_new line with
          | error e => rw [h4] at h; cases h
          | ok r2 =>
            rw [h4] at h
            cases r2 with
            | none => cases h
            | some decoded =>
              dsimp only at h
              cases h5 : flytec_expectc f3 XON with
              | error e => rw [h5] at h; cases h
              | ok f4 =>
                rw [h5] at h
                cases h
                have hzero : ∀ c ∈ snp.pilot_name, c ≠ 0 := by
                  rw [snp_new_pilot_name line snp h4]
                  exact match_string_until_text _ _ _
                refine ⟨rfl, ?_, hzero⟩
                show some (strip_pilot_name snp.pilot_name) = _
                rw [strip_pilot_name_eq _ hzero]

/-- Claim C18: after a successful identity query the pilot name of the session is the raw
pilot name of the response with all leading and all trailing spaces removed and every other
character kept in order: the raw name is spaces, the normalised name, spaces, and the
normalised name neither starts nor ends with a space.  A raw name of spaces only (or the
empty name) gives the empty name, and normalising a normalised name changes nothing. -/
theorem flytec_pbrsnp_trims_pilot_name (f g : flytec_t) (snp : snp_t) (hfresh : f.snp = none)
    (h : flytec_pbrsnp f = .ok (snp, g)) :
    g.pilot_name = some (trim_spaces snp.pilot_name) ∧
    (∃ a b, snp.pilot_name =
        List.replicate a 32 ++ trim_spaces snp.pilot_name ++ List.replicate b 32 ∧
      (trim_spaces snp.pilot_name).head? ≠ some 32 ∧
      (trim_spaces snp.pilot_name).getLast? ≠ some 32) ∧
    ((∀ c ∈ snp.pilot_name, c = 32) → g.pilot_name = some []) ∧
    trim_spaces (trim_spaces snp.pilot_name) = trim_spaces snp.pilot_name ∧
    strip_pilot_name (trim_spaces snp.pilot_name) = trim_spaces snp.pilot_name := by
  obtain ⟨_, hname, hzero⟩ := flytec_pbrsnp_pilot_name f g snp hfresh h
  refine ⟨hname, trim_spaces_split _, ?_, trim_spaces_idempotent _, ?_⟩
  · intro hs
    rw [hname, trim_spaces_of_spaces _ hs]
  · rw [strip_pilot_name_eq, trim_spaces_idempotent]
    intro c hc
    obtain ⟨a, b, hsplit, _, _⟩ := trim_spaces_split snp.pilot_name
    apply hzero c
    rw [hsplit]
    exact List.mem_append_left _ (List.mem_append_right _ hc)

theorem flytec_pbrsnp_trims_pilot_name_witness :
    (some (bytes "Tom Payne") : Option (List Nat)) = some (trim_spaces (bytes "  Tom Payne ")) ∧
    trim_spaces (trim_spaces (bytes "  Tom Payne ")) = trim_spaces (bytes "  Tom Payne ") :=
  have h := flytec_pbrsnp_trims_pilot_name
    (flytec_new [[19], response_line "PBRSNP,5020,  Tom Payne ,123,1.18", [17]])
    { snp := some ⟨bytes "5020", bytes "  Tom Payne ", 123, bytes "1.18"⟩
      manufacturer := some (bytes "FLY")
      pilot_name := some (bytes "Tom Payne")
      serial_number := 123
      trackc := 0
      trackv := none
      unread := []
      device := []
      written := [bytes "$PBRSNP,*21\r\n" ++ [0]] }
    ⟨bytes "5020", bytes "  Tom Payne ", 123, bytes "1.18"⟩ rfl (by decide)
  ⟨h.1, h.2.2.2.1⟩

/-! ## Theorems: the line reader and the chunks of the transport -/

theorem first_line_cons (c : Nat) (s : List Nat) (hc : c ≠ 10) :
    first_line (c :: s) = c :: first_line s ∧ after_first_line (c :: s) = after_first_line s := by
  unfold first_line after_first_line
  simp [List.takeWhile_cons, List.dropWhile_cons, hc]

theorem first_line_lf (s : List Nat) :
    first_line (10 :: s) = [10] ∧ after_first_line (10 :: s) = s := by
  unfold first_line after_first_line
  simp [List.takeWhile_cons, List.dropWhile_cons]

/-- A raw read on an empty receive buffer: the time-out when the transport has nothing more
to deliver, and otherwise a refill that leaves the incoming stream as it is. -/
theorem flytec_read_incoming (f : flytec_t) (h0 : f.unread = []) (hc : chunks_nonempty f) :
    (f.device = [] → flytec_read f = .error .timeout_waiting_for_data) ∧
    (f.device ≠ [] → ∃ g, flytec_read f = .ok g ∧ incoming g = incoming f ∧ g.unread ≠ [] ∧
      chunks_nonempty g) := by
  unfold flytec_read
  cases hd : f.device with
  | nil => exact ⟨fun _ => rfl, fun h => absurd rfl h⟩
  | cons block rest =>
    have hb : block ≠ [] := hc block (by rw [hd]; exact List.mem_cons_self _ _)
    have hlen : block.length ≠ 0 := fun h => hb (List.length_eq_zero.mp h)
    refine ⟨fun h => (by cases h), fun _ => ?_⟩
    dsimp only
    rw [if_neg hlen]
    refine ⟨_, rfl, ?_, ?_, ?_⟩
    · unfold incoming
      dsimp only
      rw [h0, hd, List.nil_append, List.flatten_cons]
      by_cases h128 : block.length ≤ 128
      · rw [if_pos h128, List.take_of_length_le h128]
      · rw [if_neg h128, List.flatten_cons, ← List.append_assoc, List.take_append_drop]
    · dsimp only
      intro h
      cases block with
      | nil => exact hb rfl
      | cons c block => simp at h
    · intro chunk hchunk
      have hrest : ∀ x ∈ rest, x ≠ [] :=
        fun x hx => hc x (by rw [hd]; exact List.mem_cons_of_mem _ hx)
      dsimp only at hchunk
      by_cases h128 : block.length ≤ 128
      · rw [if_pos h128] at hchunk
        exact hrest chunk hchunk
      · rw [if_neg h128] at hchunk
        rcases List.mem_cons.mp hchunk with rfl | hx
        · intro h
          have := congrArg List.length h
          simp only [List.length_drop, List.length_nil] at this
          omega
        · exact hrest chunk hx

/-- The loop of `flytec_gets` on a session, in terms of the incoming stream: it stores the
first line when the line terminator is among the first `len - 1` bytes, and otherwise it
ends with the time-out of the transport or with the overrun of the buffer. -/
theorem flytec_gets_loop_incoming (len : Nat) :
    ∀ (f : flytec_t) (stored : List Nat), f.unread ≠ [] → chunks_nonempty f →
      ((flytec_gets_loop len f stored).map (fun r => (r.1, incoming r.2)) =
        if 10 ∈ (incoming f).take (len - 1) then
          .ok (stored ++ first_line (incoming f), after_first_line (incoming f))
        else if (incoming f).length ≤ len - 1 then .error .timeout_waiting_for_data
        else .error .die_flytec_gets) ∧
      (∀ r g, flytec_gets_loop len f stored = .ok (r, g) → chunks_nonempty g) := by
  induction len using Nat.strong_induction_on with
  | _ len ih =>
    intro f stored hu hc
    cases hun : f.unread with
    | nil => exact absurd hun hu
    | cons c u =>
      have hin : incoming f = c :: (u ++ f.device.flatten) := by
        unfold incoming
        rw [hun]
        rfl
      rcases len with _ | _ | len
      · refine ⟨?_, fun r g h => by cases h⟩
        rw [hin]
        rfl
      · refine ⟨?_, fun r g h => by cases h⟩
        rw [hin]
        rfl
      · rw [flytec_gets_loop, hun]
        dsimp only
        by_cases h10 : c = 10
        · subst h10
          rw [if_pos rfl]
          refine ⟨?_, ?_⟩
          · rw [hin, (first_line_lf _).1, (first_line_lf _).2]
            simp [Except.map, incoming]
          · intro r g h
            cases h
            exact hc
        · rw [if_neg h10]
          have hstep : ∀ g : flytec_t, incoming g = u ++ f.device.flatten → g.unread ≠ [] →
              chunks_nonempty g →
              ((flytec_gets_loop (len + 1) g (stored ++ [c])).map
                  (fun r => (r.1, incoming r.2)) =
                if 10 ∈ (incoming f).take (len + 2 - 1) then
                  .ok (stored ++ first_line (incoming f), after_first_line (incoming f))
                else if (incoming f).length ≤ len + 2 - 1 then
                  .error .timeout_waiting_for_data
                else .error .die_flytec_gets) ∧
              (∀ r g2, flytec_gets_loop (len + 1) g (stored ++ [c]) = .ok (r, g2) →
                chunks_nonempty g2) := by
            intro g hg hgu hgc
            obtain ⟨h1, h2⟩ := ih (len + 1) (by omega) g (stored ++ [c]) hgu hgc
            refine ⟨?_, h2⟩
            rw [h1, hg, hin, (first_line_cons c _ h10).1, (first_line_cons c _ h10).2]
            have e1 : len + 1 - 1 = len := by omega
            have e2 : len + 2 - 1 = len + 1 := by omega
            rw [e1, e2]
            have h10b : ¬ (10 = c) := fun h => h10 h.symm
            simp only [List.take_succ_cons, List.mem_cons, List.length_cons, h10b, false_or,
              List.append_assoc, List.singleton_append, Nat.add_le_add_iff_right]
          by_cases hu0 : u = []
          · rw [if_pos hu0]
            have hc2 : chunks_nonempty { f with unread := u } := hc
            obtain ⟨r1, r2⟩ := flytec_read_incoming { f with unread := u } hu0 hc2
            by_cases hd : f.device = []
            · rw [r1 hd]
              refine ⟨?_, fun r g h => by cases h⟩
              rw [hin, hu0, hd]
              simp only [List.flatten_nil, List.append_nil, List.take_succ_cons,
                Nat.add_one_sub_one, List.take_nil, List.mem_singleton, List.length_singleton]
              have h10b : ¬ (10 = c) := fun h => h10 h.symm
              rw [if_neg h10b, if_pos (by omega)]
              rfl
            · obtain ⟨g, hg1, hg2, hg3, hg4⟩ := r2 hd
              rw [hg1]
              dsimp only
              exact hstep g (by rw [hg2]; rfl) hg3 hg4
          · rw [if_neg hu0]
            dsimp only
            exact hstep { f with unread := u } rfl hu0 hc

/-- The function `flytec_gets` in terms of the incoming stream alone: whatever the chunks of
the transport, it is the line reader `gets_spec` of the stream. -/
theorem flytec_gets_incoming (f : flytec_t) (size : Nat) (hc : chunks_nonempty f) :
    ((flytec_gets f size).map (fun r => (r.1, incoming r.2)) =
      gets_spec (incoming f) size) ∧
    (∀ r g, flytec_gets f size = .ok (r, g) → chunks_nonempty g) := by
  have key : ∀ g : flytec_t, g.unread ≠ [] → chunks_nonempty g →
      ((flytec_gets g size).map (fun r => (r.1, incoming r.2)) =
        gets_spec (incoming g) size) ∧
      (∀ r g2, flytec_gets g size = .ok (r, g2) → chunks_nonempty g2) := by
    intro g hu hgc
    unfold flytec_gets
    rw [if_neg hu]
    dsimp only
    obtain ⟨l1, l2⟩ := flytec_gets_loop_incoming size g [] hu hgc
    cases hun : g.unread with
    | nil => exact absurd hun hu
    | cons c u =>
      have hin : incoming g = c :: (u ++ g.device.flatten) := by
        unfold incoming
        rw [hun]
        rfl
      have hb : byte_at (c :: u) 0 = c := rfl
      rw [hb]
      by_cases hx : c = XON
      · rw [if_pos hx]
        refine ⟨?_, ?_⟩
        · rw [hin]
          unfold gets_spec
          dsimp only
          rw [if_pos hx]
          show Except.ok (none, incoming g) = _
          rw [hin]
        · intro r g2 h
          cases h
          exact hgc
      · rw [if_neg hx]
        cases hl : flytec_gets_loop size g [] with
        | error e =>
          rw [hl] at l1
          refine ⟨?_, fun r g2 h => (by cases h)⟩
          dsimp only
          simp only [List.nil_append] at l1
          rw [hin] at l1 ⊢
          unfold gets_spec
          dsimp only
          rw [if_neg hx]
          by_cases h10 : 10 ∈ List.take (size - 1) (c :: (u ++ g.device.flatten))
          · rw [if_pos h10] at l1
            simp [Except.map] at l1
          · rw [if_neg h10] at l1 ⊢
            by_cases hlen : (c :: (u ++ g.device.flatten)).length ≤ size - 1
            · rw [if_pos hlen] at l1 ⊢
              have he : e = .timeout_waiting_for_data := by simpa [Except.map] using l1
              rw [he]
              rfl
            · rw [if_neg hlen] at l1 ⊢
              have he : e = .die_flytec_gets := by simpa [Except.map] using l1
              rw [he]
              rfl
        | ok v =>
          obtain ⟨buf, g3⟩ := v
          rw [hl] at l1
          refine ⟨?_, ?_⟩
          · dsimp only
            rw [hin] at l1 ⊢
            unfold gets_spec
            dsimp only
            rw [if_neg hx]
            simp only [List.nil_append] at l1
            by_cases h10 : 10 ∈ List.take (size - 1) (c :: (u ++ g.device.flatten))
            · rw [if_pos h10] at l1 ⊢
              simp only [Except.map, Except.ok.injEq, Prod.mk.injEq] at l1 ⊢
              exact ⟨congrArg some l1.1, l1.2⟩
            · rw [if_neg h10] at l1
              exfalso
              by_cases hlen : (c :: (u ++ g.device.flatten)).length ≤ size - 1
              · rw [if_pos hlen] at l1
                cases l1
              · rw [if_neg hlen] at l1
                cases l1
          · intro r g2 h
            dsimp only at h
            cases h
            exact l2 buf g3 hl
  by_cases hu : f.unread = []
  · obtain ⟨r1, r2⟩ := flytec_read_incoming f hu hc
    by_cases hd : f.device = []
    · have hfail : flytec_gets f size = .error .timeout_waiting_for_data := by
        unfold flytec_gets
        rw [if_pos hu, r1 hd]
      rw [hfail]
      refine ⟨?_, fun r g h => (by cases h)⟩
      have hin : incoming f = [] := by
        unfold incoming
        rw [hu, hd]
        rfl
      rw [hin]
      rfl
    · obtain ⟨g, hg1, hg2, hg3, hg4⟩ := r2 hd
      have hsame : flytec_gets f size = flytec_gets g size := by
        unfold flytec_gets
        rw [if_pos hu, hg1, if_neg hg3]
      rw [hsame, ← hg2]
      exact key g hg3 hg4
  · exact key f hu hc

/-- Successive calls of `flytec_gets` in terms of the incoming stream alone. -/
theorem flytec_gets_times_incoming (n : Nat) (size : Nat) :
    ∀ f : flytec_t, chunks_nonempty f →
      (flytec_gets_times n f size).map (fun r => (r.1, incoming r.2)) =
        gets_spec_times n (incoming f) size := by
  induction n with
  | zero => intro f _; rfl
  | succ n ih =>
    intro f hc
    obtain ⟨h1, h2⟩ := flytec_gets_incoming f size hc
    rw [flytec_gets_times, gets_spec_times, ← h1]
    cases hg : flytec_gets f size with
    | error e => rfl
    | ok v =>
      obtain ⟨r, g⟩ := v
      cases r with
      | none => rfl
      | some line =>
        have hgc := h2 _ _ hg
        have ihg := ih g hgc
        simp only [Except.map]
        rw [← ihg]
        cases hrest : flytec_gets_times n g size with
        | error e => rfl
        | ok w => rfl

/-- The first line of a stream that has a line terminator. -/
theorem first_line_split (body rest : List Nat) (h : 10 ∉ body) :
    first_line (body ++ 10 :: rest) = body ++ [10] ∧
    after_first_line (body ++ 10 :: rest) = rest := by
  induction body with
  | nil => exact first_line_lf rest
  | cons c body ih =>
    have hc : c ≠ 10 := fun e => h (by rw [e]; exact List.mem_cons_self _ _)
    have hb : 10 ∉ body := fun e => h (List.mem_cons_of_mem _ e)
    obtain ⟨i1, i2⟩ := ih hb
    obtain ⟨j1, j2⟩ := first_line_cons c (body ++ 10 :: rest) hc
    exact ⟨by rw [List.cons_append, j1, i1]; rfl, by rw [List.cons_append, j2, i2]⟩

/-- A line terminator among the first `k` bytes of a stream: the stream starts with a line of
fewer than `k` bytes before the terminator. -/
theorem mem_take_split (s : List Nat) :
    ∀ k : Nat, 10 ∈ s.take k ↔
      ∃ body rest, s = body ++ 10 :: rest ∧ 10 ∉ body ∧ body.length < k := by
  induction s with
  | nil =>
    intro k
    simp
  | cons c s ih =>
    intro k
    cases k with
    | zero => simp
    | succ k =>
      rw [List.take_succ_cons, List.mem_cons]
      constructor
      · intro h
        by_cases hc : c = 10
        · exact ⟨[], s, by rw [hc]; rfl, by simp, by simp⟩
        · rcases h with h | h
          · exact absurd h.symm hc
          · obtain ⟨body, rest, e, hb, hl⟩ := (ih k).mp h
            refine ⟨c :: body, rest, by rw [e]; rfl, ?_, by simpa using hl⟩
            intro hm
            rcases List.mem_cons.mp hm with h1 | h1
            · exact hc h1.symm
            · exact hb h1
      · rintro ⟨body, rest, e, hb, hl⟩
        cases body with
        | nil =>
          left
          simp only [List.nil_append, List.cons.injEq] at e
          exact e.1.symm
        | cons b body =>
          right
          simp only [List.cons_append, List.cons.injEq] at e
          refine (ih k).mpr ⟨body, rest, e.2, fun hm => hb (List.mem_cons_of_mem _ hm), ?_⟩
          simpa using hl


/-- A result read off the incoming stream is a result of the call itself. -/
theorem result_of_incoming {α : Type} (x : Except Fatal (α × flytec_t)) :
    (∀ a s, x.map (fun r => (r.1, incoming r.2)) = .ok (a, s) →
      ∃ g, x = .ok (a, g) ∧ incoming g = s) ∧
    (∀ e, x.map (fun r => (r.1, incoming r.2)) = .error e → x = .error e) := by
  cases x with
  | error e0 =>
    refine ⟨fun a s h => ?_, fun e h => ?_⟩
    · simp [Except.map] at h
    · simpa [Except.map] using h
  | ok v =>
    obtain ⟨r, g⟩ := v
    refine ⟨fun a s h => ?_, fun e h => ?_⟩
    · simp only [Except.map, Except.ok.injEq, Prod.mk.injEq] at h
      exact ⟨g, by rw [h.1], h.2⟩
    · simp [Except.map] at h

/-- The line reader of a stream whose first line fits and does not start with `XON`. -/
theorem gets_spec_line (body rest : List Nat) (size : Nat) (h10 : 10 ∉ body)
    (hx : body.head? ≠ some XON) (hfit : body.length + 2 ≤ size) :
    gets_spec (body ++ 10 :: rest) size = .ok (some (body ++ [10]), rest) := by
  have hs : ∃ c t, body ++ 10 :: rest = c :: t ∧ c ≠ XON := by
    cases body with
    | nil => exact ⟨10, rest, rfl, by decide⟩
    | cons b body =>
      refine ⟨b, body ++ 10 :: rest, rfl, fun e => hx ?_⟩
      rw [e]
      rfl
  obtain ⟨c, t, hs, hc⟩ := hs
  have hmem : 10 ∈ (body ++ 10 :: rest).take (size - 1) :=
    (mem_take_split _ _).mpr ⟨body, rest, rfl, h10, by omega⟩
  obtain ⟨l1, l2⟩ := first_line_split body rest h10
  rw [hs] at hmem l1 l2 ⊢
  unfold gets_spec
  dsimp only
  rw [if_neg hc, if_pos hmem, l1, l2]

/-- The line reader applied as many times as a stream starts with lines that fit and do not
start with `XON`. -/
theorem gets_spec_times_lines (size : Nat) (rest : List Nat) :
    ∀ lines : List (List Nat),
      (∀ l ∈ lines, 10 ∉ l ∧ l.head? ≠ some XON ∧ l.length + 2 ≤ size) →
      gets_spec_times lines.length ((lines.map (fun l => l ++ [10])).flatten ++ rest) size =
        .ok (lines.map (fun l => l ++ [10]), rest) := by
  intro lines
  induction lines with
  | nil => intro _; rfl
  | cons l ls ih =>
    intro h
    obtain ⟨h1, h2, h3⟩ := h l (List.mem_cons_self _ _)
    have hrest := ih (fun x hx => h x (List.mem_cons_of_mem _ hx))
    have hstream : ((l :: ls).map (fun l => l ++ [10])).flatten ++ rest =
        l ++ 10 :: ((ls.map (fun l => l ++ [10])).flatten ++ rest) := by
      simp
    rw [hstream, List.length_cons, gets_spec_times, gets_spec_line l _ size h1 h2 h3]
    dsimp only
    rw [hrest]
    rfl

/-- The line reader applied more often than a stream starts with lines that fit, when the
resume marker `XON` follows these lines: it returns the lines and stops at the marker. -/
theorem gets_spec_times_lines_xon (size : Nat) (rest : List Nat) :
    ∀ (lines : List (List Nat)) (n : Nat), lines.length < n →
      (∀ l ∈ lines, 10 ∉ l ∧ l.head? ≠ some XON ∧ l.length + 2 ≤ size) →
      gets_spec_times n ((lines.map (fun l => l ++ [10])).flatten ++ XON :: rest) size =
        .ok (lines.map (fun l => l ++ [10]), XON :: rest) := by
  intro lines
  induction lines with
  | nil =>
    intro n hn _
    cases n with
    | zero => omega
    | succ n =>
      show gets_spec_times (n + 1) (XON :: rest) size = _
      rw [gets_spec_times]
      unfold gets_spec
      dsimp only
      rw [if_pos rfl]
      rfl
  | cons l ls ih =>
    intro n hn h
    cases n with
    | zero => omega
    | succ n =>
      obtain ⟨h1, h2, h3⟩ := h l (List.mem_cons_self _ _)
      have hrest := ih n (by simpa using hn) (fun x hx => h x (List.mem_cons_of_mem _ hx))
      have hstream : ((l :: ls).map (fun l => l ++ [10])).flatten ++ XON :: rest =
          l ++ 10 :: ((ls.map (fun l => l ++ [10])).flatten ++ XON :: rest) := by
        simp
      rw [hstream, gets_spec_times, gets_spec_line l _ size h1 h2 h3]
      dsimp only
      rw [hrest]
      rfl

/-- Counterexample to C19 as stated: a stream whose first byte is the resume marker `XON`.
Its first line `XON a LF` fits the buffer of 128 bytes, yet `flytec_gets` returns 0 (no
line) and consumes nothing, whether the transport delivers the three bytes at once or in
two chunks. -/
theorem flytec_gets_xon_first_no_line :
    first_line (incoming (flytec_new [[17, 97, 10]])) = [17, 97, 10] ∧
    (flytec_gets (flytec_new [[17, 97, 10]]) 128).map (fun r => (r.1, incoming r.2)) =
      .ok (none, [17, 97, 10]) ∧
    (flytec_gets (flytec_new [[17], [97, 10]]) 128).map (fun r => (r.1, incoming r.2)) =
      .ok (none, [17, 97, 10]) ∧
    (flytec_gets_times 3 (flytec_new [[97, 10], [17, 10, 98, 10]]) 128).map
      (fun r => (r.1, incoming r.2)) = .ok ([[97, 10]], [17, 10, 98, 10]) := by
  refine ⟨?_, ?_, ?_, ?_⟩ <;> decide

/-- Claim C19, amended: for two sessions whose transports deliver the same byte stream in
non-empty chunks, however split, `flytec_gets` and any number of successive calls of it
give the same results and leave the same stream unread: the result of a call and the
stream that it leaves are those of the line reader `gets_spec` on the stream.  When the
stream starts with a line (bytes without a line terminator, then the terminator) that does
not start with the resume marker `XON` and fits the caller's buffer together with the
terminating NUL, the result is that line, unchanged, and the rest of the stream stays
unread; when it starts with several such lines, successive calls return them one after the
other.  When the stream starts with `XON`, `flytec_gets` returns 0 (no line) and leaves the
whole stream unread; when `XON` follows lines that fit, successive calls return these lines
and no more, and leave the stream from `XON` on unread. -/
theorem flytec_gets_chunking (f g : flytec_t) (size : Nat) (hf : chunks_nonempty f)
    (hg : chunks_nonempty g) (hsame : incoming f = incoming g) :
    ((flytec_gets f size).map (fun r => (r.1, incoming r.2)) =
      (flytec_gets g size).map (fun r => (r.1, incoming r.2))) ∧
    (∀ n, (flytec_gets_times n f size).map (fun r => (r.1, incoming r.2)) =
      (flytec_gets_times n g size).map (fun r => (r.1, incoming r.2))) ∧
    (∀ body rest, incoming f = body ++ 10 :: rest → 10 ∉ body → body.head? ≠ some XON →
      body.length + 2 ≤ size →
      ∃ f2, flytec_gets f size = .ok (some (body ++ [10]), f2) ∧ incoming f2 = rest) ∧
    (∀ (lines : List (List Nat)) (rest : List Nat),
      incoming f = (lines.map (fun l => l ++ [10])).flatten ++ rest →
      (∀ l ∈ lines, 10 ∉ l ∧ l.head? ≠ some XON ∧ l.length + 2 ≤ size) →
      ∃ f2, flytec_gets_times lines.length f size = .ok (lines.map (fun l => l ++ [10]), f2) ∧
        incoming f2 = rest) ∧
    (∀ rest, incoming f = XON :: rest →
      ∃ f2, flytec_gets f size = .ok (none, f2) ∧ incoming f2 = XON :: rest) ∧
    (∀ (lines : List (List Nat)) (rest : List Nat) (n : Nat),
      incoming f = (lines.map (fun l => l ++ [10])).flatten ++ XON :: rest →
      (∀ l ∈ lines, 10 ∉ l ∧ l.head? ≠ some XON ∧ l.length + 2 ≤ size) →
      lines.length < n →
      ∃ f2, flytec_gets_times n f size = .ok (lines.map (fun l => l ++ [10]), f2) ∧
        incoming f2 = XON :: rest) ∧
    ((flytec_gets f size).map (fun r => (r.1, incoming r.2)) =
      gets_spec (incoming f) size) ∧
    (∀ n, (flytec_gets_times n f size).map (fun r => (r.1, incoming r.2)) =
      gets_spec_times n (incoming f) size) := by
  refine ⟨?_, ?_, ?_, ?_, ?_, ?_, (flytec_gets_incoming f size hf).1,
    fun n => flytec_gets_times_incoming n size f hf⟩
  · rw [(flytec_gets_incoming f size hf).1, (flytec_gets_incoming g size hg).1, hsame]
  · intro n
    rw [flytec_gets_times_incoming n size f hf, flytec_gets_times_incoming n size g hg, hsame]
  · intro body rest hs h10 hx hfit
    apply (result_of_incoming _).1
    rw [(flytec_gets_incoming f size hf).1, hs]
    exact gets_spec_line body rest size h10 hx hfit
  · intro lines rest hs hl
    apply (result_of_incoming _).1
    rw [flytec_gets_times_incoming _ size f hf, hs]
    exact gets_spec_times_lines size rest lines hl
  · intro rest hs
    apply (result_of_incoming _).1
    rw [(flytec_gets_incoming f size hf).1, hs]
    unfold gets_spec
    dsimp only
    rw [if_pos rfl]
  · intro lines rest n hs hl hn
    apply (result_of_incoming _).1
    rw [flytec_gets_times_incoming _ size f hf, hs]
    exact gets_spec_times_lines_xon size rest lines n hn hl

/-- Claim C19, amended, on the stream `ab LF cd LF XON e LF` delivered at once and in
chunks of one to three bytes: the calls return the two lines and then no line, and leave
the stream from `XON` on. -/
theorem flytec_gets_chunking_witness :
    chunks_nonempty (flytec_new [[97, 98, 10, 99, 100, 10, 17, 101, 10]]) ∧
    chunks_nonempty (flytec_new [[97], [98, 10, 99], [100, 10], [17, 101], [10]]) ∧
    incoming (flytec_new [[97, 98, 10, 99, 100, 10, 17, 101, 10]]) =
      incoming (flytec_new [[97], [98, 10, 99], [100, 10], [17, 101], [10]]) ∧
    (∃ f2, flytec_gets_times 2 (flytec_new [[97, 98, 10, 99, 100, 10, 17, 101, 10]]) 128 =
      .ok ([[97, 98, 10], [99, 100, 10]], f2) ∧ incoming f2 = [17, 101, 10]) ∧
    (∃ f2, flytec_gets_times 5 (flytec_new [[97, 98, 10, 99, 100, 10, 17, 101, 10]]) 128 =
      .ok ([[97, 98, 10], [99, 100, 10]], f2) ∧ incoming f2 = XON :: [101, 10]) ∧
    (flytec_gets_times 5 (flytec_new [[97, 98, 10, 99, 100, 10, 17, 101, 10]]) 128).map
        (fun r => (r.1, incoming r.2)) =
      (flytec_gets_times 5 (flytec_new [[97], [98, 10, 99], [100, 10], [17, 101], [10]])
        128).map (fun r => (r.1, incoming r.2)) :=
  have hf : chunks_nonempty (flytec_new [[97, 98, 10, 99, 100, 10, 17, 101, 10]]) := by
    unfold chunks_nonempty
    decide
  have hg : chunks_nonempty
      (flytec_new [[97], [98, 10, 99], [100, 10], [17, 101], [10]]) := by
    unfold chunks_nonempty
    decide
  have w := flytec_gets_chunking (flytec_new [[97, 98, 10, 99, 100, 10, 17, 101, 10]])
    (flytec_new [[97], [98, 10, 99], [100, 10], [17, 101], [10]]) 128 hf hg rfl
  ⟨hf, hg, rfl,
    w.2.2.2.1 [[97, 98], [99, 100]] [17, 101, 10] rfl (by decide),
    w.2.2.2.2.2.1 [[97, 98], [99, 100]] [101, 10] 5 rfl (by decide) (by decide),
    w.2.1 5⟩

/-- Claim C20: for every buffer size `n` and every incoming stream, delivered in non-empty
chunks, that does not start with the resume marker `XON`: when a line terminator is among
the first `n - 1` bytes of the stream, `flytec_gets` returns the complete first line, which
ends in the terminator and takes at most `n` bytes with the terminating NUL, and leaves the
rest of the stream unread; when there is none, it fails fatally, with the time-out of the
transport if the stream ends within `n - 1` bytes and with the overrun of the buffer
otherwise; and whatever it returns is a complete line of at most `n - 1` bytes. -/
theorem flytec_gets_line_or_fatal (f : flytec_t) (n : Nat) (hc : chunks_nonempty f)
    (hx : (incoming f).head? ≠ some XON) :
    (10 ∈ (incoming f).take (n - 1) →
      ∃ body rest g, incoming f = body ++ 10 :: rest ∧ 10 ∉ body ∧
        flytec_gets f n = .ok (some (body ++ [10]), g) ∧ incoming g = rest ∧
        (body ++ [10]).length + 1 ≤ n) ∧
    (10 ∉ (incoming f).take (n - 1) →
      flytec_gets f n = .error (if (incoming f).length ≤ n - 1 then
        .timeout_waiting_for_data else .die_flytec_gets)) ∧
    (∀ r g, flytec_gets f n = .ok (r, g) →
      ∃ body rest, incoming f = body ++ 10 :: rest ∧ 10 ∉ body ∧ r = some (body ++ [10]) ∧
        (body ++ [10]).length + 1 ≤ n ∧ incoming g = rest) := by
  have hspec := (flytec_gets_incoming f n hc).1
  have hyes : 10 ∈ (incoming f).take (n - 1) →
      ∃ body rest g, incoming f = body ++ 10 :: rest ∧ 10 ∉ body ∧
        flytec_gets f n = .ok (some (body ++ [10]), g) ∧ incoming g = rest ∧
        (body ++ [10]).length + 1 ≤ n := by
    intro h
    obtain ⟨body, rest, hs, h10, hlen⟩ := (mem_take_split _ _).mp h
    have hxb : body.head? ≠ some XON := by
      intro e
      apply hx
      rw [hs]
      cases body with
      | nil => cases e
      | cons b body => exact e
    have hline := gets_spec_line body rest n h10 hxb (by omega)
    rw [← hs, ← hspec] at hline
    obtain ⟨g, hg1, hg2⟩ := (result_of_incoming _).1 _ _ hline
    exact ⟨body, rest, g, hs, h10, hg1, hg2, by rw [List.length_append]; simp; omega⟩
  have hno : 10 ∉ (incoming f).take (n - 1) →
      flytec_gets f n = .error (if (incoming f).length ≤ n - 1 then
        .timeout_waiting_for_data else .die_flytec_gets) := by
    intro h
    apply (result_of_incoming _).2
    rw [hspec]
    unfold gets_spec
    cases hs : incoming f with
    | nil => simp
    | cons c t =>
      rw [hs] at hx h
      have hcx : c ≠ XON := fun e => hx (by rw [e]; rfl)
      dsimp only
      rw [if_neg hcx, if_neg h]
      by_cases hlen : (c :: t).length ≤ n - 1
      · rw [if_pos hlen, if_pos hlen]
      · rw [if_neg hlen, if_neg hlen]
  refine ⟨hyes, hno, ?_⟩
  intro r g hr
  by_cases h : 10 ∈ (incoming f).take (n - 1)
  · obtain ⟨body, rest, g2, hs, h10, hg1, hg2, hlen⟩ := hyes h
    rw [hg1] at hr
    cases hr
    exact ⟨body, rest, hs, h10, rfl, hlen, hg2⟩
  · rw [hno h] at hr
    cases hr

/-- Claim C20 on the stream `ab LF c` delivered in two chunks, with a buffer of 4 bytes: the
line `ab LF` and its NUL fill the buffer exactly. -/
theorem flytec_gets_line_or_fatal_witness :
    chunks_nonempty (flytec_new [[97], [98, 10, 99]]) ∧
    (incoming (flytec_new [[97], [98, 10, 99]])).head? ≠ some XON ∧
    ∃ body rest g, incoming (flytec_new [[97], [98, 10, 99]]) = body ++ 10 :: rest ∧
      10 ∉ body ∧
      flytec_gets (flytec_new [[97], [98, 10, 99]]) 4 = .ok (some (body ++ [10]), g) ∧
      incoming g = rest ∧ (body ++ [10]).length + 1 ≤ 4 :=
  have hc : chunks_nonempty (flytec_new [[97], [98, 10, 99]]) := by
    unfold chunks_nonempty
    decide
  ⟨hc, by decide,
    (flytec_gets_line_or_fatal (flytec_new [[97], [98, 10, 99]]) 4 hc (by decide)).1
      (by decide)⟩

/-! ## Theorems: the manufacturer code -/

/-- Claim C24: for every instrument identifier, `manufacturer_new` returns `FLY` exactly
when the identifier is one of `5020`, `5030`, `6020`, `6030`, returns `BRA` exactly when it
is one of `COMPEO`, `COMPEO+`, `COMPETINO`, `COMPETINO+`, `GALILEO`, and returns `XXX` for
every other string; the comparison is exact and distinguishes upper and lower case; the
result has three letters and depends on the identifier only. -/
theorem manufacturer_new_spec (instrument_id : List Nat) :
    (manufacturer_new instrument_id = bytes "FLY" ↔
      c_str instrument_id ∈ flytec_instruments) ∧
    (manufacturer_new instrument_id = bytes "BRA" ↔
      c_str instrument_id ∈ brauniger_instruments) ∧
    (manufacturer_new instrument_id = bytes "XXX" ↔
      c_str instrument_id ∉ flytec_instruments ∧
      c_str instrument_id ∉ brauniger_instruments) ∧
    (manufacturer_new instrument_id).length = 3 ∧
    (∀ c ∈ manufacturer_new instrument_id, 65 ≤ c ∧ c ≤ 90) ∧
    (∀ other, c_str other = c_str instrument_id →
      manufacturer_new other = manufacturer_new instrument_id) ∧
    manufacturer_new (bytes "5020") = bytes "FLY" ∧
    manufacturer_new (bytes "GALILEO") = bytes "BRA" ∧
    manufacturer_new (bytes "galileo") = bytes "XXX" ∧
    manufacturer_new (bytes "Compeo") = bytes "XXX" ∧
    manufacturer_new (bytes "5020 ") = bytes "XXX" ∧
    manufacturer_new (bytes "50") = bytes "XXX" ∧
    manufacturer_new (bytes "COMPEO++") = bytes "XXX" ∧
    manufacturer_new (bytes "") = bytes "XXX" := by
  have hfb : bytes "FLY" ≠ bytes "BRA" := by decide
  have hfx : bytes "FLY" ≠ bytes "XXX" := by decide
  have hbx : bytes "BRA" ≠ bytes "XXX" := by decide
  have hF : c_str instrument_id ∈ flytec_instruments ↔
      (c_str instrument_id = bytes "5020" ∨ c_str instrument_id = bytes "5030"
        ∨ c_str instrument_id = bytes "6020" ∨ c_str instrument_id = bytes "6030") := by
    unfold flytec_instruments
    simp only [List.mem_cons, List.mem_singleton, List.not_mem_nil, or_false]
  have hB : c_str instrument_id ∈ brauniger_instruments ↔
      (c_str instrument_id = bytes "COMPEO" ∨ c_str instrument_id = bytes "COMPEO+"
        ∨ c_str instrument_id = bytes "COMPETINO" ∨ c_str instrument_id = bytes "COMPETINO+"
        ∨ c_str instrument_id = bytes "GALILEO") := by
    unfold brauniger_instruments
    simp only [List.mem_cons, List.mem_singleton, List.not_mem_nil, or_false]
  have hdisj : c_str instrument_id ∈ flytec_instruments →
      c_str instrument_id ∉ brauniger_instruments := by
    intro h1 h2
    rw [hF] at h1
    rw [hB] at h2
    rcases h1 with h1 | h1 | h1 | h1 <;> rw [h1] at h2 <;> revert h2 <;> decide
  have hcases : (c_str instrument_id ∈ flytec_instruments ∧
        manufacturer_new instrument_id = bytes "FLY") ∨
      (c_str instrument_id ∉ flytec_instruments ∧
        c_str instrument_id ∈ brauniger_instruments ∧
        manufacturer_new instrument_id = bytes "BRA") ∨
      (c_str instrument_id ∉ flytec_instruments ∧
        c_str instrument_id ∉ brauniger_instruments ∧
        manufacturer_new instrument_id = bytes "XXX") := by
    rw [hF, hB]
    unfold manufacturer_new
    by_cases h1 : (c_str instrument_id = bytes "5020" ∨ c_str instrument_id = bytes "5030"
        ∨ c_str instrument_id = bytes "6020" ∨ c_str instrument_id = bytes "6030")
    · rw [if_pos h1]
      exact Or.inl ⟨h1, rfl⟩
    · rw [if_neg h1]
      by_cases h2 : (c_str instrument_id = bytes "COMPEO"
          ∨ c_str instrument_id = bytes "COMPEO+"
          ∨ c_str instrument_id = bytes "COMPETINO"
          ∨ c_str instrument_id = bytes "COMPETINO+"
          ∨ c_str instrument_id = bytes "GALILEO")
      · rw [if_pos h2]
        exact Or.inr (Or.inl ⟨h1, h2, rfl⟩)
      · rw [if_neg h2]
        exact Or.inr (Or.inr ⟨h1, h2, rfl⟩)
  refine ⟨?_, ?_, ?_, ?_, ?_, ?_, ?_⟩
  · rcases hcases with ⟨a, b⟩ | ⟨a, _, b⟩ | ⟨a, _, b⟩
    · exact ⟨fun _ => a, fun _ => b⟩
    · exact ⟨fun h => absurd (b.symm.trans h) hfb.symm, fun h => absurd h a⟩
    · exact ⟨fun h => absurd (b.symm.trans h) hfx.symm, fun h => absurd h a⟩
  · rcases hcases with ⟨a, b⟩ | ⟨_, a, b⟩ | ⟨_, a, b⟩
    · exact ⟨fun h => absurd (b.symm.trans h) hfb, fun h => absurd h (hdisj a)⟩
    · exact ⟨fun _ => a, fun _ => b⟩
    · exact ⟨fun h => absurd (b.symm.trans h) hbx.symm, fun h => absurd h a⟩
  · rcases hcases with ⟨a, b⟩ | ⟨_, a, b⟩ | ⟨a1, a2, b⟩
    · exact ⟨fun h => absurd (b.symm.trans h) hfx, fun h => absurd a h.1⟩
    · exact ⟨fun h => absurd (b.symm.trans h) hbx, fun h => absurd a h.2⟩
    · exact ⟨fun _ => ⟨a1, a2⟩, fun _ => b⟩
  · rcases hcases with ⟨_, b⟩ | ⟨_, _, b⟩ | ⟨_, _, b⟩ <;> rw [b] <;> rfl
  · rcases hcases with ⟨_, b⟩ | ⟨_, _, b⟩ | ⟨_, _, b⟩ <;> rw [b] <;> decide
  · intro other h
    unfold manufacturer_new
    rw [h]
  · refine ⟨?_, ?_, ?_, ?_, ?_, ?_, ?_, ?_⟩ <;> decide

/-! ## Theorems: the order of packed dates -/

/-- Claim C23: for calendar dates with year 1900 or later, month 1..12 and day 1..31 whose
packed date fits an `int`, the packed dates are equal exactly when year, month and day are
equal, and one packed date is smaller than the other exactly when its date is the earlier
one in the order of the calendar (year first, then month, then day). -/
theorem calendar_date_order (year month day year2 month2 day2 : Nat)
    (hy : 1900 ≤ year) (hm : 1 ≤ month ∧ month ≤ 12) (hd : 1 ≤ day ∧ day ≤ 31)
    (hy2 : 1900 ≤ year2) (hm2 : 1 ≤ month2 ∧ month2 ≤ 12) (hd2 : 1 ≤ day2 ∧ day2 ≤ 31)
    (hfit : calendar_date year month day ≤ INT_MAX)
    (hfit2 : calendar_date year2 month2 day2 ≤ INT_MAX) :
    (calendar_date year month day = calendar_date year2 month2 day2 ↔
      year = year2 ∧ month = month2 ∧ day = day2) ∧
    (calendar_date year month day < calendar_date year2 month2 day2 ↔
      calendar_lt year month day year2 month2 day2) ∧
    0 ≤ calendar_date year month day := by
  -- the bounds name the dates that an `int` holds; the order needs nothing else of them
  have hfits : calendar_date year month day ≤ INT_MAX ∧
      calendar_date year2 month2 day2 ≤ INT_MAX := ⟨hfit, hfit2⟩
  clear hfits
  unfold calendar_lt
  unfold calendar_date DATE_NEW INT_MAX at *
  norm_num at *
  refine ⟨?_, ?_, ?_⟩
  · constructor
    · intro h
      refine ⟨?_, ?_, ?_⟩ <;> omega
    · rintro ⟨rfl, rfl, rfl⟩
      rfl
  · constructor
    · intro h
      omega
    · intro h
      omega
  · omega

/-- Claim C23 on the dates 2007-06-30 and 2007-07-01. -/
theorem calendar_date_order_witness :
    calendar_date 2007 6 30 < calendar_date 2007 7 1 ↔ calendar_lt 2007 6 30 2007 7 1 :=
  (calendar_date_order 2007 6 30 2007 7 1 (by decide) (by decide) (by decide) (by decide)
    (by decide) (by decide) (by decide) (by decide)).2.1

/-! ## Theorems: the serial number in the short file name -/

theorem base36_at_ok (i : Int) (v : Nat) (h : base36_at i = .ok v) :
    ∃ n : Nat, n < 36 ∧ i = (n : Int) ∧ v = base36_symbol n := by
  unfold base36_at at h
  by_cases hi : 0 ≤ i ∧ i < 36
  · rw [if_pos hi] at h
    refine ⟨i.toNat, by omega, by omega, ?_⟩
    rw [← base36_getD i.toNat (by omega)]
    cases h
    rfl
  · rw [if_neg hi] at h
    cases h

theorem base36_value_symbol (n : Nat) (hn : n < 36) : base36_value (base36_symbol n) = n := by
  unfold base36_value base36_symbol
  split_ifs <;> omega

/-- The three characters of the serial number, for a serial number that is not negative. -/
theorem short_serial_number_nat (s : Nat) :
    short_serial_number (s : Int) =
      .ok [base36_symbol (s % 36), base36_symbol (s / 36 % 36),
        base36_symbol (s / 1296 % 36)] := by
  have es0 : (s : Int).tmod 36 = ((s % 36 : Nat) : Int) := by
    rw [Int.tmod_eq_emod (by omega) (by omega)]
    omega
  have ed1 : (s : Int).tdiv 36 = ((s / 36 : Nat) : Int) := by
    rw [Int.tdiv_eq_ediv (by omega) (by omega)]
    omega
  have ed2 : ((s / 36 : Nat) : Int).tdiv 36 = ((s / 1296 : Nat) : Int) := by
    rw [Int.tdiv_eq_ediv (by omega) (by omega)]
    omega
  have es1 : ((s : Int).tdiv 36).tmod 36 = ((s / 36 % 36 : Nat) : Int) := by
    rw [ed1, Int.tmod_eq_emod (by omega) (by omega)]
    omega
  have es2 : (((s : Int).tdiv 36).tdiv 36).tmod 36 = ((s / 1296 % 36 : Nat) : Int) := by
    rw [ed1, ed2, Int.tmod_eq_emod (by omega) (by omega)]
    omega
  unfold short_serial_number
  rw [es0, es1, es2,
    base36_at_of_nat (s % 36) (Nat.mod_lt _ (by omega)),
    base36_at_of_nat (s / 36 % 36) (Nat.mod_lt _ (by omega)),
    base36_at_of_nat (s / 1296 % 36) (Nat.mod_lt _ (by omega))]

/-- The characters 5 to 7 of a short file name are the three characters of the serial
number. -/
theorem igc_filename_short_serial (m : List Nat) (s : Int) (track : track_t)
    (name : List Nat) (hm : deref m ≠ 0)
    (h : igc_filename .igc_filename_format_short (some m) s track = .ok name) :
    short_serial_number s = .ok ((name.drop 4).take 3) := by
  unfold igc_filename at h
  unfold short_serial_number
  dsimp only at h
  cases h0 : base36_at (s.tmod 36) with
  | error e => rw [h0] at h; cases h
  | ok s0 =>
    cases h1 : base36_at ((s.tdiv 36).tmod 36) with
    | error e => rw [h0, h1] at h; cases h
    | ok s1 =>
      cases h2 : base36_at (((s.tdiv 36).tdiv 36).tmod 36) with
      | error e => rw [h0, h1, h2] at h; cases h
      | ok s2 =>
        cases h3 : base36_at ((DATE_YEAR track.date).tmod 10) with
        | error e => rw [h0, h1, h2, h3] at h; cases h
        | ok year =>
          cases h4 : base36_at (DATE_MON track.date + 1) with
          | error e => rw [h0, h1, h2, h3, h4] at h; cases h
          | ok mon =>
            cases h5 : base36_at (DATE_MDAY track.date) with
            | error e => rw [h0, h1, h2, h3, h4, h5] at h; cases h
            | ok mday =>
              cases h6 : base36_at track.day_index with
              | error e => rw [h0, h1, h2, h3, h4, h5, h6] at h; cases h
              | ok k =>
                rw [h0, h1, h2, h3, h4, h5, h6] at h
                dsimp only at h
                rw [if_neg (by simp)] at h
                have hne : ∀ c ∈ [year, mon, mday, deref m, s0, s1, s2, k, 46, 73, 71, 67],
                    c ≠ 0 := by
                  intro c hc
                  simp only [List.mem_cons, List.mem_singleton, List.not_mem_nil,
                    or_false] at hc
                  have hsym : ∀ i v, base36_at i = .ok v → v ≠ 0 := by
                    intro i v hv
                    obtain ⟨n, _, _, e⟩ := base36_at_ok i v hv
                    rw [e]
                    exact base36_symbol_ne_zero n
                  rcases hc with e | e | e | e | e | e | e | e | e | e | e | e
                  · rw [e]; exact hsym _ _ h3
                  · rw [e]; exact hsym _ _ h4
                  · rw [e]; exact hsym _ _ h5
                  · rw [e]; exact hm
                  · rw [e]; exact hsym _ _ h0
                  · rw [e]; exact hsym _ _ h1
                  · rw [e]; exact hsym _ _ h2
                  · rw [e]; exact hsym _ _ h6
                  all_goals omega
                have hname : name = [year, mon, mday, deref m, s0, s1, s2, k, 46, 73, 71, 67] := by
                  have := c_str_of_ne_zero _ hne
                  simp only [Except.ok.injEq] at h
                  rw [← h]
                  exact this
                rw [hname]
                rfl

/-- Claim C26: the three characters of the serial number in the short file name, the
symbols for `s mod 36`, `(s / 36) mod 36` and `(s / 1296) mod 36`, determine a serial number
`s` below 46656: two serial numbers below 46656 with the same three characters are equal,
and `s` is `d0 + 36 d1 + 1296 d2` for the values `d0`, `d1`, `d2` of the characters.  The
serial numbers `s` and `s + 46656` have the same three characters. -/
theorem short_serial_number_injective (s s2 : Nat) (hs : s < 46656) (hs2 : s2 < 46656) :
    short_serial_number (s : Int) =
      .ok [base36_symbol (s % 36), base36_symbol (s / 36 % 36),
        base36_symbol (s / 1296 % 36)] ∧
    (short_serial_number (s : Int) = short_serial_number (s2 : Int) → s = s2) ∧
    (∀ d0 d1 d2, short_serial_number (s : Int) = .ok [d0, d1, d2] →
      s = base36_value d0 + 36 * base36_value d1 + 1296 * base36_value d2) ∧
    (∀ n : Nat, short_serial_number ((n : Int) + 46656) = short_serial_number (n : Int)) ∧
    (∀ (m : List Nat) (track : track_t) (name : List Nat), deref m ≠ 0 →
      igc_filename .igc_filename_format_short (some m) (s : Int) track = .ok name →
      short_serial_number (s : Int) = .ok ((name.drop 4).take 3)) := by
  have hrec : ∀ n : Nat, n < 46656 → ∀ d0 d1 d2,
      short_serial_number (n : Int) = .ok [d0, d1, d2] →
      n = base36_value d0 + 36 * base36_value d1 + 1296 * base36_value d2 := by
    intro n hn d0 d1 d2 h
    rw [short_serial_number_nat] at h
    simp only [Except.ok.injEq, List.cons.injEq, and_true] at h
    obtain ⟨e0, e1, e2⟩ := h
    rw [← e0, ← e1, ← e2, base36_value_symbol _ (Nat.mod_lt _ (by omega)),
      base36_value_symbol _ (Nat.mod_lt _ (by omega)),
      base36_value_symbol _ (Nat.mod_lt _ (by omega))]
    omega
  refine ⟨short_serial_number_nat s, ?_, hrec s hs, ?_, ?_⟩
  · intro h
    have h1 := hrec s hs _ _ _ (short_serial_number_nat s)
    have h2 := hrec s2 hs2 _ _ _ (h ▸ short_serial_number_nat s)
    omega
  · intro n
    have e : (n : Int) + 46656 = ((n + 46656 : Nat) : Int) := by omega
    rw [e, short_serial_number_nat, short_serial_number_nat]
    have a0 : (n + 46656) % 36 = n % 36 := by omega
    have a1 : (n + 46656) / 36 % 36 = n / 36 % 36 := by omega
    have a2 : (n + 46656) / 1296 % 36 = n / 1296 % 36 := by omega
    rw [a0, a1, a2]
  · intro m track name hm h
    exact igc_filename_short_serial m s track name hm h

/-- Claim C26 on the serial numbers 123 and 46655: the characters of 123 are `F30`. -/
theorem short_serial_number_injective_witness :
    short_serial_number (123 : Nat) = .ok (bytes "F30") ∧
    (short_serial_number ((123 : Nat) : Int) = short_serial_number ((46655 : Nat) : Int) →
      123 = 46655) :=
  ⟨by decide, (short_serial_number_injective 123 46655 (by decide) (by decide)).2.1⟩

/-! ## Theorems: the empty listing and the cached values -/

/-- The function `flytec_expectc` on a session whose next incoming byte is the expected
one: it consumes this byte and nothing else. -/
theorem flytec_expectc_incoming (f : flytec_t) (c : Nat) (rest : List Nat)
    (hc : chunks_nonempty f) (hin : incoming f = c :: rest) (h128 : c < 128) :
    ∃ g, flytec_expectc f c = .ok g ∧ incoming g = rest ∧ chunks_nonempty g := by
  have key : ∀ f1 : flytec_t, f1.unread ≠ [] → chunks_nonempty f1 →
      incoming f1 = c :: rest →
      ∃ g, (match (match (Except.ok f1 : Except Fatal flytec_t) with
          | .error e => (.error e : Except Fatal (Int × flytec_t))
          | .ok flytec =>
            match flytec.unread with
            | [] => .ok (-1, flytec)
            | c :: unread =>
              .ok (if c < 128 then (c : Int) else (c : Int) - 256,
                { flytec with unread := unread })) with
        | .error e => (.error e : Except Fatal flytec_t)
        | .ok (got, flytec) =>
          if got ≠ (c : Int) then .error .unexpected_character else .ok flytec) = .ok g ∧
        incoming g = rest ∧ chunks_nonempty g := by
    intro f1 hu hc1 hin1
    cases hun : f1.unread with
    | nil => exact absurd hun hu
    | cons b u =>
      have hb : incoming f1 = b :: (u ++ f1.device.flatten) := by
        unfold incoming
        rw [hun]
        rfl
      rw [hin1] at hb
      simp only [List.cons.injEq] at hb
      obtain ⟨hb1, hb2⟩ := hb
      subst hb1
      dsimp only
      rw [hun]
      dsimp only
      rw [if_pos h128, if_neg (not_not.mpr rfl)]
      exact ⟨_, rfl, hb2.symm, hc1⟩
  unfold flytec_expectc flytec_getc
  by_cases hu : f.unread = []
  · rw [if_pos hu]
    obtain ⟨r1, r2⟩ := flytec_read_incoming f hu hc
    have hd : f.device ≠ [] := by
      intro hd
      unfold incoming at hin
      rw [hu, hd] at hin
      cases hin
    obtain ⟨g, hg1, hg2, hg3, hg4⟩ := r2 hd
    rw [hg1]
    exact key g hg3 hg4 (hg2.trans hin)
  · rw [if_neg hu]
    exact key f hu hc hin

/-- A successful identity query leaves the identity in the session. -/
theorem flytec_pbrsnp_cached (f g : flytec_t) (snp : snp_t)
    (h : flytec_pbrsnp f = .ok (snp, g)) : g.snp = some snp := by
  unfold flytec_pbrsnp at h
  cases hsnp : f.snp with
  | some cached =>
    rw [hsnp] at h
    cases h
    exact hsnp
  | none =>
    rw [hsnp] at h
    dsimp only at h
    cases h1 : flytec_puts_nmea f PBRSNP with
    | error e => rw [h1] at h; cases h
    | ok f1 =>
      rw [h1] at h
      dsimp only at h
      cases h2 : flytec_expectc f1 XOFF with
      | error e => rw [h2] at h; cases h
      | ok f2 =>
        rw [h2] at h
        dsimp only at h
        cases h3 : flytec_gets_nmea f2 128 with
        | error e => rw [h3] at h; cases h
        | ok r =>
          obtain ⟨line, f3⟩ := r
          rw [h3] at h
          cases line with
          | none => cases h
          | some line =>
            dsimp only at h
            cases h4 : snp_new line with
            | error e => rw [h4] at h; cases h
            | ok r2 =>
              rw [h4] at h
              cases r2 with
              | none => cases h
              | some decoded =>
                dsimp only at h
                cases h5 : flytec_expectc f3 XON with
                | error e => rw [h5] at h; cases h
                | ok f4 =>
                  rw [h5] at h
                  cases h
                  rfl

/-- A successful listing leaves the listing in the session. -/
theorem flytec_pbrtl_cached (mktime : tm → Int) (f g : flytec_t)
    (manufacturer : Option (List Nat)) (filename_format : igc_filename_format_t)
    (trackv : List (Option track_t))
    (h : flytec_pbrtl mktime f manufacturer filename_format = some (.ok (trackv, g))) :
    g.trackv = some trackv := by
  cases hv : f.trackv with
  | none => exact (flytec_pbrtl_ok mktime f g manufacturer filename_format trackv hv h).1
  | some cached =>
    unfold flytec_pbrtl at h
    rw [hv] at h
    cases h
    exact hv

/-- Claim C21: on a session without a listing (`trackv` is NULL and `trackc` is 0, as
`flytec_new` leaves them) whose device answers the listing request with `XOFF` and then at
once `XON`, `flytec_pbrtl` succeeds: the line reader returns 0 and leaves `XON` in the
stream, the listing becomes the array of one NULL slot (zero descriptors), `flytec_expectc`
then accepts `XON`, and the function returns this array.  The cached listing is present
(not NULL), unlike before the call, and `trackc` stays 0. -/
theorem flytec_pbrtl_empty_listing (mktime : tm → Int) (f started : flytec_t)
    (manufacturer : Option (List Nat)) (filename_format : igc_filename_format_t)
    (rest : List Nat) (hfresh : f.trackv = none) (hzero : f.trackc = 0)
    (hreq : flytec_pbrtl_request f = .ok started) (hchunks : chunks_nonempty started)
    (hxon : incoming started = XON :: rest) :
    ∃ waiting g,
      flytec_gets started 128 = .ok (none, waiting) ∧
      flytec_gets_nmea started 128 = .ok (none, waiting) ∧
      incoming waiting = XON :: rest ∧
      flytec_expectc { waiting with trackv := some [none] } XON = .ok g ∧
      incoming g = rest ∧
      flytec_pbrtl mktime f manufacturer filename_format = some (.ok ([none], g)) ∧
      g.trackv = some [none] ∧ g.trackc = 0 ∧ g.trackv ≠ f.trackv ∧
      g.written = started.written := by
  obtain ⟨st1, st2⟩ := flytec_pbrtl_request_session f started hreq
  obtain ⟨l1, l2⟩ := flytec_gets_incoming started 128 hchunks
  have hspec : gets_spec (incoming started) 128 = .ok (none, XON :: rest) := by
    rw [hxon]
    unfold gets_spec
    dsimp only
    rw [if_pos rfl]
  rw [hspec] at l1
  obtain ⟨waiting, hw1, hw2⟩ := (result_of_incoming _).1 _ _ l1
  have hwc : chunks_nonempty waiting := l2 _ _ hw1
  obtain ⟨⟨_, _, _, _, w5, w6, w7⟩, _⟩ := flytec_gets_session _ _ _ _ hw1
  have hnmea : flytec_gets_nmea started 128 = .ok (none, waiting) := by
    unfold flytec_gets_nmea
    rw [hw1]
  have hfc : chunks_nonempty { waiting with trackv := some [none] } := hwc
  have hfi : incoming { waiting with trackv := some [none] } = XON :: rest := hw2
  obtain ⟨g, hg1, hg2, _⟩ :=
    flytec_expectc_incoming { waiting with trackv := some [none] } XON rest hfc hfi
      (by decide)
  obtain ⟨_, _, _, _, g5, g6, g7⟩ := flytec_expectc_session _ _ _ hg1
  have hgv : g.trackv = some [none] := g6
  have hgc : g.trackc = 0 := by
    rw [g5]
    show waiting.trackc = 0
    rw [w5, st2, hzero]
  have hfin : flytec_pbrtl_finish waiting manufacturer filename_format =
      .ok { waiting with trackv := some [none] } := by
    unfold flytec_pbrtl_finish
    have : waiting.trackc = 0 := by rw [w5, st2, hzero]
    rw [if_neg (not_not.mpr this)]
  have hbody : ∀ m, flytec_pbrtl_body mktime started m filename_format =
      some (.ok ([none], g)) := by
    intro m
    have hfin2 : flytec_pbrtl_finish waiting m filename_format =
        .ok { waiting with trackv := some [none] } := by
      unfold flytec_pbrtl_finish
      have : waiting.trackc = 0 := by rw [w5, st2, hzero]
      rw [if_neg (not_not.mpr this)]
    unfold flytec_pbrtl_body
    rw [flytec_pbrtl_loop_succ, hnmea]
    dsimp only
    rw [hfin2]
    dsimp only
    rw [hg1]
    dsimp only
    rw [hgv]
    rfl
  refine ⟨waiting, g, hw1, hnmea, hw2, hg1, hg2, ?_, hgv, hgc, ?_, ?_⟩
  · unfold flytec_pbrtl
    rw [hfresh]
    dsimp only
    rw [hreq]
    exact hbody _
  · rw [hgv, hfresh]
    exact fun e => by cases e
  · rw [g7]
    exact w7

/-- Claim C21 on the session whose device sends the identity, then `XOFF` and `XON` in
answer to the listing request. -/
theorem flytec_pbrtl_empty_listing_witness :
    (example_session_with []).trackv = none ∧ (example_session_with []).trackc = 0 ∧
    flytec_pbrtl_request (example_session_with []) = .ok example_session_requested ∧
    chunks_nonempty example_session_requested ∧
    incoming example_session_requested = XON :: [] ∧
    ∃ waiting g,
      flytec_gets example_session_requested 128 = .ok (none, waiting) ∧
      flytec_gets_nmea example_session_requested 128 = .ok (none, waiting) ∧
      incoming waiting = XON :: [] ∧
      flytec_expectc { waiting with trackv := some [none] } XON = .ok g ∧
      incoming g = [] ∧
      flytec_pbrtl mktime_zero (example_session_with []) none .igc_filename_format_long =
        some (.ok ([none], g)) ∧
      g.trackv = some [none] ∧ g.trackc = 0 ∧ g.trackv ≠ (example_session_with []).trackv ∧
      g.written = example_session_requested.written :=
  ⟨rfl, rfl, by decide, by decide, rfl,
    flytec_pbrtl_empty_listing mktime_zero (example_session_with [])
      example_session_requested none .igc_filename_format_long [] rfl rfl (by decide)
      (by decide) rfl⟩

/-- Claim C22: a successful identity query leaves the identity in the session, and on every
session that holds an identity `flytec_pbrsnp` returns it and leaves the session as it is:
nothing is written and nothing is read.  A successful listing leaves the listing in the
session, and on every session that holds a listing, the empty one included,
`flytec_pbrtl` returns it and leaves the session as it is, whatever the manufacturer, the
format of the file names and the time conversion of the later call. -/
theorem cached_values_returned :
    (∀ (f g : flytec_t) (snp : snp_t), flytec_pbrsnp f = .ok (snp, g) →
      g.snp = some snp ∧ flytec_pbrsnp g = .ok (snp, g)) ∧
    (∀ (later : flytec_t) (snp : snp_t), later.snp = some snp →
      flytec_pbrsnp later = .ok (snp, later)) ∧
    (∀ (mktime : tm → Int) (f g : flytec_t) (manufacturer : Option (List Nat))
      (filename_format : igc_filename_format_t) (trackv : List (Option track_t)),
      flytec_pbrtl mktime f manufacturer filename_format = some (.ok (trackv, g)) →
      g.trackv = some trackv ∧
      ∀ (mktime2 : tm → Int) (manufacturer2 : Option (List Nat))
        (filename_format2 : igc_filename_format_t),
        flytec_pbrtl mktime2 g manufacturer2 filename_format2 = some (.ok (trackv, g))) ∧
    (∀ (later : flytec_t) (trackv : List (Option track_t)) (mktime : tm → Int)
      (manufacturer : Option (List Nat)) (filename_format : igc_filename_format_t),
      later.trackv = some trackv →
      flytec_pbrtl mktime later manufacturer filename_format = some (.ok (trackv, later))) ∧
    flytec_pbrtl mktime_zero (example_session_with []) none .igc_filename_format_long =
      some (.ok ([none],
        { example_session_requested with
          trackv := some [none]
          device := [] })) ∧
    flytec_pbrtl mktime_zero
        { example_session_requested with
          trackv := some [none]
          device := [] }
        (some (bytes "BRA")) .igc_filename_format_short =
      some (.ok ([none],
        { example_session_requested with
          trackv := some [none]
          device := [] })) ∧
    flytec_pbrtl mktime_zero example_session (some (bytes "FLY"))
        .igc_filename_format_long =
      some (.ok (example_listing_long, example_session_listed example_listing_long)) ∧
    flytec_pbrtl mktime_zero (example_session_listed example_listing_long)
        (some (bytes "BRA")) .igc_filename_format_short =
      some (.ok (example_listing_long, example_session_listed example_listing_long)) ∧
    (flytec_pbrsnp (example_session_listed example_listing_long)).map (fun r => r.2) =
      .ok (example_session_listed example_listing_long) := by
  have hsnp : ∀ (later : flytec_t) (snp : snp_t), later.snp = some snp →
      flytec_pbrsnp later = .ok (snp, later) := by
    intro later snp h
    unfold flytec_pbrsnp
    rw [h]
  have htl : ∀ (later : flytec_t) (trackv : List (Option track_t)) (mktime : tm → Int)
      (manufacturer : Option (List Nat)) (filename_format : igc_filename_format_t),
      later.trackv = some trackv →
      flytec_pbrtl mktime later manufacturer filename_format =
        some (.ok (trackv, later)) := by
    intro later trackv mktime manufacturer filename_format h
    unfold flytec_pbrtl
    rw [h]
  refine ⟨?_, hsnp, ?_, htl, ?_, ?_, ?_, ?_, ?_⟩
  · intro f g snp h
    have hc := flytec_pbrsnp_cached f g snp h
    exact ⟨hc, hsnp g snp hc⟩
  · intro mktime f g manufacturer filename_format trackv h
    have hc := flytec_pbrtl_cached mktime f g manufacturer filename_format trackv h
    exact ⟨hc, fun mktime2 manufacturer2 filename_format2 =>
      htl g trackv mktime2 manufacturer2 filename_format2 hc⟩
  all_goals decide

/-! ## Theorems: decimal numerals as `printf` writes them -/

/-- A listing whose dates do not decrease has equal dates at consecutive positions. -/
theorem contiguous_of_chronological (trackv : List (Option track_t)) (n : Nat)
    (hsorted : ∀ i j ti tj, i < j → j < n → trackv.getD i none = some ti →
      trackv.getD j none = some tj → ti.date ≤ tj.date) :
    ∀ i j k ti tj tk, i < j → j < k → k < n →
      trackv.getD i none = some ti → trackv.getD j none = some tj →
      trackv.getD k none = some tk → ti.date = tk.date → tj.date = ti.date := by
  intro i j k ti tj tk hij hjk hk hi hj hkk hd
  have h1 := hsorted i j ti tj hij (by omega) hi hj
  have h2 := hsorted j k tj tk hjk hk hj hkk
  omega

end Tini
